import Mathlib

/-!
# XenaVersio: the dynamic stochastic synthesis engine

A shallow embedding of `DSSEngine.hpp` / `DSSEngine.cpp`.

* The engine is embedded twice.  In the namespace `DSSEngine` a `float` is read as the
  exact rational it denotes and arithmetic is exact.  In the namespace `DSSEngine.F32`
  every arithmetic operation is rounded to IEEE 754 binary32.  The statements on the
  range of the random source, the termination of `Reflect`, the cycle scenario and the
  phase range depend on rounding and are made about `F32`.
* The 32-bit unsigned seed is a `Nat` reduced modulo `2 ^ 32` after each step.
* `int` members are `Int`.
* The breakpoint table is the fixed array of `MAX_BREAKPOINTS` slots.  An
  index outside the array (undefined behaviour in C++) reads `Breakpoint.zero`
  and drops the write; this only happens when `breakpointCount_` exceeds 16.
* `Reflect` is a `while` loop without an iteration cap.  It is embedded with an
  explicit bound on the number of loop iterations; `none` means that the bound
  was reached.  Every operation that calls `Reflect` carries the same bound.
-/

namespace DSS

/-- Capacity of the breakpoint table (`MAX_BREAKPOINTS`). -/
def MAX_BREAKPOINTS : Nat := 16

/-- The three walk policies (`enum class WalkMode`). -/
inductive WalkMode where
  | FIRST_ORDER
  | SECOND_ORDER
  | CORRELATED
deriving DecidableEq, Repr

/-- One vertex of the waveform (`struct Breakpoint`). -/
structure Breakpoint where
  durationVel : ℚ
  durationPos : ℚ
  amplitudeVel : ℚ
  amplitudePos : ℚ
  currentDuration : ℚ
  currentAmplitude : ℚ
deriving DecidableEq, Repr

/-- Value read from outside the breakpoint array. -/
def Breakpoint.zero : Breakpoint := ⟨0, 0, 0, 0, 0, 0⟩

/-- The breakpoint array `Breakpoint breakpoints_[MAX_BREAKPOINTS]`. -/
abbrev Table := Fin 16 → Breakpoint

/-- Array read `breakpoints_[i]`. -/
def getBp (t : Table) (i : Nat) : Breakpoint :=
  if h : i < 16 then t ⟨i, h⟩ else Breakpoint.zero

/-- Array write `breakpoints_[i] = b`. -/
def setBp (t : Table) (i : Nat) (b : Breakpoint) : Table :=
  if h : i < 16 then Function.update t ⟨i, h⟩ b else t

/-- The private members of `class DSSEngine`. -/
structure DSSEngine where
  breakpoints_ : Table
  sampleRate_ : ℚ
  phase_ : ℚ
  phaseIncrement_ : ℚ
  frequency_ : ℚ
  durationStep_ : ℚ
  amplitudeStep_ : ℚ
  durationBarrier_ : ℚ
  amplitudeBarrier_ : ℚ
  breakpointCount_ : Int
  currentSegment_ : Int
  segmentPhase_ : ℚ
  walkMode_ : WalkMode
  seed_ : Nat

namespace DSSEngine

/-- The constructor `DSSEngine::DSSEngine()`.  It does not initialise the
breakpoint array, whose content `mem` is therefore arbitrary. -/
def construct (mem : Table) : DSSEngine where
  breakpoints_ := mem
  sampleRate_ := 48000
  phase_ := 0
  phaseIncrement_ := 0
  frequency_ := 220
  durationStep_ := 1 / 10
  amplitudeStep_ := 1 / 10
  durationBarrier_ := 1 / 2
  amplitudeBarrier_ := 9 / 10
  breakpointCount_ := 8
  currentSegment_ := 0
  segmentPhase_ := 0
  walkMode_ := WalkMode.SECOND_ORDER
  seed_ := 12345

/-- The method `FastRandom`: one step of the linear congruential generator on `seed_`.
The new seed is also the value returned. -/
def FastRandom (seed : Nat) : Nat :=
  (seed * 1664525 + 1013904223) % 2 ^ 32

/-- The method `RandomBipolar`: the value returned and the new seed. -/
def RandomBipolar (seed : Nat) : ℚ × Nat :=
  let r := FastRandom seed
  ((r : ℚ) / 2147483648 - 1, r)

/-- The method `Reflect`: the loop `while (val < min || val > max) { ... }`, run for at
most `fuel` iterations of its body. -/
def Reflect : Nat → ℚ → ℚ → ℚ → Option ℚ
  | 0, val, min, max =>
    if val < min ∨ val > max then none else some val
  | fuel + 1, val, min, max =>
    if val < min ∨ val > max then
      let val1 := if val < min then min + (min - val) else val
      let val2 := if val1 > max then max - (val1 - max) else val1
      Reflect fuel val2 min max
    else some val

/-- The method `NormalizeDurations`. -/
def NormalizeDurations (s : DSSEngine) : DSSEngine :=
  let n := s.breakpointCount_.toNat
  let total := (List.range n).foldl
    (fun acc i => acc + (getBp s.breakpoints_ i).currentDuration) (0 : ℚ)
  if total > 1 / 10000 then
    let scale := 1 / total
    let scaled := (List.range n).foldl
      (fun t i =>
        let b := getBp t i
        setBp t i { b with currentDuration := b.currentDuration * scale })
      s.breakpoints_
    { s with breakpoints_ := scaled }
  else s

/-- The method `SetFrequency`. -/
def SetFrequency (freq : ℚ) (s : DSSEngine) : DSSEngine :=
  { s with frequency_ := freq, phaseIncrement_ := freq / s.sampleRate_ }

/-- The method `SetDurationStep`. -/
def SetDurationStep (step : ℚ) (s : DSSEngine) : DSSEngine :=
  { s with durationStep_ := step }

/-- The method `SetAmplitudeStep`. -/
def SetAmplitudeStep (step : ℚ) (s : DSSEngine) : DSSEngine :=
  { s with amplitudeStep_ := step }

/-- The method `SetDurationBarrier`. -/
def SetDurationBarrier (barrier : ℚ) (s : DSSEngine) : DSSEngine :=
  { s with durationBarrier_ := barrier }

/-- The method `SetAmplitudeBarrier`. -/
def SetAmplitudeBarrier (barrier : ℚ) (s : DSSEngine) : DSSEngine :=
  { s with amplitudeBarrier_ := barrier }

/-- The method `SetBreakpointCount`. -/
def SetBreakpointCount (count : Int) (s : DSSEngine) : DSSEngine :=
  let count1 := if count < 2 then 2 else count
  let count2 := if count1 > (MAX_BREAKPOINTS : Int) then (MAX_BREAKPOINTS : Int) else count1
  NormalizeDurations { s with breakpointCount_ := count2 }

/-- The method `SetWalkMode`. -/
def SetWalkMode (mode : WalkMode) (s : DSSEngine) : DSSEngine :=
  { s with walkMode_ := mode }

/-- Body of the initialisation loop of `Reset` for index `i`. -/
def Reset.body (s : DSSEngine) (i : Nat) : DSSEngine :=
  let r1 := RandomBipolar s.seed_
  let r2 := RandomBipolar r1.2
  let amplitudePos := r2.1 * (1 / 2)
  let bp : Breakpoint :=
    { durationVel := 0,
      amplitudeVel := 0,
      durationPos := r1.1 * (3 / 10),
      amplitudePos := amplitudePos,
      currentDuration := 1,
      currentAmplitude := amplitudePos }
  { s with breakpoints_ := setBp s.breakpoints_ i bp, seed_ := r2.2 }

/-- The method `Reset`. -/
def Reset (s : DSSEngine) : DSSEngine :=
  let s1 := { s with phase_ := 0, currentSegment_ := 0, segmentPhase_ := 0, seed_ := 12345 }
  let s2 := (List.range MAX_BREAKPOINTS).foldl Reset.body s1
  let b0 := getBp s2.breakpoints_ 0
  let pinned := setBp s2.breakpoints_ 0 { b0 with amplitudePos := 0, currentAmplitude := 0 }
  let s3 := { s2 with breakpoints_ := pinned }
  let s4 := NormalizeDurations s3
  SetFrequency s4.frequency_ s4

/-- The method `Init`. -/
def Init (sampleRate : ℚ) (s : DSSEngine) : DSSEngine :=
  Reset { s with sampleRate_ := sampleRate }

/-- The walk of one breakpoint: the part of the loop body of `UpdateWalks`
before the positions are reflected. -/
def UpdateWalks.walk (fuel : Nat) (s : DSSEngine) (bp : Breakpoint) (randDur randAmp : ℚ) :
    Option Breakpoint :=
  if s.walkMode_ = WalkMode.FIRST_ORDER then
    some { bp with
      durationPos := bp.durationPos + randDur * s.durationStep_,
      amplitudePos := bp.amplitudePos + randAmp * s.amplitudeStep_ }
  else
    let velBarrierDur := s.durationBarrier_ * (1 / 2)
    let velBarrierAmp := s.amplitudeBarrier_ * (1 / 2)
    (Reflect fuel (bp.durationVel + randDur * s.durationStep_)
        (-velBarrierDur) velBarrierDur).bind fun dv =>
    (Reflect fuel (bp.amplitudeVel + randAmp * s.amplitudeStep_)
        (-velBarrierAmp) velBarrierAmp).bind fun av =>
    some { bp with
      durationVel := dv,
      amplitudeVel := av,
      durationPos := bp.durationPos + dv,
      amplitudePos := bp.amplitudePos + av }

/-- Body of the loop of `UpdateWalks` for index `i`. -/
def UpdateWalks.body (fuel : Nat) (s : DSSEngine) (i : Nat) : Option DSSEngine :=
  let bp := getBp s.breakpoints_ i
  let r1 := RandomBipolar s.seed_
  let r2 := if s.walkMode_ = WalkMode.CORRELATED then r1 else RandomBipolar r1.2
  (UpdateWalks.walk fuel s bp r1.1 r2.1).bind fun bp1 =>
  (Reflect fuel bp1.durationPos (-s.durationBarrier_) s.durationBarrier_).bind fun dp =>
  (Reflect fuel bp1.amplitudePos (-s.amplitudeBarrier_) s.amplitudeBarrier_).bind fun ap =>
  let cd := 1 + dp
  let bp2 : Breakpoint :=
    { bp1 with
      durationPos := dp,
      amplitudePos := ap,
      currentDuration := if cd < 1 / 10 then 1 / 10 else cd,
      currentAmplitude := ap }
  some { s with breakpoints_ := setBp s.breakpoints_ i bp2, seed_ := r2.2 }

/-- The method `UpdateWalks`. -/
def UpdateWalks (fuel : Nat) (s : DSSEngine) : Option DSSEngine :=
  ((List.range s.breakpointCount_.toNat).foldlM (UpdateWalks.body fuel) s).bind fun s1 =>
  let b0 := getBp s1.breakpoints_ 0
  let pinned := setBp s1.breakpoints_ 0 { b0 with currentAmplitude := 0, amplitudePos := 0 }
  some (NormalizeDurations { s1 with breakpoints_ := pinned })

/-- The method `Sync`. -/
def Sync (fuel : Nat) (s : DSSEngine) : Option DSSEngine :=
  UpdateWalks fuel { s with phase_ := 0, currentSegment_ := 0, segmentPhase_ := 0 }

/-- The method `LinearInterp`. -/
def LinearInterp (a b t : ℚ) : ℚ := a + (b - a) * t

/-- The segment search loop of `Process`, started at index `i` with `remaining`
indices left; returns `currentSegment_` and `accumulated` at loop exit. -/
def Process.scan (t : Table) (phase : ℚ) : Nat → Nat → ℚ → Nat → Nat × ℚ
  | 0, _, accumulated, currentSegment => (currentSegment, accumulated)
  | remaining + 1, i, accumulated, _ =>
    let nextAccum := accumulated + (getBp t i).currentDuration
    if phase < nextAccum then (i, accumulated)
    else Process.scan t phase remaining (i + 1) nextAccum i

/-- The method `Process`: the sample returned and the new state. -/
def Process (fuel : Nat) (s : DSSEngine) : Option (ℚ × DSSEngine) :=
  let r := Process.scan s.breakpoints_ s.phase_ s.breakpointCount_.toNat 0 0 0
  let currentSegment := r.1
  let accumulated := r.2
  let segmentDuration := (getBp s.breakpoints_ currentSegment).currentDuration
  let sp0 := if segmentDuration > 1 / 10000 then (s.phase_ - accumulated) / segmentDuration else 0
  let sp1 := if sp0 < 0 then 0 else sp0
  let sp2 := if sp1 > 1 then 1 else sp1
  let nextSegment := Int.tmod ((currentSegment : Int) + 1) s.breakpointCount_
  let currentAmp := (getBp s.breakpoints_ currentSegment).currentAmplitude
  let nextAmp := (getBp s.breakpoints_ nextSegment.toNat).currentAmplitude
  let output := LinearInterp currentAmp nextAmp sp2
  let phase1 := s.phase_ + s.phaseIncrement_
  let s1 := { s with currentSegment_ := currentSegment, segmentPhase_ := sp2 }
  if phase1 ≥ 1 then
    (UpdateWalks fuel { s1 with phase_ := phase1 - 1 }).map fun s2 => (output, s2)
  else
    some (output, { s1 with phase_ := phase1 })

/-- One iteration of the body of the `Reflect` loop. -/
def reflectBody (val min max : ℚ) : ℚ :=
  let val1 := if val < min then min + (min - val) else val
  if val1 > max then max - (val1 - max) else val1

/-- Distance of a value from the interval `[min, max]`. -/
def outside (val min max : ℚ) : ℚ := Max.max (Max.max (min - val) (val - max)) 0

/-- The mirror-fold relation between an input of the loop and its result. -/
def MirrorFold (val min max r : ℚ) : Prop :=
  ∃ k : ℤ, r - val = k * (2 * (max - min)) ∨ r + val - 2 * min = k * (2 * (max - min))


/-- Sum of `currentDuration` over the breakpoints `0 .. n-1`. -/
def durationSum (t : Table) (n : Nat) : ℚ :=
  ∑ i in Finset.range n, (getBp t i).currentDuration

/-- The scaling loop of `NormalizeDurations` over the first `n` breakpoints. -/
def scaleDurations (scale : ℚ) (n : Nat) (t : Table) : Table :=
  (List.range n).foldl
    (fun t i =>
      let b := getBp t i
      setBp t i { b with currentDuration := b.currentDuration * scale })
    t

/-- The method `NormalizeDurations` as a function of the active count and the array. -/
def normalizeTable (n : Nat) (t : Table) : Table :=
  if durationSum t n > 1 / 10000 then scaleDurations (1 / durationSum t n) n t else t

/-- The breakpoint that the loop of `Reset` writes when the seed is `seed`. -/
def initialBreakpoint (seed : Nat) : Breakpoint :=
  { durationVel := 0,
    amplitudeVel := 0,
    durationPos := (RandomBipolar seed).1 * (3 / 10),
    amplitudePos := (RandomBipolar (FastRandom seed)).1 * (1 / 2),
    currentDuration := 1,
    currentAmplitude := (RandomBipolar (FastRandom seed)).1 * (1 / 2) }

/-- The array after the loop of `Reset`: slot `j` is drawn after `2 * j` steps of the
generator from the fixed seed. -/
def resetTable : Table :=
  fun j => initialBreakpoint (FastRandom^[2 * j.val] 12345)

/-- The continuity pin: breakpoint 0 gets amplitude zero. -/
def pinFirst (t : Table) : Table :=
  setBp t 0 { getBp t 0 with amplitudePos := 0, currentAmplitude := 0 }

/-- An array without content, for the examples. -/
def zeroTable : Table := fun _ => Breakpoint.zero

/-- The segment index that `Process` selects in state `s`. -/
def Process.segment (s : DSSEngine) : Nat :=
  (Process.scan s.breakpoints_ s.phase_ s.breakpointCount_.toNat 0 0 0).1

/-- The value of `accumulated` when the segment search of `Process` ends. -/
def Process.accumulated (s : DSSEngine) : ℚ :=
  (Process.scan s.breakpoints_ s.phase_ s.breakpointCount_.toNat 0 0 0).2

/-- The clamped `segmentPhase_` that `Process` computes in state `s`. -/
def Process.segmentPhase (s : DSSEngine) : ℚ :=
  let segmentDuration := (getBp s.breakpoints_ (Process.segment s)).currentDuration
  let sp0 := if segmentDuration > 1 / 10000 then
    (s.phase_ - Process.accumulated s) / segmentDuration else 0
  let sp1 := if sp0 < 0 then 0 else sp0
  if sp1 > 1 then 1 else sp1

/-- The sample that `Process` returns in state `s`. -/
def Process.output (s : DSSEngine) : ℚ :=
  LinearInterp (getBp s.breakpoints_ (Process.segment s)).currentAmplitude
    (getBp s.breakpoints_
      (Int.tmod ((Process.segment s : Int) + 1) s.breakpointCount_).toNat).currentAmplitude
    (Process.segmentPhase s)

/-- The state of `Process` after the sample is computed and `phase_` is set to `phase`. -/
def Process.advance (s : DSSEngine) (phase : ℚ) : DSSEngine :=
  { s with
    currentSegment_ := (Process.segment s : Int),
    segmentPhase_ := Process.segmentPhase s,
    phase_ := phase }

/-- The states an engine can be in: `Init` on a freshly constructed engine, followed by
any sequence of `Reset`, `Sync`, `Process` and setter calls (those that return). -/
inductive Reachable : DSSEngine → Prop where
  | init (mem : Table) (sampleRate : ℚ) : Reachable (Init sampleRate (construct mem))
  | reset {s : DSSEngine} : Reachable s → Reachable (Reset s)
  | sync {s s' : DSSEngine} (fuel : Nat) :
      Reachable s → Sync fuel s = some s' → Reachable s'
  | process {s s' : DSSEngine} (fuel : Nat) (out : ℚ) :
      Reachable s → Process fuel s = some (out, s') → Reachable s'
  | setFrequency {s : DSSEngine} (freq : ℚ) : Reachable s → Reachable (SetFrequency freq s)
  | setDurationStep {s : DSSEngine} (step : ℚ) :
      Reachable s → Reachable (SetDurationStep step s)
  | setAmplitudeStep {s : DSSEngine} (step : ℚ) :
      Reachable s → Reachable (SetAmplitudeStep step s)
  | setDurationBarrier {s : DSSEngine} (barrier : ℚ) :
      Reachable s → Reachable (SetDurationBarrier barrier s)
  | setAmplitudeBarrier {s : DSSEngine} (barrier : ℚ) :
      Reachable s → Reachable (SetAmplitudeBarrier barrier s)
  | setBreakpointCount {s : DSSEngine} (count : Int) :
      Reachable s → Reachable (SetBreakpointCount count s)
  | setWalkMode {s : DSSEngine} (mode : WalkMode) :
      Reachable s → Reachable (SetWalkMode mode s)

/-- The same, when no barrier setter call lowers the stored barrier. -/
inductive ReachableWidening : DSSEngine → Prop where
  | init (mem : Table) (sampleRate : ℚ) : ReachableWidening (Init sampleRate (construct mem))
  | reset {s : DSSEngine} : ReachableWidening s → ReachableWidening (Reset s)
  | sync {s s' : DSSEngine} (fuel : Nat) :
      ReachableWidening s → Sync fuel s = some s' → ReachableWidening s'
  | process {s s' : DSSEngine} (fuel : Nat) (out : ℚ) :
      ReachableWidening s → Process fuel s = some (out, s') → ReachableWidening s'
  | setFrequency {s : DSSEngine} (freq : ℚ) :
      ReachableWidening s → ReachableWidening (SetFrequency freq s)
  | setDurationStep {s : DSSEngine} (step : ℚ) :
      ReachableWidening s → ReachableWidening (SetDurationStep step s)
  | setAmplitudeStep {s : DSSEngine} (step : ℚ) :
      ReachableWidening s → ReachableWidening (SetAmplitudeStep step s)
  | setDurationBarrier {s : DSSEngine} (barrier : ℚ) :
      ReachableWidening s → s.durationBarrier_ ≤ barrier →
      ReachableWidening (SetDurationBarrier barrier s)
  | setAmplitudeBarrier {s : DSSEngine} (barrier : ℚ) :
      ReachableWidening s → s.amplitudeBarrier_ ≤ barrier →
      ReachableWidening (SetAmplitudeBarrier barrier s)
  | setBreakpointCount {s : DSSEngine} (count : Int) :
      ReachableWidening s → ReachableWidening (SetBreakpointCount count s)
  | setWalkMode {s : DSSEngine} (mode : WalkMode) :
      ReachableWidening s → ReachableWidening (SetWalkMode mode s)

/-- Barrier containment of the active breakpoints, for the barriers stored in `s`. -/
def BarrierContained (s : DSSEngine) : Prop :=
  ∀ i : Nat, (i : Int) < s.breakpointCount_ →
    -s.durationBarrier_ ≤ (getBp s.breakpoints_ i).durationPos ∧
    (getBp s.breakpoints_ i).durationPos ≤ s.durationBarrier_ ∧
    -s.amplitudeBarrier_ ≤ (getBp s.breakpoints_ i).amplitudePos ∧
    (getBp s.breakpoints_ i).amplitudePos ≤ s.amplitudeBarrier_

/-- The configuration members agree: sample rate, frequency, step sizes, barriers,
active count and walk mode. -/
def SameConfig (s s' : DSSEngine) : Prop :=
  s.sampleRate_ = s'.sampleRate_ ∧ s.frequency_ = s'.frequency_ ∧
  s.durationStep_ = s'.durationStep_ ∧ s.amplitudeStep_ = s'.amplitudeStep_ ∧
  s.durationBarrier_ = s'.durationBarrier_ ∧ s.amplitudeBarrier_ = s'.amplitudeBarrier_ ∧
  s.breakpointCount_ = s'.breakpointCount_ ∧ s.walkMode_ = s'.walkMode_

/-- A run of `k` consecutive calls of `Process`: the samples returned, in order, and the state
afterwards. -/
def Process.run (fuel : Nat) : Nat → DSSEngine → Option (List ℚ × DSSEngine)
  | 0, s => some ([], s)
  | k + 1, s =>
    (Process fuel s).bind fun r =>
    (Process.run fuel k r.2).map fun q => (r.1 :: q.1, q.2)

/-- Overwrite the phase and segment tracking members. -/
def setPhase (phase : ℚ) (currentSegment : Int) (segmentPhase : ℚ) (s : DSSEngine) :
    DSSEngine :=
  { s with phase_ := phase, currentSegment_ := currentSegment, segmentPhase_ := segmentPhase }

/-- A run of `k` consecutive calls of `Process`, recording for each call whether the cycle
completion branch `if (phase_ >= 1.0f)` was taken, that is whether `UpdateWalks` ran. -/
def Process.trace (fuel : Nat) : Nat → DSSEngine → Option (List Bool × DSSEngine)
  | 0, s => some ([], s)
  | k + 1, s =>
    (Process fuel s).bind fun r =>
    (Process.trace fuel k r.2).map fun q =>
      (decide (s.phase_ + s.phaseIncrement_ ≥ 1) :: q.1, q.2)

/-- The invariant behind barrier containment when barriers are never lowered: the count
is in `[2, 16]`, the barriers are at least their initial values, and all 16 slots hold
positions inside the barriers. -/
def WideningInv (s : DSSEngine) : Prop :=
  2 ≤ s.breakpointCount_ ∧ s.breakpointCount_ ≤ 16 ∧
  1 / 2 ≤ s.durationBarrier_ ∧ 9 / 10 ≤ s.amplitudeBarrier_ ∧
  ∀ j, j < 16 →
    -s.durationBarrier_ ≤ (getBp s.breakpoints_ j).durationPos ∧
    (getBp s.breakpoints_ j).durationPos ≤ s.durationBarrier_ ∧
    -s.amplitudeBarrier_ ≤ (getBp s.breakpoints_ j).amplitudePos ∧
    (getBp s.breakpoints_ j).amplitudePos ≤ s.amplitudeBarrier_

/-- The segment index of the sample formula: the least index `i` below the active count
with `phase < d_0 + ... + d_i`, or the last active index when there is none. -/
def specSegment (s : DSSEngine) : Nat :=
  match (List.range s.breakpointCount_.toNat).find?
      (fun i => decide (s.phase_ < durationSum s.breakpoints_ (i + 1))) with
  | some i => i
  | none => s.breakpointCount_.toNat - 1

/-- The sample formula: with `k` the segment index, `a_k + (a_((k+1) mod n) - a_k) * t`
where `t` is `(phase - (d_0 + ... + d_(k-1))) / d_k` clamped to `[0, 1]` when
`d_k > 0.0001`, and 0 otherwise. -/
def specSample (s : DSSEngine) : ℚ :=
  let k := specSegment s
  let d := (getBp s.breakpoints_ k).currentDuration
  let t := if d > 1 / 10000 then
    Max.max 0 (Min.min ((s.phase_ - durationSum s.breakpoints_ k) / d) 1) else 0
  let a := (getBp s.breakpoints_ k).currentAmplitude
  let b := (getBp s.breakpoints_ ((k + 1) % s.breakpointCount_.toNat)).currentAmplitude
  a + (b - a) * t

/-- Whether some cumulative duration boundary of the active breakpoints exceeds the
phase, that is whether the segment search of `Process` leaves its loop by `break`. -/
def boundaryExceedsPhase (s : DSSEngine) : Prop :=
  ∃ i, i < s.breakpointCount_.toNat ∧ s.phase_ < durationSum s.breakpoints_ (i + 1)

/-- Number of generator steps that one iteration of the loop of `UpdateWalks` takes: one
in correlated mode, two otherwise. -/
def UpdateWalks.drawsPerBreakpoint (s : DSSEngine) : Nat :=
  if s.walkMode_ = WalkMode.CORRELATED then 1 else 2

/-- The value `randDur` that an iteration of the loop of `UpdateWalks` draws when it
starts with seed `seed`. -/
def UpdateWalks.randDur (seed : Nat) : ℚ := (RandomBipolar seed).1

/-- The value `randAmp` of the same iteration: `randDur` again in correlated mode, the next
draw otherwise. -/
def UpdateWalks.randAmp (s : DSSEngine) (seed : Nat) : ℚ :=
  if s.walkMode_ = WalkMode.CORRELATED then (RandomBipolar seed).1
  else (RandomBipolar (FastRandom seed)).1

/-- The breakpoint that an iteration of the loop of `UpdateWalks` writes, from the
breakpoint `bp` it reads and the seed it starts with. -/
def UpdateWalks.slot (fuel : Nat) (s : DSSEngine) (bp : Breakpoint) (seed : Nat) :
    Option Breakpoint :=
  (UpdateWalks.walk fuel s bp (UpdateWalks.randDur seed) (UpdateWalks.randAmp s seed)).bind
    fun bp1 =>
  (Reflect fuel bp1.durationPos (-s.durationBarrier_) s.durationBarrier_).bind fun dp =>
  (Reflect fuel bp1.amplitudePos (-s.amplitudeBarrier_) s.amplitudeBarrier_).bind fun ap =>
  let cd := 1 + dp
  some { bp1 with
    durationPos := dp,
    amplitudePos := ap,
    currentDuration := if cd < 1 / 10 then 1 / 10 else cd,
    currentAmplitude := ap }

/-- The frequency condition: a positive sample rate, a frequency between 0 and the
sample rate, and the phase increment derived from them. -/
def FrequencyCondition (s : DSSEngine) : Prop :=
  0 < s.sampleRate_ ∧ 0 ≤ s.frequency_ ∧ s.frequency_ ≤ s.sampleRate_ ∧
  s.phaseIncrement_ = s.frequency_ / s.sampleRate_

/-- The states reachable under the frequency condition: `Init` with a sample rate of at
least the constructor's frequency 220, and `SetFrequency` only with frequencies between 0
and the sample rate. -/
inductive ReachableFreq : DSSEngine → Prop where
  | init (mem : Table) (sampleRate : ℚ) : 220 ≤ sampleRate →
      ReachableFreq (Init sampleRate (construct mem))
  | reset {s : DSSEngine} : ReachableFreq s → ReachableFreq (Reset s)
  | sync {s s' : DSSEngine} (fuel : Nat) :
      ReachableFreq s → Sync fuel s = some s' → ReachableFreq s'
  | process {s s' : DSSEngine} (fuel : Nat) (out : ℚ) :
      ReachableFreq s → Process fuel s = some (out, s') → ReachableFreq s'
  | setFrequency {s : DSSEngine} (freq : ℚ) :
      ReachableFreq s → 0 ≤ freq → freq ≤ s.sampleRate_ → ReachableFreq (SetFrequency freq s)
  | setDurationStep {s : DSSEngine} (step : ℚ) :
      ReachableFreq s → ReachableFreq (SetDurationStep step s)
  | setAmplitudeStep {s : DSSEngine} (step : ℚ) :
      ReachableFreq s → ReachableFreq (SetAmplitudeStep step s)
  | setDurationBarrier {s : DSSEngine} (barrier : ℚ) :
      ReachableFreq s → ReachableFreq (SetDurationBarrier barrier s)
  | setAmplitudeBarrier {s : DSSEngine} (barrier : ℚ) :
      ReachableFreq s → ReachableFreq (SetAmplitudeBarrier barrier s)
  | setBreakpointCount {s : DSSEngine} (count : Int) :
      ReachableFreq s → ReachableFreq (SetBreakpointCount count s)
  | setWalkMode {s : DSSEngine} (mode : WalkMode) :
      ReachableFreq s → ReachableFreq (SetWalkMode mode s)

/-- The states reachable when every duration-barrier argument is positive and every
amplitude-barrier argument lies in `(0, 1]`. -/
inductive ReachableBounded : DSSEngine → Prop where
  | init (mem : Table) (sampleRate : ℚ) : ReachableBounded (Init sampleRate (construct mem))
  | reset {s : DSSEngine} : ReachableBounded s → ReachableBounded (Reset s)
  | sync {s s' : DSSEngine} (fuel : Nat) :
      ReachableBounded s → Sync fuel s = some s' → ReachableBounded s'
  | process {s s' : DSSEngine} (fuel : Nat) (out : ℚ) :
      ReachableBounded s → Process fuel s = some (out, s') → ReachableBounded s'
  | setFrequency {s : DSSEngine} (freq : ℚ) :
      ReachableBounded s → ReachableBounded (SetFrequency freq s)
  | setDurationStep {s : DSSEngine} (step : ℚ) :
      ReachableBounded s → ReachableBounded (SetDurationStep step s)
  | setAmplitudeStep {s : DSSEngine} (step : ℚ) :
      ReachableBounded s → ReachableBounded (SetAmplitudeStep step s)
  | setDurationBarrier {s : DSSEngine} (barrier : ℚ) :
      ReachableBounded s → 0 < barrier → ReachableBounded (SetDurationBarrier barrier s)
  | setAmplitudeBarrier {s : DSSEngine} (barrier : ℚ) :
      ReachableBounded s → 0 < barrier → barrier ≤ 1 →
      ReachableBounded (SetAmplitudeBarrier barrier s)
  | setBreakpointCount {s : DSSEngine} (count : Int) :
      ReachableBounded s → ReachableBounded (SetBreakpointCount count s)
  | setWalkMode {s : DSSEngine} (mode : WalkMode) :
      ReachableBounded s → ReachableBounded (SetWalkMode mode s)

/-- The invariant behind the output range: a count in `[2, 16]`, positive barriers, an
amplitude barrier of at most 1, and all 16 slots with `currentAmplitude` in `[-1, 1]`. -/
def AmplitudeInv (s : DSSEngine) : Prop :=
  2 ≤ s.breakpointCount_ ∧ s.breakpointCount_ ≤ 16 ∧
  0 < s.durationBarrier_ ∧ 0 < s.amplitudeBarrier_ ∧ s.amplitudeBarrier_ ≤ 1 ∧
  ∀ j, j < 16 →
    -1 ≤ (getBp s.breakpoints_ j).currentAmplitude ∧
    (getBp s.breakpoints_ j).currentAmplitude ≤ 1

/-- The state after `Init(48000)`, `SetBreakpointCount(2)`, `Reset()` and then
`SetBreakpointCount(3)`, `SetBreakpointCount(4)`, ..., `SetBreakpointCount(16)`. -/
def countSweep : DSSEngine :=
  (List.range' 3 14).foldl (fun s n => SetBreakpointCount (n : Int) s)
    (Reset (SetBreakpointCount 2 (Init 48000 (construct zeroTable))))

/-- Draw number `j` (counted from 0) of the generator started at `seed`: the value that
`RandomBipolar` returns on its call number `j`. -/
def nthDraw (seed : Nat) (j : Nat) : ℚ := (RandomBipolar (FastRandom^[j] seed)).1

/-- The states reachable from construction by any sequence of public operations. -/
inductive ReachableFromConstruct : DSSEngine → Prop where
  | construct (mem : Table) : ReachableFromConstruct (construct mem)
  | init {s : DSSEngine} (sampleRate : ℚ) :
      ReachableFromConstruct s → ReachableFromConstruct (Init sampleRate s)
  | reset {s : DSSEngine} : ReachableFromConstruct s → ReachableFromConstruct (Reset s)
  | sync {s s' : DSSEngine} (fuel : Nat) :
      ReachableFromConstruct s → Sync fuel s = some s' → ReachableFromConstruct s'
  | process {s s' : DSSEngine} (fuel : Nat) (out : ℚ) :
      ReachableFromConstruct s → Process fuel s = some (out, s') → ReachableFromConstruct s'
  | setFrequency {s : DSSEngine} (freq : ℚ) :
      ReachableFromConstruct s → ReachableFromConstruct (SetFrequency freq s)
  | setDurationStep {s : DSSEngine} (step : ℚ) :
      ReachableFromConstruct s → ReachableFromConstruct (SetDurationStep step s)
  | setAmplitudeStep {s : DSSEngine} (step : ℚ) :
      ReachableFromConstruct s → ReachableFromConstruct (SetAmplitudeStep step s)
  | setDurationBarrier {s : DSSEngine} (barrier : ℚ) :
      ReachableFromConstruct s → ReachableFromConstruct (SetDurationBarrier barrier s)
  | setAmplitudeBarrier {s : DSSEngine} (barrier : ℚ) :
      ReachableFromConstruct s → ReachableFromConstruct (SetAmplitudeBarrier barrier s)
  | setBreakpointCount {s : DSSEngine} (count : Int) :
      ReachableFromConstruct s → ReachableFromConstruct (SetBreakpointCount count s)
  | setWalkMode {s : DSSEngine} (mode : WalkMode) :
      ReachableFromConstruct s → ReachableFromConstruct (SetWalkMode mode s)

/-- The values of `i` in a loop `for (int i = 0; i < breakpointCount_; ++i)`. -/
def countLoop (s : DSSEngine) : List Int :=
  (List.range s.breakpointCount_.toNat).map fun (i : Nat) => (i : Int)

/-- The array subscripts in `NormalizeDurations`: `i` in the summing loop and `i` in the
scaling loop (which runs only when the total exceeds the epsilon). -/
def NormalizeDurations.indices (s : DSSEngine) : List Int :=
  countLoop s ++ countLoop s

/-- The array subscripts in `Reset`: `i` in the loop up to `MAX_BREAKPOINTS`, the constant
0 of the continuity pin, and those of `NormalizeDurations`. -/
def Reset.indices (s : DSSEngine) : List Int :=
  ((List.range MAX_BREAKPOINTS).map fun (i : Nat) => (i : Int)) ++ [0, 0] ++ NormalizeDurations.indices s

/-- The array subscripts in `UpdateWalks`: `i` in the loop over the active breakpoints, the
constant 0 of the continuity pin, and those of `NormalizeDurations`. -/
def UpdateWalks.indices (s : DSSEngine) : List Int :=
  countLoop s ++ [0, 0] ++ NormalizeDurations.indices s

/-- The values of `i` for which the segment search of `Process` reads `breakpoints_[i]`,
started at index `i` with `remaining` indices left. -/
def Process.scanIndices (t : Table) (phase : ℚ) : Nat → Nat → ℚ → List Int
  | 0, _, _ => []
  | remaining + 1, i, accumulated =>
    let nextAccum := accumulated + (getBp t i).currentDuration
    (i : Int) :: (if phase < nextAccum then []
      else Process.scanIndices t phase remaining (i + 1) nextAccum)

/-- The array subscripts in `Process` before the cycle check: `i` in the segment search,
`currentSegment_` (read for the duration and for the amplitude) and `nextSegment`. -/
def Process.indices (s : DSSEngine) : List Int :=
  Process.scanIndices s.breakpoints_ s.phase_ s.breakpointCount_.toNat 0 0 ++
    [(Process.segment s : Int), (Process.segment s : Int),
      Int.tmod ((Process.segment s : Int) + 1) s.breakpointCount_]

/-! ## Single-precision arithmetic

The definitions above read every `float` as the exact rational it denotes.  The namespace
`F32` repeats the engine with the arithmetic of an IEEE 754 binary32 `float`: every
conversion, addition, subtraction, multiplication and division is followed by a rounding
to the nearest value with a 24-bit significand, ties to the even significand.  Operations
are rounded one by one, as written in the source (no fused multiply-add).  The exponent
range is not bounded: overflow to infinity, gradual underflow and NaN are outside the
model.  A state holds `float` members as the rationals they denote; setters are plain
assignments and are shared with the exact embedding. -/

namespace F32

/-- The power of two `2 ^ e` for an integer exponent. -/
def pow2 (e : Int) : ℚ :=
  if 0 ≤ e then ((2 ^ e.toNat : Nat) : ℚ) else 1 / ((2 ^ (-e).toNat : Nat) : ℚ)

/-- Rounding of a non-negative rational to the nearest integer, ties to the even one. -/
def roundNearestEven (x : ℚ) : Int :=
  let f := ⌊x⌋
  let r := x - (f : ℚ)
  if r < 1 / 2 then f
  else if r > 1 / 2 then f + 1
  else if f % 2 = 0 then f else f + 1

/-- The binary logarithm of a natural number, by at most `fuel` halvings. -/
def log2Fuel : Nat → Nat → Nat
  | 0, _ => 0
  | fuel + 1, n => if n < 2 then 0 else log2Fuel fuel (n / 2) + 1

/-- The binary logarithm of a positive natural number, rounded down. -/
def log2 (n : Nat) : Nat := log2Fuel n n

/-- The binary exponent of a non-zero rational: the integer `e` with
`2 ^ e <= |x| < 2 ^ (e + 1)`. -/
def exponent (x : ℚ) : Int :=
  let d : Int := (log2 x.num.natAbs : Int) - (log2 x.den : Int)
  if pow2 d ≤ |x| then d else d - 1

/-- The spacing of the `float` values around a non-zero rational with binary exponent `e`:
`2 ^ (e - 23)`. -/
def ulp (x : ℚ) : ℚ := pow2 (exponent x - 23)

/-- Rounding of a rational to `float`: the nearest multiple of the spacing `ulp x`, ties to
the even multiple. -/
def toFloat (x : ℚ) : ℚ :=
  if x = 0 then 0
  else if x < 0 then -((roundNearestEven (-x / ulp x) : ℚ) * ulp x)
  else (roundNearestEven (x / ulp x) : ℚ) * ulp x

/-- The rationals that are `float` values. -/
abbrev IsFloat (x : ℚ) : Prop := toFloat x = x

/-- The constructor `DSSEngine::DSSEngine()`, with the literals `0.1f` and `0.9f` rounded
to `float`.  The breakpoint array is not initialised; its content is `mem`. -/
def construct (mem : Table) : DSSEngine where
  breakpoints_ := mem
  sampleRate_ := 48000
  phase_ := 0
  phaseIncrement_ := 0
  frequency_ := 220
  durationStep_ := toFloat (1 / 10)
  amplitudeStep_ := toFloat (1 / 10)
  durationBarrier_ := 1 / 2
  amplitudeBarrier_ := toFloat (9 / 10)
  breakpointCount_ := 8
  currentSegment_ := 0
  segmentPhase_ := 0
  walkMode_ := WalkMode.SECOND_ORDER
  seed_ := 12345

/-- The method `RandomBipolar`: the value returned and the new seed. -/
def RandomBipolar (seed : Nat) : ℚ × Nat :=
  let r := FastRandom seed
  (toFloat (toFloat (toFloat (r : ℚ) / 2147483648) - 1), r)

/-- The method `Reflect`: the loop `while (val < min || val > max) { ... }`, run for at
most `fuel` iterations of its body. -/
def Reflect : Nat → ℚ → ℚ → ℚ → Option ℚ
  | 0, val, min, max =>
    if val < min ∨ val > max then none else some val
  | fuel + 1, val, min, max =>
    if val < min ∨ val > max then
      let val1 := if val < min then toFloat (min + toFloat (min - val)) else val
      let val2 := if val1 > max then toFloat (max - toFloat (val1 - max)) else val1
      Reflect fuel val2 min max
    else some val

/-- The method `NormalizeDurations`. -/
def NormalizeDurations (s : DSSEngine) : DSSEngine :=
  let n := s.breakpointCount_.toNat
  let total := (List.range n).foldl
    (fun acc i => toFloat (acc + (getBp s.breakpoints_ i).currentDuration)) (0 : ℚ)
  if total > toFloat (1 / 10000) then
    let scale := toFloat (1 / total)
    let scaled := (List.range n).foldl
      (fun t i =>
        let b := getBp t i
        setBp t i { b with currentDuration := toFloat (b.currentDuration * scale) })
      s.breakpoints_
    { s with breakpoints_ := scaled }
  else s

/-- The method `SetFrequency`. -/
def SetFrequency (freq : ℚ) (s : DSSEngine) : DSSEngine :=
  { s with frequency_ := freq, phaseIncrement_ := toFloat (freq / s.sampleRate_) }

/-- The method `SetBreakpointCount`. -/
def SetBreakpointCount (count : Int) (s : DSSEngine) : DSSEngine :=
  let count1 := if count < 2 then 2 else count
  let count2 := if count1 > (MAX_BREAKPOINTS : Int) then (MAX_BREAKPOINTS : Int) else count1
  NormalizeDurations { s with breakpointCount_ := count2 }

/-- Body of the initialisation loop of `Reset` for index `i`. -/
def Reset.body (s : DSSEngine) (i : Nat) : DSSEngine :=
  let r1 := RandomBipolar s.seed_
  let r2 := RandomBipolar r1.2
  let amplitudePos := toFloat (r2.1 * (1 / 2))
  let bp : Breakpoint :=
    { durationVel := 0,
      amplitudeVel := 0,
      durationPos := toFloat (r1.1 * toFloat (3 / 10)),
      amplitudePos := amplitudePos,
      currentDuration := 1,
      currentAmplitude := amplitudePos }
  { s with breakpoints_ := setBp s.breakpoints_ i bp, seed_ := r2.2 }

/-- The method `Reset`. -/
def Reset (s : DSSEngine) : DSSEngine :=
  let s1 := { s with phase_ := 0, currentSegment_ := 0, segmentPhase_ := 0, seed_ := 12345 }
  let s2 := (List.range MAX_BREAKPOINTS).foldl Reset.body s1
  let b0 := getBp s2.breakpoints_ 0
  let pinned := setBp s2.breakpoints_ 0 { b0 with amplitudePos := 0, currentAmplitude := 0 }
  let s3 := { s2 with breakpoints_ := pinned }
  let s4 := NormalizeDurations s3
  SetFrequency s4.frequency_ s4

/-- The method `Init`. -/
def Init (sampleRate : ℚ) (s : DSSEngine) : DSSEngine :=
  Reset { s with sampleRate_ := sampleRate }

/-- The walk of one breakpoint: the part of the loop body of `UpdateWalks`
before the positions are reflected. -/
def UpdateWalks.walk (fuel : Nat) (s : DSSEngine) (bp : Breakpoint) (randDur randAmp : ℚ) :
    Option Breakpoint :=
  if s.walkMode_ = WalkMode.FIRST_ORDER then
    some { bp with
      durationPos := toFloat (bp.durationPos + toFloat (randDur * s.durationStep_)),
      amplitudePos := toFloat (bp.amplitudePos + toFloat (randAmp * s.amplitudeStep_)) }
  else
    let velBarrierDur := toFloat (s.durationBarrier_ * (1 / 2))
    let velBarrierAmp := toFloat (s.amplitudeBarrier_ * (1 / 2))
    (Reflect fuel (toFloat (bp.durationVel + toFloat (randDur * s.durationStep_)))
        (-velBarrierDur) velBarrierDur).bind fun dv =>
    (Reflect fuel (toFloat (bp.amplitudeVel + toFloat (randAmp * s.amplitudeStep_)))
        (-velBarrierAmp) velBarrierAmp).bind fun av =>
    some { bp with
      durationVel := dv,
      amplitudeVel := av,
      durationPos := toFloat (bp.durationPos + dv),
      amplitudePos := toFloat (bp.amplitudePos + av) }

/-- Body of the loop of `UpdateWalks` for index `i`. -/
def UpdateWalks.body (fuel : Nat) (s : DSSEngine) (i : Nat) : Option DSSEngine :=
  let bp := getBp s.breakpoints_ i
  let r1 := RandomBipolar s.seed_
  let r2 := if s.walkMode_ = WalkMode.CORRELATED then r1 else RandomBipolar r1.2
  (UpdateWalks.walk fuel s bp r1.1 r2.1).bind fun bp1 =>
  (Reflect fuel bp1.durationPos (-s.durationBarrier_) s.durationBarrier_).bind fun dp =>
  (Reflect fuel bp1.amplitudePos (-s.amplitudeBarrier_) s.amplitudeBarrier_).bind fun ap =>
  let cd := toFloat (1 + dp)
  let bp2 : Breakpoint :=
    { bp1 with
      durationPos := dp,
      amplitudePos := ap,
      currentDuration := if cd < toFloat (1 / 10) then toFloat (1 / 10) else cd,
      currentAmplitude := ap }
  some { s with breakpoints_ := setBp s.breakpoints_ i bp2, seed_ := r2.2 }

/-- The method `UpdateWalks`. -/
def UpdateWalks (fuel : Nat) (s : DSSEngine) : Option DSSEngine :=
  ((List.range s.breakpointCount_.toNat).foldlM (UpdateWalks.body fuel) s).bind fun s1 =>
  let b0 := getBp s1.breakpoints_ 0
  let pinned := setBp s1.breakpoints_ 0 { b0 with currentAmplitude := 0, amplitudePos := 0 }
  some (NormalizeDurations { s1 with breakpoints_ := pinned })

/-- The method `Sync`. -/
def Sync (fuel : Nat) (s : DSSEngine) : Option DSSEngine :=
  UpdateWalks fuel { s with phase_ := 0, currentSegment_ := 0, segmentPhase_ := 0 }

/-- The method `LinearInterp`. -/
def LinearInterp (a b t : ℚ) : ℚ := toFloat (a + toFloat (toFloat (b - a) * t))

/-- The segment search loop of `Process`, started at index `i` with `remaining`
indices left; returns `currentSegment_` and `accumulated` at loop exit. -/
def Process.scan (t : Table) (phase : ℚ) : Nat → Nat → ℚ → Nat → Nat × ℚ
  | 0, _, accumulated, currentSegment => (currentSegment, accumulated)
  | remaining + 1, i, accumulated, _ =>
    let nextAccum := toFloat (accumulated + (getBp t i).currentDuration)
    if phase < nextAccum then (i, accumulated)
    else Process.scan t phase remaining (i + 1) nextAccum i

/-- The method `Process`: the sample returned and the new state. -/
def Process (fuel : Nat) (s : DSSEngine) : Option (ℚ × DSSEngine) :=
  let r := Process.scan s.breakpoints_ s.phase_ s.breakpointCount_.toNat 0 0 0
  let currentSegment := r.1
  let accumulated := r.2
  let segmentDuration := (getBp s.breakpoints_ currentSegment).currentDuration
  let sp0 := if segmentDuration > toFloat (1 / 10000) then
    toFloat (toFloat (s.phase_ - accumulated) / segmentDuration) else 0
  let sp1 := if sp0 < 0 then 0 else sp0
  let sp2 := if sp1 > 1 then 1 else sp1
  let nextSegment := Int.tmod ((currentSegment : Int) + 1) s.breakpointCount_
  let currentAmp := (getBp s.breakpoints_ currentSegment).currentAmplitude
  let nextAmp := (getBp s.breakpoints_ nextSegment.toNat).currentAmplitude
  let output := LinearInterp currentAmp nextAmp sp2
  let phase1 := toFloat (s.phase_ + s.phaseIncrement_)
  let s1 := { s with currentSegment_ := currentSegment, segmentPhase_ := sp2 }
  if phase1 ≥ 1 then
    (UpdateWalks fuel { s1 with phase_ := toFloat (phase1 - 1) }).map fun s2 => (output, s2)
  else
    some (output, { s1 with phase_ := phase1 })

/-- A run of `k` consecutive calls of `Process`: the samples returned, in order, and the
state afterwards. -/
def Process.run (fuel : Nat) : Nat → DSSEngine → Option (List ℚ × DSSEngine)
  | 0, s => some ([], s)
  | k + 1, s =>
    (Process fuel s).bind fun r =>
    (Process.run fuel k r.2).map fun q => (r.1 :: q.1, q.2)

/-- One iteration of the body of the `Reflect` loop. -/
def reflectBody (val min max : ℚ) : ℚ :=
  let val1 := if val < min then toFloat (min + toFloat (min - val)) else val
  if val1 > max then toFloat (max - toFloat (val1 - max)) else val1

/-- The segment index that `Process` selects in state `s`. -/
def Process.segment (s : DSSEngine) : Nat :=
  (Process.scan s.breakpoints_ s.phase_ s.breakpointCount_.toNat 0 0 0).1

/-- The value of `accumulated` when the segment search of `Process` ends. -/
def Process.accumulated (s : DSSEngine) : ℚ :=
  (Process.scan s.breakpoints_ s.phase_ s.breakpointCount_.toNat 0 0 0).2

/-- The clamped `segmentPhase_` that `Process` computes in state `s`. -/
def Process.segmentPhase (s : DSSEngine) : ℚ :=
  let segmentDuration := (getBp s.breakpoints_ (Process.segment s)).currentDuration
  let sp0 := if segmentDuration > toFloat (1 / 10000) then
    toFloat (toFloat (s.phase_ - Process.accumulated s) / segmentDuration) else 0
  let sp1 := if sp0 < 0 then 0 else sp0
  if sp1 > 1 then 1 else sp1

/-- The sample that `Process` returns in state `s`. -/
def Process.output (s : DSSEngine) : ℚ :=
  LinearInterp (getBp s.breakpoints_ (Process.segment s)).currentAmplitude
    (getBp s.breakpoints_
      (Int.tmod ((Process.segment s : Int) + 1) s.breakpointCount_).toNat).currentAmplitude
    (Process.segmentPhase s)

/-- The state of `Process` after the sample is computed and `phase_` is set to `phase`. -/
def Process.advance (s : DSSEngine) (phase : ℚ) : DSSEngine :=
  { s with
    currentSegment_ := (Process.segment s : Int),
    segmentPhase_ := Process.segmentPhase s,
    phase_ := phase }

/-- The members that `UpdateWalks` writes: the 16 slots of the array and the seed. -/
def walkState (s : DSSEngine) : List Breakpoint × Nat :=
  ((List.range MAX_BREAKPOINTS).map (getBp s.breakpoints_), s.seed_)

/-- A run of `k` consecutive calls of `Process`, recording for each call the phase after
the call and whether the call left the array and the seed as they were.  `UpdateWalks` is
the only code reached from `Process` that writes them. -/
def Process.log (fuel : Nat) : Nat → DSSEngine → Option (List (ℚ × Bool) × DSSEngine)
  | 0, s => some ([], s)
  | k + 1, s =>
    (Process fuel s).bind fun r =>
    (Process.log fuel k r.2).map fun q =>
      ((r.2.phase_, decide (walkState r.2 = walkState s)) :: q.1, q.2)

/-- The frequency condition on `float` members: a positive sample rate, a frequency that
is at least 0 and below the sample rate, and the phase increment derived from them. -/
def FrequencyCondition (s : DSSEngine) : Prop :=
  IsFloat s.sampleRate_ ∧ IsFloat s.frequency_ ∧
  0 < s.sampleRate_ ∧ 0 ≤ s.frequency_ ∧ s.frequency_ < s.sampleRate_ ∧
  s.phaseIncrement_ = toFloat (s.frequency_ / s.sampleRate_)

/-- The states reachable under the frequency condition: `Init` with a `float` sample rate
above the constructor's frequency 220, and `SetFrequency` only with `float` frequencies
that are at least 0 and below the sample rate; `Sync` and `Process` calls that return. -/
inductive ReachableFreq : DSSEngine → Prop where
  | init (mem : Table) (sampleRate : ℚ) : IsFloat sampleRate → 220 < sampleRate →
      ReachableFreq (Init sampleRate (construct mem))
  | reset {s : DSSEngine} : ReachableFreq s → ReachableFreq (Reset s)
  | sync {s s' : DSSEngine} (fuel : Nat) :
      ReachableFreq s → Sync fuel s = some s' → ReachableFreq s'
  | process {s s' : DSSEngine} (fuel : Nat) (out : ℚ) :
      ReachableFreq s → Process fuel s = some (out, s') → ReachableFreq s'
  | setFrequency {s : DSSEngine} (freq : ℚ) :
      ReachableFreq s → IsFloat freq → 0 ≤ freq → freq < s.sampleRate_ →
      ReachableFreq (SetFrequency freq s)
  | setDurationStep {s : DSSEngine} (step : ℚ) :
      ReachableFreq s → ReachableFreq (SetDurationStep step s)
  | setAmplitudeStep {s : DSSEngine} (step : ℚ) :
      ReachableFreq s → ReachableFreq (SetAmplitudeStep step s)
  | setDurationBarrier {s : DSSEngine} (barrier : ℚ) :
      ReachableFreq s → ReachableFreq (SetDurationBarrier barrier s)
  | setAmplitudeBarrier {s : DSSEngine} (barrier : ℚ) :
      ReachableFreq s → ReachableFreq (SetAmplitudeBarrier barrier s)
  | setBreakpointCount {s : DSSEngine} (count : Int) :
      ReachableFreq s → ReachableFreq (SetBreakpointCount count s)
  | setWalkMode {s : DSSEngine} (mode : WalkMode) :
      ReachableFreq s → ReachableFreq (SetWalkMode mode s)

/-- The breakpoint that the loop of `Reset` writes when the seed is `seed`. -/
def initialBreakpoint (seed : Nat) : Breakpoint :=
  { durationVel := 0,
    amplitudeVel := 0,
    durationPos := toFloat ((RandomBipolar seed).1 * toFloat (3 / 10)),
    amplitudePos := toFloat ((RandomBipolar (FastRandom seed)).1 * (1 / 2)),
    currentDuration := 1,
    currentAmplitude := toFloat ((RandomBipolar (FastRandom seed)).1 * (1 / 2)) }

/-- The array after the loop of `Reset`: slot `j` is drawn after `2 * j` steps of the
generator from the fixed seed. -/
def resetTable : Table :=
  fun j => initialBreakpoint (FastRandom^[2 * j.val] 12345)

end F32
end DSSEngine

open DSSEngine

/-! ## The breakpoint array -/

theorem getBp_setBp (t : Table) (i j : Nat) (b : Breakpoint) :
    getBp (setBp t i b) j = if i = j ∧ i < 16 then b else getBp t j := by
  unfold getBp setBp
  by_cases hij : i = j
  · subst hij
    by_cases hi : i < 16 <;> simp [hi]
  · have hji : ¬ j = i := fun h => hij h.symm
    by_cases hi : i < 16 <;> by_cases hj : j < 16 <;>
      simp [hi, hj, hij, hji, Function.update_apply, Fin.ext_iff]

theorem getBp_setBp_same (t : Table) (i : Nat) (b : Breakpoint) (hi : i < 16) :
    getBp (setBp t i b) i = b := by
  rw [getBp_setBp]; simp [hi]

theorem getBp_setBp_ne (t : Table) (i j : Nat) (b : Breakpoint) (hij : i ≠ j) :
    getBp (setBp t i b) j = getBp t j := by
  rw [getBp_setBp]; simp [hij]

theorem table_ext (t u : Table) (h : ∀ i, i < 16 → getBp t i = getBp u i) : t = u := by
  funext ⟨i, hi⟩
  have := h i hi
  simpa [getBp, hi] using this

/-! ## The pseudo-random source -/

theorem FastRandom_lt (seed : Nat) : FastRandom seed < 4294967296 := by
  have h : (2 : Nat) ^ 32 = 4294967296 := by norm_num
  unfold FastRandom
  rw [h]
  exact Nat.mod_lt _ (by norm_num)

/-! ## Elastic reflection -/

theorem Reflect_zero (val min max : ℚ) :
    Reflect 0 val min max = if val < min ∨ val > max then none else some val := rfl

theorem Reflect_succ (fuel : Nat) (val min max : ℚ) :
    Reflect (fuel + 1) val min max =
      if val < min ∨ val > max then Reflect fuel (reflectBody val min max) min max
      else some val := rfl

theorem Reflect_inside (fuel : Nat) (val min max : ℚ) (h1 : min ≤ val) (h2 : val ≤ max) :
    Reflect fuel val min max = some val := by
  cases fuel <;> simp [Reflect_zero, Reflect_succ, not_lt.mpr h1, not_lt.mpr h2]

/-- The loop gives the same result with a larger iteration bound. -/
theorem Reflect_mono (fuel : Nat) : ∀ (k : Nat) (val min max r : ℚ),
    Reflect fuel val min max = some r → Reflect (fuel + k) val min max = some r := by
  induction fuel with
  | zero =>
    intro k val min max r h
    rw [Reflect_zero] at h
    split at h
    · exact absurd h (by simp)
    · rename_i hc
      rw [not_or, not_lt, not_lt] at hc
      rw [Reflect_inside _ _ _ _ hc.1 hc.2]; exact h
  | succ n ih =>
    intro k val min max r h
    rw [Reflect_succ] at h
    rw [show n + 1 + k = (n + k) + 1 by omega, Reflect_succ]
    split
    · rename_i hc; rw [if_pos hc] at h; exact ih k _ _ _ _ h
    · rename_i hc; rw [if_neg hc] at h; exact h

theorem Reflect_mono_le {f g : Nat} (hfg : f ≤ g) {val min max r : ℚ}
    (h : Reflect f val min max = some r) : Reflect g val min max = some r := by
  obtain ⟨k, rfl⟩ := Nat.exists_eq_add_of_le hfg
  exact Reflect_mono f k val min max r h

/-- The result of the loop does not depend on the iteration bound. -/
theorem Reflect_det {f g : Nat} {val min max r r' : ℚ}
    (h : Reflect f val min max = some r) (h' : Reflect g val min max = some r') : r = r' := by
  have a := Reflect_mono_le (Nat.le_max_left f g) h
  have b := Reflect_mono_le (Nat.le_max_right f g) h'
  rw [a] at b; exact Option.some.inj b

/-- A result of the loop lies between the bounds. -/
theorem Reflect_range (fuel : Nat) : ∀ (val min max r : ℚ),
    Reflect fuel val min max = some r → min ≤ r ∧ r ≤ max := by
  induction fuel with
  | zero =>
    intro val min max r h
    rw [Reflect_zero] at h
    split at h
    · exact absurd h (by simp)
    · rename_i hc
      rw [not_or, not_lt, not_lt] at hc
      cases Option.some.inj h; exact hc
  | succ n ih =>
    intro val min max r h
    rw [Reflect_succ] at h
    split at h
    · exact ih _ _ _ _ h
    · rename_i hc
      rw [not_or, not_lt, not_lt] at hc
      cases Option.some.inj h; exact hc

theorem outside_body (val min max c : ℚ) (hw : min < max) (hc0 : 0 ≤ c)
    (h : outside val min max ≤ c + (max - min)) :
    outside (reflectBody val min max) min max ≤ c := by
  unfold outside at h ⊢
  rw [max_le_iff, max_le_iff] at h
  obtain ⟨⟨ha, hb⟩, -⟩ := h
  unfold reflectBody
  rw [max_le_iff, max_le_iff]
  by_cases h1 : val < min
  · simp only [h1, if_true]
    by_cases h2 : min + (min - val) > max
    · simp only [h2, if_true]
      refine ⟨⟨?_, ?_⟩, hc0⟩ <;> linarith
    · simp only [h2, if_false]
      refine ⟨⟨?_, ?_⟩, hc0⟩ <;> linarith
  · simp only [h1, if_false]
    by_cases h3 : val > max
    · simp only [h3, if_true]
      refine ⟨⟨?_, ?_⟩, hc0⟩ <;> linarith
    · simp only [h3, if_false]
      refine ⟨⟨?_, ?_⟩, hc0⟩ <;> linarith

theorem Reflect_terminates_aux (min max : ℚ) (hw : min < max) : ∀ (n : Nat) (val : ℚ),
    outside val min max ≤ n * (max - min) → ∃ r, Reflect n val min max = some r := by
  intro n
  induction n with
  | zero =>
    intro val h
    have h0 : outside val min max ≤ 0 := by simpa using h
    unfold outside at h0
    rw [max_le_iff, max_le_iff] at h0
    exact ⟨val, Reflect_inside 0 val min max (by linarith [h0.1.1]) (by linarith [h0.1.2])⟩
  | succ n ih =>
    intro val h
    rw [Reflect_succ]
    split
    · apply ih
      apply outside_body val min max _ hw
      · have : (0 : ℚ) ≤ n := Nat.cast_nonneg n
        have : 0 < max - min := by linarith
        positivity
      · push_cast at h
        linarith
    · exact ⟨val, rfl⟩

/-- With `min < max` the loop terminates. -/
theorem Reflect_terminates (val min max : ℚ) (hw : min < max) :
    ∃ fuel r, Reflect fuel val min max = some r := by
  obtain ⟨n, hn⟩ := exists_nat_ge (outside val min max / (max - min))
  have hpos : 0 < max - min := by linarith
  refine ⟨n, Reflect_terminates_aux min max hw n val ?_⟩
  rwa [div_le_iff₀ hpos] at hn

theorem MirrorFold_body (val min max r : ℚ) (h : MirrorFold (reflectBody val min max) min max r) :
    MirrorFold val min max r := by
  obtain ⟨k, hk⟩ := h
  unfold reflectBody at hk
  by_cases h1 : val < min
  · simp only [h1, if_true] at hk
    by_cases h2 : min + (min - val) > max
    · simp only [h2, if_true] at hk
      rcases hk with hk | hk
      · exact ⟨k + 1, Or.inl (by push_cast; linarith)⟩
      · exact ⟨k - 1, Or.inr (by push_cast; linarith)⟩
    · simp only [h2, if_false] at hk
      rcases hk with hk | hk
      · exact ⟨k, Or.inr (by linarith)⟩
      · exact ⟨k, Or.inl (by linarith)⟩
  · simp only [h1, if_false] at hk
    by_cases h2 : val > max
    · simp only [h2, if_true] at hk
      rcases hk with hk | hk
      · exact ⟨k + 1, Or.inr (by push_cast; linarith)⟩
      · exact ⟨k - 1, Or.inl (by push_cast; linarith)⟩
    · simp only [h2, if_false] at hk
      exact ⟨k, hk⟩

theorem Reflect_fold (fuel : Nat) : ∀ (val min max r : ℚ),
    Reflect fuel val min max = some r → MirrorFold val min max r := by
  induction fuel with
  | zero =>
    intro val min max r h
    rw [Reflect_zero] at h
    split at h
    · exact absurd h (by simp)
    · cases Option.some.inj h; exact ⟨0, Or.inl (by simp)⟩
  | succ n ih =>
    intro val min max r h
    rw [Reflect_succ] at h
    split at h
    · exact MirrorFold_body _ _ _ _ (ih _ _ _ _ h)
    · cases Option.some.inj h; exact ⟨0, Or.inl (by simp)⟩

/-! ## Duration normalisation -/

theorem total_eq_durationSum (t : Table) (n : Nat) :
    (List.range n).foldl (fun acc i => acc + (getBp t i).currentDuration) (0 : ℚ)
      = durationSum t n := by
  induction n with
  | zero => simp [durationSum]
  | succ n ih =>
    rw [List.range_succ, List.foldl_append, ih]
    simp [durationSum, Finset.sum_range_succ]

theorem scaleDurations_succ (scale : ℚ) (n : Nat) (t : Table) :
    scaleDurations scale (n + 1) t =
      setBp (scaleDurations scale n t) n
        { getBp (scaleDurations scale n t) n with
          currentDuration := (getBp (scaleDurations scale n t) n).currentDuration * scale } := by
  simp [scaleDurations, List.range_succ, List.foldl_append]

theorem getBp_scaleDurations (scale : ℚ) (n : Nat) (t : Table) (i : Nat) :
    getBp (scaleDurations scale n t) i =
      if i < n ∧ i < 16 then
        { getBp t i with currentDuration := (getBp t i).currentDuration * scale }
      else getBp t i := by
  induction n with
  | zero => simp [scaleDurations]
  | succ n ih =>
    rw [scaleDurations_succ, getBp_setBp]
    by_cases h : n = i
    · subst h
      by_cases h16 : n < 16
      · simp [h16, ih]
      · simp [h16, ih]
    · have h1 : (i < n + 1) = (i < n) := by
        apply propext; constructor <;> intro hh <;> omega
      simp [h, ih, h1]

theorem NormalizeDurations_eq (s : DSSEngine) :
    NormalizeDurations s =
      if durationSum s.breakpoints_ s.breakpointCount_.toNat > 1 / 10000 then
        { s with breakpoints_ :=
            (scaleDurations (1 / durationSum s.breakpoints_ s.breakpointCount_.toNat)
              s.breakpointCount_.toNat s.breakpoints_) }
      else s := by
  unfold NormalizeDurations
  simp only [total_eq_durationSum]
  rfl

/-- The method `NormalizeDurations` only writes `currentDuration` of the active breakpoints. -/
theorem NormalizeDurations_shape (s : DSSEngine) :
    ∃ t, NormalizeDurations s = { s with breakpoints_ := t } ∧
      (∀ i, ∃ d, getBp t i = { getBp s.breakpoints_ i with currentDuration := d }) ∧
      (∀ i, s.breakpointCount_.toNat ≤ i → getBp t i = getBp s.breakpoints_ i) := by
  rw [NormalizeDurations_eq]
  split
  · refine ⟨_, rfl, fun i => ?_, fun i hi => ?_⟩
    · rw [getBp_scaleDurations]
      split
      · exact ⟨_, rfl⟩
      · exact ⟨_, rfl⟩
    · rw [getBp_scaleDurations, if_neg (by omega)]
  · exact ⟨s.breakpoints_, rfl, fun i => ⟨_, rfl⟩, fun _ _ => rfl⟩

/-- After `NormalizeDurations` the active durations sum to one, as soon as their
sum before exceeds the epsilon and the active count fits the array. -/
theorem NormalizeDurations_sum (s : DSSEngine) (n : Nat) (hn : s.breakpointCount_.toNat = n)
    (h16 : n ≤ 16) (htotal : durationSum s.breakpoints_ n > 1 / 10000) :
    durationSum (NormalizeDurations s).breakpoints_ n = 1 := by
  rw [NormalizeDurations_eq, hn, if_pos htotal]
  show durationSum (scaleDurations _ n s.breakpoints_) n = 1
  unfold durationSum at htotal ⊢
  have hne : (∑ i in Finset.range n, (getBp s.breakpoints_ i).currentDuration) ≠ 0 := by
    intro h0; rw [h0] at htotal; norm_num at htotal
  have : ∀ i ∈ Finset.range n,
      (getBp (scaleDurations (1 / ∑ i in Finset.range n, (getBp s.breakpoints_ i).currentDuration)
        n s.breakpoints_) i).currentDuration
      = (getBp s.breakpoints_ i).currentDuration *
        (1 / ∑ i in Finset.range n, (getBp s.breakpoints_ i).currentDuration) := by
    intro i hi
    rw [Finset.mem_range] at hi
    rw [getBp_scaleDurations, if_pos ⟨hi, by omega⟩]
  rw [Finset.sum_congr rfl this, ← Finset.sum_mul]
  field_simp

/-! ## The walk updater -/

theorem foldlM_range_succ {σ : Type} (f : σ → Nat → Option σ) (s : σ) (n : Nat) :
    (List.range (n + 1)).foldlM f s = ((List.range n).foldlM f s).bind fun s1 => f s1 n := by
  rw [List.range_succ, List.foldlM_append]
  cases (List.range n).foldlM f s <;> simp

theorem walk_some (fuel : Nat) (s : DSSEngine) (bp bp1 : Breakpoint) (rd ra : ℚ) :
    UpdateWalks.walk fuel s bp rd ra = some bp1 ↔
      (s.walkMode_ = WalkMode.FIRST_ORDER ∧
        bp1 = { bp with
          durationPos := bp.durationPos + rd * s.durationStep_,
          amplitudePos := bp.amplitudePos + ra * s.amplitudeStep_ }) ∨
      (s.walkMode_ ≠ WalkMode.FIRST_ORDER ∧ ∃ dv av,
        Reflect fuel (bp.durationVel + rd * s.durationStep_)
          (-(s.durationBarrier_ * (1 / 2))) (s.durationBarrier_ * (1 / 2)) = some dv ∧
        Reflect fuel (bp.amplitudeVel + ra * s.amplitudeStep_)
          (-(s.amplitudeBarrier_ * (1 / 2))) (s.amplitudeBarrier_ * (1 / 2)) = some av ∧
        bp1 = { bp with
          durationVel := dv, amplitudeVel := av,
          durationPos := bp.durationPos + dv, amplitudePos := bp.amplitudePos + av }) := by
  unfold UpdateWalks.walk
  by_cases hm : s.walkMode_ = WalkMode.FIRST_ORDER
  · simp only [hm, if_true, Option.some.injEq, ne_eq, not_true_eq_false, false_and, or_false,
      true_and]
    exact eq_comm
  · simp only [hm, if_false, Option.bind_eq_some, Option.some.injEq, ne_eq, not_false_eq_true,
      false_and, false_or, true_and]
    constructor
    · rintro ⟨dv, h1, av, h2, h3⟩; exact ⟨dv, av, h1, h2, h3.symm⟩
    · rintro ⟨dv, av, h1, h2, h3⟩; exact ⟨dv, h1, av, h2, h3.symm⟩

/-- One iteration of the loop of `UpdateWalks` succeeds exactly when its walk and its
two position reflections do. -/
theorem body_some (fuel : Nat) (s : DSSEngine) (i : Nat) (s' : DSSEngine) :
    UpdateWalks.body fuel s i = some s' ↔
      ∃ bp1 dp ap,
        UpdateWalks.walk fuel s (getBp s.breakpoints_ i) (RandomBipolar s.seed_).1
          (if s.walkMode_ = WalkMode.CORRELATED then RandomBipolar s.seed_
            else RandomBipolar (RandomBipolar s.seed_).2).1 = some bp1 ∧
        Reflect fuel bp1.durationPos (-s.durationBarrier_) s.durationBarrier_ = some dp ∧
        Reflect fuel bp1.amplitudePos (-s.amplitudeBarrier_) s.amplitudeBarrier_ = some ap ∧
        s' = { s with
          breakpoints_ := setBp s.breakpoints_ i
            { bp1 with
              durationPos := dp, amplitudePos := ap,
              currentDuration := (if 1 + dp < 1 / 10 then 1 / 10 else 1 + dp),
              currentAmplitude := ap },
          seed_ := (if s.walkMode_ = WalkMode.CORRELATED then RandomBipolar s.seed_
            else RandomBipolar (RandomBipolar s.seed_).2).2 } := by
  unfold UpdateWalks.body
  simp only [Option.bind_eq_some, Option.some.injEq]
  constructor
  · rintro ⟨bp1, h1, dp, h2, ap, h3, h4⟩; exact ⟨bp1, dp, ap, h1, h2, h3, h4.symm⟩
  · rintro ⟨bp1, dp, ap, h1, h2, h3, h4⟩; exact ⟨bp1, h1, dp, h2, ap, h3, h4.symm⟩

theorem walk_mono {f g : Nat} (hfg : f ≤ g) {s : DSSEngine} {bp bp1 : Breakpoint} {rd ra : ℚ}
    (h : UpdateWalks.walk f s bp rd ra = some bp1) :
    UpdateWalks.walk g s bp rd ra = some bp1 := by
  rw [walk_some] at h ⊢
  rcases h with h | ⟨hm, dv, av, h1, h2, h3⟩
  · exact Or.inl h
  · exact Or.inr ⟨hm, dv, av, Reflect_mono_le hfg h1, Reflect_mono_le hfg h2, h3⟩

theorem body_mono {f g : Nat} (hfg : f ≤ g) {s s' : DSSEngine} {i : Nat}
    (h : UpdateWalks.body f s i = some s') : UpdateWalks.body g s i = some s' := by
  rw [body_some] at h ⊢
  obtain ⟨bp1, dp, ap, h1, h2, h3, h4⟩ := h
  exact ⟨bp1, dp, ap, walk_mono hfg h1, Reflect_mono_le hfg h2, Reflect_mono_le hfg h3, h4⟩

theorem walk_terminates (s : DSSEngine) (bp : Breakpoint) (rd ra : ℚ)
    (hd : 0 < s.durationBarrier_) (ha : 0 < s.amplitudeBarrier_) :
    ∃ fuel bp1, UpdateWalks.walk fuel s bp rd ra = some bp1 := by
  by_cases hm : s.walkMode_ = WalkMode.FIRST_ORDER
  · exact ⟨0, _, (walk_some 0 s bp _ rd ra).2 (Or.inl ⟨hm, rfl⟩)⟩
  · obtain ⟨f1, dv, h1⟩ := Reflect_terminates (bp.durationVel + rd * s.durationStep_)
      (-(s.durationBarrier_ * (1 / 2))) (s.durationBarrier_ * (1 / 2)) (by linarith)
    obtain ⟨f2, av, h2⟩ := Reflect_terminates (bp.amplitudeVel + ra * s.amplitudeStep_)
      (-(s.amplitudeBarrier_ * (1 / 2))) (s.amplitudeBarrier_ * (1 / 2)) (by linarith)
    exact ⟨Max.max f1 f2, _, (walk_some _ s bp _ rd ra).2 (Or.inr ⟨hm, dv, av,
      Reflect_mono_le (le_max_left _ _) h1, Reflect_mono_le (le_max_right _ _) h2, rfl⟩)⟩

theorem body_terminates (s : DSSEngine) (i : Nat)
    (hd : 0 < s.durationBarrier_) (ha : 0 < s.amplitudeBarrier_) :
    ∃ fuel s', UpdateWalks.body fuel s i = some s' := by
  obtain ⟨f1, bp1, h1⟩ := walk_terminates s (getBp s.breakpoints_ i) (RandomBipolar s.seed_).1
    (if s.walkMode_ = WalkMode.CORRELATED then RandomBipolar s.seed_
      else RandomBipolar (RandomBipolar s.seed_).2).1 hd ha
  obtain ⟨f2, dp, h2⟩ := Reflect_terminates bp1.durationPos
    (-s.durationBarrier_) s.durationBarrier_ (by linarith)
  obtain ⟨f3, ap, h3⟩ := Reflect_terminates bp1.amplitudePos
    (-s.amplitudeBarrier_) s.amplitudeBarrier_ (by linarith)
  refine ⟨Max.max f1 (Max.max f2 f3), _, (body_some _ s i _).2 ⟨bp1, dp, ap, ?_, ?_, ?_, rfl⟩⟩
  · exact walk_mono (le_max_left _ _) h1
  · exact Reflect_mono_le (le_trans (le_max_left _ _) (le_max_right _ _)) h2
  · exact Reflect_mono_le (le_trans (le_max_right _ _) (le_max_right _ _)) h3

/-- What one iteration of the loop of `UpdateWalks` does to the state. -/
theorem body_spec {fuel : Nat} {s s' : DSSEngine} {i : Nat}
    (h : UpdateWalks.body fuel s i = some s') :
    ∃ bp2 sd, s' = { s with breakpoints_ := setBp s.breakpoints_ i bp2, seed_ := sd } ∧
      1 / 10 ≤ bp2.currentDuration ∧
      -s.durationBarrier_ ≤ bp2.durationPos ∧ bp2.durationPos ≤ s.durationBarrier_ ∧
      -s.amplitudeBarrier_ ≤ bp2.amplitudePos ∧ bp2.amplitudePos ≤ s.amplitudeBarrier_ ∧
      bp2.currentAmplitude = bp2.amplitudePos := by
  rw [body_some] at h
  obtain ⟨bp1, dp, ap, -, h2, h3, h4⟩ := h
  have r2 := Reflect_range _ _ _ _ _ h2
  have r3 := Reflect_range _ _ _ _ _ h3
  refine ⟨_, _, h4, ?_, r2.1, r2.2, r3.1, r3.2, rfl⟩
  show (1 : ℚ) / 10 ≤ if 1 + dp < 1 / 10 then 1 / 10 else 1 + dp
  split
  · exact le_refl _
  · rename_i hc; exact not_lt.mp hc

theorem loop_mono {f g : Nat} (hfg : f ≤ g) (l : List Nat) : ∀ {s s' : DSSEngine},
    l.foldlM (UpdateWalks.body f) s = some s' → l.foldlM (UpdateWalks.body g) s = some s' := by
  induction l with
  | nil => intro s s' h; simpa using h
  | cons a l ih =>
    intro s s' h
    rw [List.foldlM_cons] at h ⊢
    cases hb : UpdateWalks.body f s a with
    | none => rw [hb] at h; simp at h
    | some s1 =>
      rw [hb] at h
      rw [body_mono hfg hb]
      exact ih h

theorem loop_terminates (l : List Nat) : ∀ (s : DSSEngine),
    0 < s.durationBarrier_ → 0 < s.amplitudeBarrier_ →
    ∃ fuel s', l.foldlM (UpdateWalks.body fuel) s = some s' := by
  induction l with
  | nil => intro s _ _; exact ⟨0, s, rfl⟩
  | cons a l ih =>
    intro s hd ha
    obtain ⟨f1, s1, h1⟩ := body_terminates s a hd ha
    obtain ⟨bp2, sd, hs1, -⟩ := body_spec h1
    obtain ⟨f2, s', h2⟩ := ih s1 (by rw [hs1]; exact hd) (by rw [hs1]; exact ha)
    refine ⟨Max.max f1 f2, s', ?_⟩
    rw [List.foldlM_cons, body_mono (le_max_left f1 f2) h1]
    exact loop_mono (le_max_right f1 f2) l h2

/-- Loop invariant of `UpdateWalks`: after `n` iterations only the array and the seed
have changed, the slots from `n` on are untouched, and every slot below `n` has been
reflected into the barriers and given a duration of at least `0.1`. -/
theorem loop_spec (fuel : Nat) (s : DSSEngine) : ∀ (n : Nat) (s' : DSSEngine),
    (List.range n).foldlM (UpdateWalks.body fuel) s = some s' →
    ∃ t sd, s' = { s with breakpoints_ := t, seed_ := sd } ∧
      (∀ j, n ≤ j → getBp t j = getBp s.breakpoints_ j) ∧
      (∀ j, j < n → j < 16 →
        1 / 10 ≤ (getBp t j).currentDuration ∧
        -s.durationBarrier_ ≤ (getBp t j).durationPos ∧
        (getBp t j).durationPos ≤ s.durationBarrier_ ∧
        -s.amplitudeBarrier_ ≤ (getBp t j).amplitudePos ∧
        (getBp t j).amplitudePos ≤ s.amplitudeBarrier_ ∧
        (getBp t j).currentAmplitude = (getBp t j).amplitudePos) := by
  intro n
  induction n with
  | zero =>
    intro s' h
    simp only [List.range_zero, List.foldlM_nil] at h
    cases Option.some.inj h
    exact ⟨s.breakpoints_, s.seed_, rfl, fun _ _ => rfl, fun j hj => absurd hj (Nat.not_lt_zero j)⟩
  | succ n ih =>
    intro s' h
    rw [foldlM_range_succ, Option.bind_eq_some] at h
    obtain ⟨s1, h1, hb⟩ := h
    obtain ⟨t, sd, hs1, hout, hin⟩ := ih s1 h1
    obtain ⟨bp2, sd', hs', hdur, hd1, hd2, ha1, ha2, hca⟩ := body_spec hb
    subst hs1
    refine ⟨setBp t n bp2, sd', hs', ?_, ?_⟩
    · intro j hj
      rw [getBp_setBp_ne _ _ _ _ (by omega)]
      exact hout j (by omega)
    · intro j hj h16
      by_cases hjn : j = n
      · subst hjn
        rw [getBp_setBp_same _ _ _ h16]
        exact ⟨hdur, hd1, hd2, ha1, ha2, hca⟩
      · rw [getBp_setBp_ne _ _ _ _ (fun h => hjn h.symm)]
        exact hin j (by omega) h16

theorem UpdateWalks_some (fuel : Nat) (s s' : DSSEngine) :
    UpdateWalks fuel s = some s' ↔
      ∃ s1, (List.range s.breakpointCount_.toNat).foldlM (UpdateWalks.body fuel) s = some s1 ∧
        s' = NormalizeDurations { s1 with breakpoints_ :=
          (setBp s1.breakpoints_ 0
            { getBp s1.breakpoints_ 0 with currentAmplitude := 0, amplitudePos := 0 }) } := by
  unfold UpdateWalks
  simp only [Option.bind_eq_some, Option.some.injEq]
  constructor
  · rintro ⟨s1, h1, h2⟩; exact ⟨s1, h1, h2.symm⟩
  · rintro ⟨s1, h1, h2⟩; exact ⟨s1, h1, h2.symm⟩

theorem UpdateWalks_mono {f g : Nat} (hfg : f ≤ g) {s s' : DSSEngine}
    (h : UpdateWalks f s = some s') : UpdateWalks g s = some s' := by
  rw [UpdateWalks_some] at h ⊢
  obtain ⟨s1, h1, h2⟩ := h
  exact ⟨s1, loop_mono hfg _ h1, h2⟩

/-- The result of `UpdateWalks` does not depend on the iteration bound. -/
theorem UpdateWalks_det {f g : Nat} {s a b : DSSEngine}
    (h : UpdateWalks f s = some a) (h' : UpdateWalks g s = some b) : a = b := by
  have x := UpdateWalks_mono (Nat.le_max_left f g) h
  have y := UpdateWalks_mono (Nat.le_max_right f g) h'
  rw [x] at y; exact Option.some.inj y

/-- With positive barriers `UpdateWalks` terminates. -/
theorem UpdateWalks_terminates (s : DSSEngine)
    (hd : 0 < s.durationBarrier_) (ha : 0 < s.amplitudeBarrier_) :
    ∃ fuel s', UpdateWalks fuel s = some s' := by
  obtain ⟨fuel, s1, h⟩ := loop_terminates (List.range s.breakpointCount_.toNat) s hd ha
  exact ⟨fuel, _, (UpdateWalks_some fuel s _).2 ⟨s1, h, rfl⟩⟩

theorem getBp_pin (t : Table) (j : Nat) :
    getBp (setBp t 0 { getBp t 0 with currentAmplitude := 0, amplitudePos := 0 }) j
      = if j = 0 then { getBp t 0 with currentAmplitude := 0, amplitudePos := 0 }
        else getBp t j := by
  rw [getBp_setBp]
  by_cases hj : j = 0
  · subst hj; simp
  · have hj' : ¬ (0 = j) := fun h => hj h.symm
    simp [hj, hj']

theorem durationSum_lower (t : Table) (n : Nat) (hn : 1 ≤ n)
    (h : ∀ j, j < n → 1 / 10 ≤ (getBp t j).currentDuration) :
    durationSum t n > 1 / 10000 := by
  have h1 : (Finset.range n).card • ((1 : ℚ) / 10) ≤ durationSum t n :=
    Finset.card_nsmul_le_sum _ _ _ (fun i hi => h i (Finset.mem_range.mp hi))
  rw [Finset.card_range, nsmul_eq_mul] at h1
  have h2 : (1 : ℚ) ≤ n := by exact_mod_cast hn
  have : (1 : ℚ) / 10 ≤ n * (1 / 10) := by linarith
  have : (1 : ℚ) / 10000 < 1 / 10 := by norm_num
  linarith

/-- What `UpdateWalks` establishes: only the array and the seed change; breakpoint 0 is
pinned; the inactive slots are untouched; every active slot is inside the barriers; the
active durations sum to one. -/
theorem UpdateWalks_spec {fuel : Nat} {s s' : DSSEngine} (h : UpdateWalks fuel s = some s') :
    ∃ t sd, s' = { s with breakpoints_ := t, seed_ := sd } ∧
      (getBp t 0).currentAmplitude = 0 ∧ (getBp t 0).amplitudePos = 0 ∧
      (∀ j, s.breakpointCount_.toNat ≤ j → 0 < j → getBp t j = getBp s.breakpoints_ j) ∧
      (∀ j, j < s.breakpointCount_.toNat → j < 16 →
        -s.durationBarrier_ ≤ (getBp t j).durationPos ∧
        (getBp t j).durationPos ≤ s.durationBarrier_) ∧
      (∀ j, j < s.breakpointCount_.toNat → j < 16 → 0 ≤ s.amplitudeBarrier_ →
        -s.amplitudeBarrier_ ≤ (getBp t j).amplitudePos ∧
        (getBp t j).amplitudePos ≤ s.amplitudeBarrier_) ∧
      (1 ≤ s.breakpointCount_.toNat → s.breakpointCount_.toNat ≤ 16 →
        durationSum t s.breakpointCount_.toNat = 1) := by
  rw [UpdateWalks_some] at h
  obtain ⟨s1, h1, h2⟩ := h
  obtain ⟨t, sd, hs1, hout, hin⟩ := loop_spec fuel s _ s1 h1
  obtain ⟨t', hN, hbp, hbp'⟩ := NormalizeDurations_shape { s1 with breakpoints_ :=
    (setBp s1.breakpoints_ 0
      { getBp s1.breakpoints_ 0 with currentAmplitude := 0, amplitudePos := 0 }) }
  have hsum := NormalizeDurations_sum { s1 with breakpoints_ :=
    (setBp s1.breakpoints_ 0
      { getBp s1.breakpoints_ 0 with currentAmplitude := 0, amplitudePos := 0 }) }
  rw [← h2] at hN hsum
  subst hs1
  simp only at hN hbp hbp' hsum
  refine ⟨t', sd, hN, ?_, ?_, ?_, ?_, ?_, ?_⟩
  · obtain ⟨d, hd⟩ := hbp 0
    rw [hd, getBp_pin]; simp
  · obtain ⟨d, hd⟩ := hbp 0
    rw [hd, getBp_pin]; simp
  · intro j hj hpos
    rw [hbp' j hj, getBp_pin, if_neg (by omega)]
    exact hout j hj
  · intro j hj h16
    obtain ⟨d, hd⟩ := hbp j
    have := hin j hj h16
    rw [hd, getBp_pin]
    by_cases hj0 : j = 0
    · subst hj0; simpa using ⟨this.2.1, this.2.2.1⟩
    · simpa [hj0] using ⟨this.2.1, this.2.2.1⟩
  · intro j hj h16 hab
    obtain ⟨d, hd⟩ := hbp j
    have := hin j hj h16
    rw [hd, getBp_pin]
    by_cases hj0 : j = 0
    · subst hj0; simpa using hab
    · simpa [hj0] using ⟨this.2.2.2.1, this.2.2.2.2.1⟩
  · intro hc1 hc16
    rw [hN] at hsum
    apply hsum _ rfl hc16
    apply durationSum_lower _ _ hc1
    intro j hj
    rw [getBp_pin]
    have := (hin j hj (by omega)).1
    by_cases hj0 : j = 0
    · subst hj0; simpa using this
    · simpa [hj0] using this

/-! ## Reset -/

theorem NormalizeDurations_table (s : DSSEngine) :
    NormalizeDurations s =
      { s with breakpoints_ := normalizeTable s.breakpointCount_.toNat s.breakpoints_ } := by
  rw [NormalizeDurations_eq]
  unfold normalizeTable
  split <;> rfl

theorem Reset_body_eq (s : DSSEngine) (i : Nat) :
    Reset.body s i =
      { s with breakpoints_ := setBp s.breakpoints_ i (initialBreakpoint s.seed_),
               seed_ := FastRandom (FastRandom s.seed_) } := rfl

/-- Loop invariant of `Reset`: after `n` iterations the seed has advanced `2 * n` steps
and slot `j < n` holds the breakpoint drawn after `2 * j` steps. -/
theorem Reset_loop (s : DSSEngine) (n : Nat) :
    ∃ t, (List.range n).foldl Reset.body s =
        { s with breakpoints_ := t, seed_ := FastRandom^[2 * n] s.seed_ } ∧
      ∀ j, getBp t j =
        if j < n ∧ j < 16 then initialBreakpoint (FastRandom^[2 * j] s.seed_)
        else getBp s.breakpoints_ j := by
  induction n with
  | zero => exact ⟨s.breakpoints_, rfl, fun j => by simp⟩
  | succ n ih =>
    obtain ⟨t, ht, hget⟩ := ih
    refine ⟨setBp t n (initialBreakpoint (FastRandom^[2 * n] s.seed_)), ?_, ?_⟩
    · rw [List.range_succ, List.foldl_append, ht]
      simp only [List.foldl_cons, List.foldl_nil, Reset_body_eq]
      have : FastRandom^[2 * (n + 1)] s.seed_ = FastRandom (FastRandom (FastRandom^[2 * n] s.seed_)) := by
        rw [show 2 * (n + 1) = (2 * n + 1) + 1 by ring, Function.iterate_succ_apply',
          Function.iterate_succ_apply']
      rw [this]
    · intro j
      rw [getBp_setBp, hget]
      by_cases hjn : n = j
      · subst hjn
        by_cases h16 : n < 16
        · simp [h16]
        · simp [h16]
      · have h1 : (j < n + 1) = (j < n) := by
          apply propext; constructor <;> intro hh <;> omega
        simp [hjn, h1]

/-- The method `Reset` in closed form: every member is a function of the configuration. -/
theorem Reset_eq (s : DSSEngine) :
    Reset s =
      { s with
        breakpoints_ := normalizeTable s.breakpointCount_.toNat (pinFirst resetTable),
        phase_ := 0,
        phaseIncrement_ := s.frequency_ / s.sampleRate_,
        currentSegment_ := 0,
        segmentPhase_ := 0,
        seed_ := FastRandom^[32] 12345 } := by
  obtain ⟨t, ht, hget⟩ := Reset_loop
    { s with phase_ := 0, currentSegment_ := 0, segmentPhase_ := 0, seed_ := 12345 } 16
  have htab : t = resetTable := by
    apply table_ext
    intro i hi
    rw [hget i, if_pos ⟨hi, hi⟩]
    simp [resetTable, getBp, hi]
  subst htab
  unfold Reset
  simp only [MAX_BREAKPOINTS, ht, NormalizeDurations_table, SetFrequency]
  rfl

theorem normalizeTable_sum (t : Table) (n : Nat) (h16 : n ≤ 16)
    (htotal : durationSum t n > 1 / 10000) : durationSum (normalizeTable n t) n = 1 := by
  have h := NormalizeDurations_sum
    { construct t with breakpointCount_ := (n : Int) } n (by simp) h16 htotal
  rw [NormalizeDurations_table] at h
  simpa using h

theorem getBp_pinFirst (t : Table) (j : Nat) :
    getBp (pinFirst t) j
      = if j = 0 then { getBp t 0 with amplitudePos := 0, currentAmplitude := 0 }
        else getBp t j := getBp_pin t j

theorem getBp_resetTable (j : Nat) (hj : j < 16) :
    getBp resetTable j = initialBreakpoint (FastRandom^[2 * j] 12345) := by
  simp [getBp, hj, resetTable]

theorem Process_eq (fuel : Nat) (s : DSSEngine) :
    Process fuel s =
      if s.phase_ + s.phaseIncrement_ ≥ 1 then
        (UpdateWalks fuel (Process.advance s (s.phase_ + s.phaseIncrement_ - 1))).map
          fun s2 => (Process.output s, s2)
      else some (Process.output s, Process.advance s (s.phase_ + s.phaseIncrement_)) := rfl

theorem Process_terminates (s : DSSEngine)
    (hd : 0 < s.durationBarrier_) (ha : 0 < s.amplitudeBarrier_) :
    ∃ fuel r, Process fuel s = some r := by
  by_cases hc : s.phase_ + s.phaseIncrement_ ≥ 1
  · obtain ⟨fuel, s2, h⟩ := UpdateWalks_terminates
      (Process.advance s (s.phase_ + s.phaseIncrement_ - 1)) hd ha
    exact ⟨fuel, _, by rw [Process_eq, if_pos hc, h]; rfl⟩
  · exact ⟨0, _, by rw [Process_eq, if_neg hc]⟩

theorem Process_cross {fuel : Nat} {s s' : DSSEngine} {out : ℚ}
    (hc : s.phase_ + s.phaseIncrement_ ≥ 1) (h : Process fuel s = some (out, s')) :
    out = Process.output s ∧
      UpdateWalks fuel (Process.advance s (s.phase_ + s.phaseIncrement_ - 1)) = some s' := by
  rw [Process_eq, if_pos hc, Option.map_eq_some'] at h
  obtain ⟨s2, h1, h2⟩ := h
  cases h2
  exact ⟨rfl, h1⟩

theorem Process_stay {fuel : Nat} {s s' : DSSEngine} {out : ℚ}
    (hc : s.phase_ + s.phaseIncrement_ < 1) (h : Process fuel s = some (out, s')) :
    out = Process.output s ∧ s' = Process.advance s (s.phase_ + s.phaseIncrement_) := by
  rw [Process_eq, if_neg (not_le.mpr hc)] at h
  cases h
  exact ⟨rfl, rfl⟩

theorem getBp_normalizeTable (n : Nat) (t : Table) (i : Nat) :
    ∃ d, getBp (normalizeTable n t) i = { getBp t i with currentDuration := d } := by
  unfold normalizeTable
  split
  · rw [getBp_scaleDurations]
    split
    · exact ⟨_, rfl⟩
    · exact ⟨_, rfl⟩
  · exact ⟨_, rfl⟩

/-- The method `Process` keeps every member other than the array, the seed, the phase and the
segment tracking; without a cycle boundary it keeps the array and the seed too. -/
theorem Process_spec {fuel : Nat} {s s' : DSSEngine} {out : ℚ}
    (h : Process fuel s = some (out, s')) :
    (s.phase_ + s.phaseIncrement_ < 1 ∧
      s' = Process.advance s (s.phase_ + s.phaseIncrement_)) ∨
    (s.phase_ + s.phaseIncrement_ ≥ 1 ∧
      UpdateWalks fuel (Process.advance s (s.phase_ + s.phaseIncrement_ - 1)) = some s') := by
  by_cases hc : s.phase_ + s.phaseIncrement_ ≥ 1
  · exact Or.inr ⟨hc, (Process_cross hc h).2⟩
  · exact Or.inl ⟨not_le.mp hc, (Process_stay (not_le.mp hc) h).2⟩

theorem RandomBipolar_range (seed : Nat) :
    -1 ≤ (RandomBipolar seed).1 ∧ (RandomBipolar seed).1 < 1 := by
  have h := FastRandom_lt seed
  have h0 : (0 : ℚ) ≤ (FastRandom seed : ℚ) := Nat.cast_nonneg _
  have h1 : (FastRandom seed : ℚ) < 4294967296 := by
    have h2 : (FastRandom seed : ℚ) < ((4294967296 : Nat) : ℚ) := Nat.cast_lt.mpr h
    rwa [Nat.cast_ofNat] at h2
  show -1 ≤ (FastRandom seed : ℚ) / 2147483648 - 1 ∧ (FastRandom seed : ℚ) / 2147483648 - 1 < 1
  constructor
  · have : 0 ≤ (FastRandom seed : ℚ) / 2147483648 := div_nonneg h0 (by norm_num)
    linarith
  · have : (FastRandom seed : ℚ) / 2147483648 < 2 := by
      rw [div_lt_iff₀ (by norm_num)]; linarith
    linarith

/-- The positions that `Reset` writes lie within `0.3` and `0.5` of zero. -/
theorem Reset_positions (s : DSSEngine) (j : Nat) (hj : j < 16) :
    -(3 / 10) ≤ (getBp (Reset s).breakpoints_ j).durationPos ∧
    (getBp (Reset s).breakpoints_ j).durationPos ≤ 3 / 10 ∧
    -(1 / 2) ≤ (getBp (Reset s).breakpoints_ j).amplitudePos ∧
    (getBp (Reset s).breakpoints_ j).amplitudePos ≤ 1 / 2 := by
  rw [Reset_eq]
  obtain ⟨d, hd⟩ := getBp_normalizeTable s.breakpointCount_.toNat (pinFirst resetTable) j
  simp only [hd, getBp_pinFirst]
  have r1 := RandomBipolar_range (FastRandom^[2 * j] 12345)
  have r2 := RandomBipolar_range (FastRandom (FastRandom^[2 * j] 12345))
  have r0 := RandomBipolar_range (FastRandom^[2 * 0] 12345)
  by_cases hj0 : j = 0
  · simp only [hj0, if_true, getBp_resetTable 0 (by omega), initialBreakpoint]
    refine ⟨by linarith [r0.1], by linarith [r0.2], by norm_num, by norm_num⟩
  · simp only [hj0, if_false, getBp_resetTable j hj, initialBreakpoint]
    refine ⟨by linarith [r1.1], by linarith [r1.2], by linarith [r2.1], by linarith [r2.2]⟩

theorem WideningInv_Reset (s : DSSEngine) (h2 : 2 ≤ s.breakpointCount_)
    (h16 : s.breakpointCount_ ≤ 16) (hd : 1 / 2 ≤ s.durationBarrier_)
    (ha : 9 / 10 ≤ s.amplitudeBarrier_) : WideningInv (Reset s) := by
  have hc : (Reset s).breakpointCount_ = s.breakpointCount_ := by rw [Reset_eq]
  have hdb : (Reset s).durationBarrier_ = s.durationBarrier_ := by rw [Reset_eq]
  have hab : (Reset s).amplitudeBarrier_ = s.amplitudeBarrier_ := by rw [Reset_eq]
  refine ⟨by rw [hc]; exact h2, by rw [hc]; exact h16, by rw [hdb]; exact hd,
    by rw [hab]; exact ha, fun j hj => ?_⟩
  have := Reset_positions s j hj
  rw [hdb, hab]
  refine ⟨by linarith [this.1], by linarith [this.2.1], by linarith [this.2.2.1],
    by linarith [this.2.2.2]⟩

theorem WideningInv_UpdateWalks {fuel : Nat} {s s' : DSSEngine} (hinv : WideningInv s)
    (h : UpdateWalks fuel s = some s') : WideningInv s' := by
  obtain ⟨h2, h16, hd, ha, hpos⟩ := hinv
  obtain ⟨t, sd, hs', -, -, hout, hdur, hamp, -⟩ := UpdateWalks_spec h
  subst hs'
  refine ⟨h2, h16, hd, ha, fun j hj => ?_⟩
  show -s.durationBarrier_ ≤ (getBp t j).durationPos ∧ (getBp t j).durationPos ≤ s.durationBarrier_ ∧
    -s.amplitudeBarrier_ ≤ (getBp t j).amplitudePos ∧ (getBp t j).amplitudePos ≤ s.amplitudeBarrier_
  by_cases hjc : j < s.breakpointCount_.toNat
  · have a := hdur j hjc hj
    have b := hamp j hjc hj (by linarith)
    exact ⟨a.1, a.2, b.1, b.2⟩
  · have hj0 : 0 < j := by omega
    rw [hout j (by omega) hj0]
    exact hpos j hj

/-! ## Runs of `Process` -/

theorem Process_mono {f g : Nat} (hfg : f ≤ g) {s : DSSEngine} {r : ℚ × DSSEngine}
    (h : Process f s = some r) : Process g s = some r := by
  rw [Process_eq] at h ⊢
  split
  · rename_i hc
    rw [if_pos hc, Option.map_eq_some'] at h
    obtain ⟨s2, h1, h2⟩ := h
    rw [UpdateWalks_mono hfg h1]
    exact congrArg some h2
  · rename_i hc
    rw [if_neg hc] at h
    exact h

theorem run_succ (fuel k : Nat) (s : DSSEngine) :
    Process.run fuel (k + 1) s =
      (Process fuel s).bind fun r =>
        (Process.run fuel k r.2).map fun q => (r.1 :: q.1, q.2) := rfl

theorem run_mono {f g : Nat} (hfg : f ≤ g) (k : Nat) : ∀ {s : DSSEngine}
    {r : List ℚ × DSSEngine}, Process.run f k s = some r → Process.run g k s = some r := by
  induction k with
  | zero => intro s r h; exact h
  | succ k ih =>
    intro s r h
    rw [run_succ, Option.bind_eq_some] at h
    obtain ⟨p, hp, hq⟩ := h
    rw [Option.map_eq_some'] at hq
    obtain ⟨q, hq1, hq2⟩ := hq
    rw [run_succ, Process_mono hfg hp]
    simp only [Option.some_bind, ih hq1, Option.map_some']
    exact congrArg some hq2

theorem Process_config {fuel : Nat} {s s' : DSSEngine} {out : ℚ}
    (h : Process fuel s = some (out, s')) : SameConfig s' s := by
  rcases Process_spec h with ⟨-, hs'⟩ | ⟨-, hs'⟩
  · rw [hs']; exact ⟨rfl, rfl, rfl, rfl, rfl, rfl, rfl, rfl⟩
  · obtain ⟨t, sd, hs, -⟩ := UpdateWalks_spec hs'
    rw [hs]; exact ⟨rfl, rfl, rfl, rfl, rfl, rfl, rfl, rfl⟩

theorem SameConfig_trans {a b c : DSSEngine} (h : SameConfig a b) (h' : SameConfig b c) :
    SameConfig a c := by
  obtain ⟨h1, h2, h3, h4, h5, h6, h7, h8⟩ := h
  obtain ⟨g1, g2, g3, g4, g5, g6, g7, g8⟩ := h'
  exact ⟨h1.trans g1, h2.trans g2, h3.trans g3, h4.trans g4, h5.trans g5, h6.trans g6,
    h7.trans g7, h8.trans g8⟩

theorem run_config (fuel k : Nat) : ∀ {s e : DSSEngine} {outs : List ℚ},
    Process.run fuel k s = some (outs, e) → SameConfig e s := by
  induction k with
  | zero =>
    intro s e outs h
    cases h
    exact ⟨rfl, rfl, rfl, rfl, rfl, rfl, rfl, rfl⟩
  | succ k ih =>
    intro s e outs h
    rw [run_succ, Option.bind_eq_some] at h
    obtain ⟨⟨o, s1⟩, hp, hq⟩ := h
    rw [Option.map_eq_some'] at hq
    obtain ⟨⟨os, e'⟩, hq1, hq2⟩ := hq
    cases hq2
    exact SameConfig_trans (ih hq1) (Process_config hp)

theorem run_length (fuel k : Nat) : ∀ {s e : DSSEngine} {outs : List ℚ},
    Process.run fuel k s = some (outs, e) → outs.length = k := by
  induction k with
  | zero => intro s e outs h; cases h; rfl
  | succ k ih =>
    intro s e outs h
    rw [run_succ, Option.bind_eq_some] at h
    obtain ⟨⟨o, s1⟩, hp, hq⟩ := h
    rw [Option.map_eq_some'] at hq
    obtain ⟨⟨os, e'⟩, hq1, hq2⟩ := hq
    cases hq2
    simp [ih hq1]

theorem run_terminates (k : Nat) : ∀ (s : DSSEngine),
    0 < s.durationBarrier_ → 0 < s.amplitudeBarrier_ →
    ∃ fuel r, Process.run fuel k s = some r := by
  induction k with
  | zero => intro s _ _; exact ⟨0, _, rfl⟩
  | succ k ih =>
    intro s hd ha
    obtain ⟨f1, ⟨o, s1⟩, h1⟩ := Process_terminates s hd ha
    obtain ⟨-, -, -, -, c5, c6, -, -⟩ := Process_config h1
    obtain ⟨f2, r, h2⟩ := ih s1 (by rw [c5]; exact hd) (by rw [c6]; exact ha)
    refine ⟨Max.max f1 f2, (o :: r.1, r.2), ?_⟩
    rw [run_succ, Process_mono (le_max_left f1 f2) h1]
    simp only [Option.some_bind, run_mono (le_max_right f1 f2) k h2, Option.map_some']

/-- The method `Reset` gives the same state on two states with the same configuration. -/
theorem Reset_congr {s s' : DSSEngine} (h : SameConfig s s') : Reset s = Reset s' := by
  obtain ⟨h1, h2, h3, h4, h5, h6, h7, h8⟩ := h
  rw [Reset_eq, Reset_eq, h1, h2, h3, h4, h5, h6, h7, h8]

/-! ## Hard sync -/

theorem body_setPhase (fuel : Nat) (p : ℚ) (c : Int) (q : ℚ) (s : DSSEngine) (i : Nat) :
    UpdateWalks.body fuel (setPhase p c q s) i =
      (UpdateWalks.body fuel s i).map (setPhase p c q) := by
  have hw : ∀ bp rd ra, UpdateWalks.walk fuel (setPhase p c q s) bp rd ra =
      UpdateWalks.walk fuel s bp rd ra := fun _ _ _ => rfl
  unfold UpdateWalks.body
  simp only [hw]
  simp only [setPhase]
  cases UpdateWalks.walk fuel s (getBp s.breakpoints_ i) (RandomBipolar s.seed_).1
      (if s.walkMode_ = WalkMode.CORRELATED then RandomBipolar s.seed_
        else RandomBipolar (RandomBipolar s.seed_).2).1 with
  | none => rfl
  | some bp1 =>
    simp only [Option.some_bind]
    cases Reflect fuel bp1.durationPos (-s.durationBarrier_) s.durationBarrier_ with
    | none => rfl
    | some dp =>
      simp only [Option.some_bind]
      cases Reflect fuel bp1.amplitudePos (-s.amplitudeBarrier_) s.amplitudeBarrier_ with
      | none => rfl
      | some ap => rfl

theorem loop_setPhase (fuel : Nat) (p : ℚ) (c : Int) (q : ℚ) (l : List Nat) :
    ∀ s : DSSEngine, l.foldlM (UpdateWalks.body fuel) (setPhase p c q s) =
      (l.foldlM (UpdateWalks.body fuel) s).map (setPhase p c q) := by
  induction l with
  | nil => intro s; rfl
  | cons a l ih =>
    intro s
    rw [List.foldlM_cons, List.foldlM_cons, body_setPhase]
    cases UpdateWalks.body fuel s a with
    | none => rfl
    | some s1 => exact ih s1

/-- The method `UpdateWalks` neither reads nor writes the phase and segment tracking members. -/
theorem UpdateWalks_setPhase (fuel : Nat) (p : ℚ) (c : Int) (q : ℚ) (s : DSSEngine) :
    UpdateWalks fuel (setPhase p c q s) = (UpdateWalks fuel s).map (setPhase p c q) := by
  unfold UpdateWalks
  have hc : (setPhase p c q s).breakpointCount_ = s.breakpointCount_ := rfl
  rw [hc, loop_setPhase]
  cases (List.range s.breakpointCount_.toNat).foldlM (UpdateWalks.body fuel) s with
  | none => rfl
  | some s1 =>
    simp only [Option.map_some', Option.some_bind, NormalizeDurations_table]
    rfl

/-! ## Cycle boundaries -/

theorem trace_succ (fuel k : Nat) (s : DSSEngine) :
    Process.trace fuel (k + 1) s =
      (Process fuel s).bind fun r =>
        (Process.trace fuel k r.2).map fun q =>
          (decide (s.phase_ + s.phaseIncrement_ ≥ 1) :: q.1, q.2) := rfl

theorem trace_mono {f g : Nat} (hfg : f ≤ g) (k : Nat) : ∀ {s : DSSEngine}
    {r : List Bool × DSSEngine}, Process.trace f k s = some r → Process.trace g k s = some r := by
  induction k with
  | zero => intro s r h; exact h
  | succ k ih =>
    intro s r h
    rw [trace_succ, Option.bind_eq_some] at h
    obtain ⟨p, hp, hq⟩ := h
    rw [Option.map_eq_some'] at hq
    obtain ⟨q, hq1, hq2⟩ := hq
    rw [trace_succ, Process_mono hfg hp]
    simp only [Option.some_bind, ih hq1, Option.map_some']
    exact congrArg some hq2

/-- A state that is `k + 1` increments below the end of the cycle: the next `k` calls of
`Process` stay inside the cycle and call `k + 1` crosses the boundary, landing on
phase 0. -/
theorem trace_one_cycle (c : ℚ) (hc : 0 < c) (k : Nat) : ∀ (s : DSSEngine),
    s.phaseIncrement_ = c → s.phase_ + (k + 1) * c = 1 →
    0 < s.durationBarrier_ → 0 < s.amplitudeBarrier_ →
    ∃ fuel e, Process.trace fuel (k + 1) s = some (List.replicate k false ++ [true], e) ∧
      e.phase_ = 0 := by
  induction k with
  | zero =>
    intro s hinc hph hd ha
    have hcross : s.phase_ + s.phaseIncrement_ ≥ 1 := by
      rw [hinc]; simp at hph; linarith
    obtain ⟨fuel, e, he⟩ := UpdateWalks_terminates
      (Process.advance s (s.phase_ + s.phaseIncrement_ - 1)) hd ha
    obtain ⟨t, sd, hs', -⟩ := UpdateWalks_spec he
    refine ⟨fuel, e, ?_, ?_⟩
    · rw [trace_succ, Process_eq, if_pos hcross, he]
      simp [Process.trace, hcross]
    · rw [hs']
      show s.phase_ + s.phaseIncrement_ - 1 = 0
      rw [hinc]; simp at hph; linarith
  | succ k ih =>
    intro s hinc hph hd ha
    have hk : (0 : ℚ) ≤ k := Nat.cast_nonneg k
    have hstay : s.phase_ + s.phaseIncrement_ < 1 := by
      rw [hinc]
      push_cast at hph
      nlinarith
    obtain ⟨fuel, e, he, hphase⟩ := ih (Process.advance s (s.phase_ + s.phaseIncrement_))
      hinc (by
        show s.phase_ + s.phaseIncrement_ + ((k : ℚ) + 1) * c = 1
        rw [hinc]; push_cast at hph; linarith) hd ha
    refine ⟨fuel, e, ?_, hphase⟩
    rw [trace_succ, Process_eq, if_neg (not_le.mpr hstay)]
    simp only [Option.some_bind, he, Option.map_some']
    simp [not_le.mpr hstay, List.replicate_succ]

theorem Init_fields (sampleRate : ℚ) (s : DSSEngine) :
    (Init sampleRate s).sampleRate_ = sampleRate ∧ (Init sampleRate s).phase_ = 0 ∧
    (Init sampleRate s).durationBarrier_ = s.durationBarrier_ ∧
    (Init sampleRate s).amplitudeBarrier_ = s.amplitudeBarrier_ ∧
    (Init sampleRate s).breakpointCount_ = s.breakpointCount_ := by
  have hinit : Init sampleRate s = Reset { s with sampleRate_ := sampleRate } := rfl
  rw [hinit, Reset_eq]
  exact ⟨rfl, rfl, rfl, rfl, rfl⟩

theorem SetFrequency_fields (freq : ℚ) (s : DSSEngine) :
    (SetFrequency freq s).phaseIncrement_ = freq / s.sampleRate_ ∧
    (SetFrequency freq s).phase_ = s.phase_ ∧
    (SetFrequency freq s).durationBarrier_ = s.durationBarrier_ ∧
    (SetFrequency freq s).amplitudeBarrier_ = s.amplitudeBarrier_ :=
  ⟨rfl, rfl, rfl, rfl⟩

theorem construct_fields (mem : Table) :
    (construct mem).durationBarrier_ = 1 / 2 ∧ (construct mem).amplitudeBarrier_ = 9 / 10 ∧
    (construct mem).breakpointCount_ = 8 :=
  ⟨rfl, rfl, rfl⟩

/-- The state at the start of the cycle scenario. -/
theorem scenario_start (mem : Table) :
    (SetFrequency 480 (Init 48000 (construct mem))).phaseIncrement_ = 1 / 100 ∧
    (SetFrequency 480 (Init 48000 (construct mem))).phase_ = 0 ∧
    0 < (SetFrequency 480 (Init 48000 (construct mem))).durationBarrier_ ∧
    0 < (SetFrequency 480 (Init 48000 (construct mem))).amplitudeBarrier_ := by
  obtain ⟨h1, h2, h3, h4, -⟩ := Init_fields 48000 (construct mem)
  obtain ⟨g1, g2, g3, g4⟩ := SetFrequency_fields 480 (Init 48000 (construct mem))
  obtain ⟨c1, c2, -⟩ := construct_fields mem
  rw [g1, g2, g3, g4, h1, h2, h3, h4, c1, c2]
  norm_num

/-! ## The sample formula -/

theorem durationSum_succ (t : Table) (i : Nat) :
    durationSum t (i + 1) = durationSum t i + (getBp t i).currentDuration := by
  simp [durationSum, Finset.sum_range_succ]

/-- The segment search of `Process` in terms of the cumulative durations. -/
theorem scan_eq (t : Table) (phase : ℚ) : ∀ (r i seg : Nat),
    Process.scan t phase r i (durationSum t i) seg =
      match (List.range' i r).find? (fun j => decide (phase < durationSum t (j + 1))) with
      | some k => (k, durationSum t k)
      | none => (if r = 0 then seg else i + r - 1, durationSum t (i + r)) := by
  intro r
  induction r with
  | zero => intro i seg; simp [Process.scan]
  | succ r ih =>
    intro i seg
    rw [List.range'_succ]
    unfold Process.scan
    simp only [← durationSum_succ]
    by_cases hp : phase < durationSum t (i + 1)
    · rw [if_pos hp, List.find?_cons_of_pos _ (by simpa using hp)]
    · rw [if_neg hp, List.find?_cons_of_neg _ (by simpa using hp), ih (i + 1) i]
      cases List.find? (fun j => decide (phase < durationSum t (j + 1))) (List.range' (i + 1) r) with
      | some k => rfl
      | none =>
        simp only [Nat.add_one_ne_zero, if_false]
        by_cases hr : r = 0
        · subst hr; simp
        · rw [if_neg hr]
          have h1 : i + 1 + r - 1 = i + (r + 1) - 1 := by omega
          have h2 : i + 1 + r = i + (r + 1) := by omega
          rw [h1, h2]

theorem scan_start (s : DSSEngine) :
    Process.scan s.breakpoints_ s.phase_ s.breakpointCount_.toNat 0 0 0 =
      match (List.range s.breakpointCount_.toNat).find?
          (fun j => decide (s.phase_ < durationSum s.breakpoints_ (j + 1))) with
      | some k => (k, durationSum s.breakpoints_ k)
      | none => (s.breakpointCount_.toNat - 1,
          durationSum s.breakpoints_ s.breakpointCount_.toNat) := by
  have h := scan_eq s.breakpoints_ s.phase_ s.breakpointCount_.toNat 0 0
  have h0 : durationSum s.breakpoints_ 0 = 0 := by simp [durationSum]
  rw [h0] at h
  rw [h, List.range_eq_range']
  cases List.find? (fun j => decide (s.phase_ < durationSum s.breakpoints_ (j + 1)))
      (List.range' 0 s.breakpointCount_.toNat) with
  | some k => rfl
  | none =>
    by_cases hr : s.breakpointCount_.toNat = 0
    · simp [hr]
    · simp [hr]

/-- The method `Process` selects the segment of the formula, in the fallback case too. -/
theorem segment_eq_spec (s : DSSEngine) : Process.segment s = specSegment s := by
  unfold Process.segment specSegment
  rw [scan_start]
  cases List.find? (fun j => decide (s.phase_ < durationSum s.breakpoints_ (j + 1)))
      (List.range s.breakpointCount_.toNat) <;> rfl

theorem find_none_iff (s : DSSEngine) :
    (List.range s.breakpointCount_.toNat).find?
        (fun j => decide (s.phase_ < durationSum s.breakpoints_ (j + 1))) = none ↔
      ¬ boundaryExceedsPhase s := by
  unfold boundaryExceedsPhase
  rw [List.find?_eq_none]
  simp only [List.mem_range, decide_eq_true_eq, not_exists, not_and]

/-- The value of `accumulated` after the segment search: the sum of the durations before
the segment when the loop is left by `break`, the sum of all active durations in the
fallback case. -/
theorem accumulated_eq (s : DSSEngine) :
    (boundaryExceedsPhase s →
      Process.accumulated s = durationSum s.breakpoints_ (specSegment s)) ∧
    (¬ boundaryExceedsPhase s →
      Process.accumulated s = durationSum s.breakpoints_ s.breakpointCount_.toNat) := by
  unfold Process.accumulated specSegment
  rw [scan_start]
  cases h : List.find? (fun j => decide (s.phase_ < durationSum s.breakpoints_ (j + 1)))
      (List.range s.breakpointCount_.toNat) with
  | some k =>
    have : boundaryExceedsPhase s := by
      by_contra hn
      rw [← find_none_iff, h] at hn
      exact absurd hn (by simp)
    exact ⟨fun _ => rfl, fun hn => absurd this hn⟩
  | none =>
    exact ⟨fun hb => absurd hb ((find_none_iff s).1 h), fun _ => rfl⟩

/-- When some cumulative boundary exceeds the phase, `Process` returns the sample of the
formula. -/
theorem output_eq_spec (s : DSSEngine) (h : boundaryExceedsPhase s) :
    Process.output s = specSample s := by
  have hn : 0 < s.breakpointCount_.toNat := by
    obtain ⟨i, hi, -⟩ := h; omega
  have hc : 0 ≤ s.breakpointCount_ := by omega
  have hnext : (Int.tmod ((Process.segment s : Int) + 1) s.breakpointCount_).toNat =
      (specSegment s + 1) % s.breakpointCount_.toNat := by
    rw [segment_eq_spec]
    have h1 : ((specSegment s : Int) + 1) = ((specSegment s + 1 : Nat) : Int) := by push_cast; rfl
    have h2 : s.breakpointCount_ = ((s.breakpointCount_.toNat : Nat) : Int) :=
      (Int.toNat_of_nonneg hc).symm
    rw [h1]
    conv_lhs => rw [h2]
    rw [← Int.ofNat_tmod, Int.toNat_ofNat]
  unfold Process.output Process.segmentPhase specSample LinearInterp
  rw [hnext, (accumulated_eq s).1 h, segment_eq_spec]
  simp only []
  by_cases hd : (getBp s.breakpoints_ (specSegment s)).currentDuration > 1 / 10000
  · simp only [hd, if_true]
    congr 1
    congr 1
    by_cases h0 : (s.phase_ - durationSum s.breakpoints_ (specSegment s)) /
        (getBp s.breakpoints_ (specSegment s)).currentDuration < 0
    · rw [if_pos h0, if_neg (by norm_num), min_eq_left (by linarith), max_eq_left (le_of_lt h0)]
    · rw [if_neg h0]
      by_cases h1 : (s.phase_ - durationSum s.breakpoints_ (specSegment s)) /
          (getBp s.breakpoints_ (specSegment s)).currentDuration > 1
      · rw [if_pos h1, min_eq_right (le_of_lt h1), max_eq_right (by norm_num)]
      · rw [if_neg h1, min_eq_left (not_lt.mp h1), max_eq_right (not_lt.mp h0)]
  · simp only [hd, if_false]
    norm_num

/-! ## The walk updater in closed form -/

theorem RandomBipolar_snd (seed : Nat) : (RandomBipolar seed).2 = FastRandom seed := rfl

theorem drawsPerBreakpoint_iterate (s : DSSEngine) (seed : Nat) :
    FastRandom^[UpdateWalks.drawsPerBreakpoint s] seed =
      if s.walkMode_ = WalkMode.CORRELATED then FastRandom seed
      else FastRandom (FastRandom seed) := by
  unfold UpdateWalks.drawsPerBreakpoint
  split
  · rw [Function.iterate_one]
  · rw [Function.iterate_succ_apply', Function.iterate_one]

/-- One iteration of the loop of `UpdateWalks` writes `UpdateWalks.slot` of the breakpoint
it reads and advances the seed by one or two steps. -/
theorem body_slot (fuel : Nat) (s : DSSEngine) (i : Nat) :
    UpdateWalks.body fuel s i =
      (UpdateWalks.slot fuel s (getBp s.breakpoints_ i) s.seed_).map fun bp2 =>
        { s with breakpoints_ := setBp s.breakpoints_ i bp2,
                 seed_ := FastRandom^[UpdateWalks.drawsPerBreakpoint s] s.seed_ } := by
  rw [drawsPerBreakpoint_iterate]
  unfold UpdateWalks.body UpdateWalks.slot UpdateWalks.randDur UpdateWalks.randAmp
  simp only [RandomBipolar_snd]
  by_cases hm : s.walkMode_ = WalkMode.CORRELATED
  · simp only [hm, if_true, RandomBipolar_snd]
    cases UpdateWalks.walk fuel s (getBp s.breakpoints_ i) (RandomBipolar s.seed_).1
        (RandomBipolar s.seed_).1 with
    | none => simp only [Option.none_bind, Option.map_none']
    | some bp1 =>
      simp only [Option.some_bind]
      cases Reflect fuel bp1.durationPos (-s.durationBarrier_) s.durationBarrier_ with
      | none => simp only [Option.none_bind, Option.map_none']
      | some dp =>
        simp only [Option.some_bind]
        cases Reflect fuel bp1.amplitudePos (-s.amplitudeBarrier_) s.amplitudeBarrier_ with
        | none => simp only [Option.none_bind, Option.map_none']
        | some ap => simp only [Option.some_bind, Option.map_some']
  · simp only [hm, if_false, RandomBipolar_snd]
    cases UpdateWalks.walk fuel s (getBp s.breakpoints_ i) (RandomBipolar s.seed_).1
        (RandomBipolar (FastRandom s.seed_)).1 with
    | none => simp only [Option.none_bind, Option.map_none']
    | some bp1 =>
      simp only [Option.some_bind]
      cases Reflect fuel bp1.durationPos (-s.durationBarrier_) s.durationBarrier_ with
      | none => simp only [Option.none_bind, Option.map_none']
      | some dp =>
        simp only [Option.some_bind]
        cases Reflect fuel bp1.amplitudePos (-s.amplitudeBarrier_) s.amplitudeBarrier_ with
        | none => simp only [Option.none_bind, Option.map_none']
        | some ap => simp only [Option.some_bind, Option.map_some']

theorem slot_config (fuel : Nat) (s : DSSEngine) (t : Table) (sd : Nat) (bp : Breakpoint)
    (seed : Nat) :
    UpdateWalks.slot fuel { s with breakpoints_ := t, seed_ := sd } bp seed =
      UpdateWalks.slot fuel s bp seed := rfl

/-- Closed form of the loop of `UpdateWalks`: after `n` iterations the seed has advanced
`n` times the draws per breakpoint, slot `j < n` holds `UpdateWalks.slot` of the original
slot `j` at the seed reached after `j` iterations, and the other slots are untouched. -/
theorem loop_closed (fuel : Nat) (s : DSSEngine) : ∀ (n : Nat) (s' : DSSEngine),
    (List.range n).foldlM (UpdateWalks.body fuel) s = some s' →
    ∃ t, s' = { s with breakpoints_ := t,
                       seed_ := FastRandom^[UpdateWalks.drawsPerBreakpoint s * n] s.seed_ } ∧
      (∀ j, n ≤ j → getBp t j = getBp s.breakpoints_ j) ∧
      (∀ j, j < n → j < 16 →
        UpdateWalks.slot fuel s (getBp s.breakpoints_ j)
          (FastRandom^[UpdateWalks.drawsPerBreakpoint s * j] s.seed_) = some (getBp t j)) := by
  intro n
  induction n with
  | zero =>
    intro s' h
    simp only [List.range_zero, List.foldlM_nil] at h
    cases Option.some.inj h
    exact ⟨s.breakpoints_, rfl, fun _ _ => rfl, fun j hj => absurd hj (Nat.not_lt_zero j)⟩
  | succ n ih =>
    intro s' h
    rw [foldlM_range_succ, Option.bind_eq_some] at h
    obtain ⟨s1, h1, hb⟩ := h
    obtain ⟨t, hs1, hout, hin⟩ := ih s1 h1
    subst hs1
    rw [body_slot, Option.map_eq_some'] at hb
    obtain ⟨bp2, hslot, hs'⟩ := hb
    rw [slot_config] at hslot
    simp only at hslot hs'
    rw [hout n (le_refl n)] at hslot
    refine ⟨setBp t n bp2, ?_, ?_, ?_⟩
    · rw [← hs']
      have hk : UpdateWalks.drawsPerBreakpoint
          { s with breakpoints_ := t,
                   seed_ := FastRandom^[UpdateWalks.drawsPerBreakpoint s * n] s.seed_ }
          = UpdateWalks.drawsPerBreakpoint s := rfl
      rw [hk, ← Function.iterate_add_apply, Nat.mul_succ, Nat.add_comm]
    · intro j hj
      rw [getBp_setBp_ne _ _ _ _ (by omega)]
      exact hout j (by omega)
    · intro j hj h16
      by_cases hjn : j = n
      · subst hjn
        rw [getBp_setBp_same _ _ _ h16]
        exact hslot
      · rw [getBp_setBp_ne _ _ _ _ (fun h => hjn h.symm)]
        exact hin j (by omega) h16

theorem slot_some (fuel : Nat) (s : DSSEngine) (bp bp2 : Breakpoint) (seed : Nat) :
    UpdateWalks.slot fuel s bp seed = some bp2 ↔
      ∃ bp1 dp ap,
        UpdateWalks.walk fuel s bp (UpdateWalks.randDur seed) (UpdateWalks.randAmp s seed)
          = some bp1 ∧
        Reflect fuel bp1.durationPos (-s.durationBarrier_) s.durationBarrier_ = some dp ∧
        Reflect fuel bp1.amplitudePos (-s.amplitudeBarrier_) s.amplitudeBarrier_ = some ap ∧
        bp2 = { bp1 with
          durationPos := dp, amplitudePos := ap,
          currentDuration := (if 1 + dp < 1 / 10 then 1 / 10 else 1 + dp),
          currentAmplitude := ap } := by
  unfold UpdateWalks.slot
  simp only [Option.bind_eq_some, Option.some.injEq]
  constructor
  · rintro ⟨bp1, h1, dp, h2, ap, h3, h4⟩; exact ⟨bp1, dp, ap, h1, h2, h3, h4.symm⟩
  · rintro ⟨bp1, dp, ap, h1, h2, h3, h4⟩; exact ⟨bp1, h1, dp, h2, ap, h3, h4.symm⟩

/-- Bounds on the breakpoint that an iteration of the loop of `UpdateWalks` writes. -/
theorem slot_bounds {fuel : Nat} {s : DSSEngine} {bp bp2 : Breakpoint} {seed : Nat}
    (h : UpdateWalks.slot fuel s bp seed = some bp2) :
    (-s.durationBarrier_ ≤ bp2.durationPos ∧ bp2.durationPos ≤ s.durationBarrier_) ∧
    (-s.amplitudeBarrier_ ≤ bp2.amplitudePos ∧ bp2.amplitudePos ≤ s.amplitudeBarrier_) ∧
    (s.walkMode_ ≠ WalkMode.FIRST_ORDER →
      (-(s.durationBarrier_ / 2) ≤ bp2.durationVel ∧ bp2.durationVel ≤ s.durationBarrier_ / 2) ∧
      (-(s.amplitudeBarrier_ / 2) ≤ bp2.amplitudeVel ∧
        bp2.amplitudeVel ≤ s.amplitudeBarrier_ / 2)) ∧
    bp2.currentAmplitude = bp2.amplitudePos ∧ 1 / 10 ≤ bp2.currentDuration := by
  rw [slot_some] at h
  obtain ⟨bp1, dp, ap, hw, h2, h3, h4⟩ := h
  have r2 := Reflect_range _ _ _ _ _ h2
  have r3 := Reflect_range _ _ _ _ _ h3
  subst h4
  refine ⟨r2, r3, ?_, rfl, ?_⟩
  · intro hm
    rw [walk_some] at hw
    rcases hw with ⟨hf, -⟩ | ⟨-, dv, av, hdv, hav, hbp1⟩
    · exact absurd hf hm
    · have rv := Reflect_range _ _ _ _ _ hdv
      have ra := Reflect_range _ _ _ _ _ hav
      subst hbp1
      simp only
      refine ⟨⟨by linarith [rv.1], by linarith [rv.2]⟩, ⟨by linarith [ra.1], by linarith [ra.2]⟩⟩
  · show (1 : ℚ) / 10 ≤ if 1 + dp < 1 / 10 then 1 / 10 else 1 + dp
    split
    · exact le_refl _
    · rename_i hc; exact not_lt.mp hc

/-- Closed form of `UpdateWalks`: the loop, then the continuity pin, then the
normaliser. -/
theorem UpdateWalks_closed {fuel : Nat} {s s' : DSSEngine} (h : UpdateWalks fuel s = some s') :
    ∃ t, (∀ j, s.breakpointCount_.toNat ≤ j → getBp t j = getBp s.breakpoints_ j) ∧
      (∀ j, j < s.breakpointCount_.toNat → j < 16 →
        UpdateWalks.slot fuel s (getBp s.breakpoints_ j)
          (FastRandom^[UpdateWalks.drawsPerBreakpoint s * j] s.seed_) = some (getBp t j)) ∧
      s' = { s with
        breakpoints_ := normalizeTable s.breakpointCount_.toNat (pinFirst t),
        seed_ := FastRandom^[UpdateWalks.drawsPerBreakpoint s * s.breakpointCount_.toNat]
          s.seed_ } := by
  rw [UpdateWalks_some] at h
  obtain ⟨s1, h1, h2⟩ := h
  obtain ⟨t, hs1, hout, hin⟩ := loop_closed fuel s _ s1 h1
  refine ⟨t, hout, hin, ?_⟩
  rw [h2, NormalizeDurations_table, hs1]
  rfl

/-- Every field of a slot after `UpdateWalks` other than `currentDuration` is that of the
slot after the loop, with the amplitude of slot 0 pinned to zero. -/
theorem getBp_final (n : Nat) (t : Table) (j : Nat) :
    ∃ d, getBp (normalizeTable n (pinFirst t)) j =
      if j = 0 then
        { getBp t 0 with amplitudePos := 0, currentAmplitude := 0, currentDuration := d }
      else { getBp t j with currentDuration := d } := by
  obtain ⟨d, hd⟩ := getBp_normalizeTable n (pinFirst t) j
  refine ⟨d, ?_⟩
  rw [hd, getBp_pinFirst]
  split <;> rfl

theorem SetBreakpointCount_table (count : Int) (s : DSSEngine) :
    SetBreakpointCount count s =
      { s with
        breakpointCount_ := min (max count 2) 16,
        breakpoints_ := normalizeTable (min (max count 2) 16).toNat s.breakpoints_ } := by
  have hc : (if (if count < 2 then 2 else count) > ((MAX_BREAKPOINTS : Nat) : Int)
        then ((MAX_BREAKPOINTS : Nat) : Int) else (if count < 2 then 2 else count))
      = min (max count 2) 16 := by
    simp only [MAX_BREAKPOINTS]
    rcases le_total count 2 with h | h <;> rcases le_total count 16 with h' | h' <;>
      split_ifs <;> simp [max_def, min_def] <;> split_ifs <;> omega
  unfold SetBreakpointCount
  simp only [hc, NormalizeDurations_table]

/-- The phase condition `0 <= phase < 1` together with the frequency condition is kept by
`Process`. -/
theorem Process_phase {fuel : Nat} {s s' : DSSEngine} {out : ℚ}
    (hf : FrequencyCondition s) (h0 : 0 ≤ s.phase_) (h1 : s.phase_ < 1)
    (h : Process fuel s = some (out, s')) :
    FrequencyCondition s' ∧ 0 ≤ s'.phase_ ∧ s'.phase_ < 1 := by
  obtain ⟨hsr, hf0, hfs, hinc⟩ := hf
  have hi0 : 0 ≤ s.phaseIncrement_ := by rw [hinc]; exact div_nonneg hf0 (le_of_lt hsr)
  have hi1 : s.phaseIncrement_ ≤ 1 := by rw [hinc]; exact (div_le_one hsr).2 hfs
  rcases Process_spec h with ⟨hc, hs'⟩ | ⟨hc, hs'⟩
  · subst hs'
    exact ⟨⟨hsr, hf0, hfs, hinc⟩, by show 0 ≤ s.phase_ + s.phaseIncrement_; linarith, hc⟩
  · obtain ⟨t, sd, hs, -⟩ := UpdateWalks_spec hs'
    subst hs
    refine ⟨⟨hsr, hf0, hfs, hinc⟩, ?_, ?_⟩
    · show 0 ≤ s.phase_ + s.phaseIncrement_ - 1; linarith
    · show s.phase_ + s.phaseIncrement_ - 1 < 1; linarith

/-! ## The output range -/

theorem segment_lt (s : DSSEngine) (h : 1 ≤ s.breakpointCount_) :
    Process.segment s < s.breakpointCount_.toNat := by
  have hn : 1 ≤ s.breakpointCount_.toNat := by omega
  rw [segment_eq_spec]
  unfold specSegment
  cases hfind : List.find? (fun i => decide (s.phase_ < durationSum s.breakpoints_ (i + 1)))
      (List.range s.breakpointCount_.toNat) with
  | none => show s.breakpointCount_.toNat - 1 < _; omega
  | some k =>
    have := List.mem_of_find?_eq_some hfind
    exact List.mem_range.mp this

theorem nextSegment_eq (s : DSSEngine) (h : 0 ≤ s.breakpointCount_) :
    (Int.tmod ((Process.segment s : Int) + 1) s.breakpointCount_).toNat =
      (Process.segment s + 1) % s.breakpointCount_.toNat := by
  have h1 : ((Process.segment s : Int) + 1) = ((Process.segment s + 1 : Nat) : Int) := by
    push_cast; rfl
  have h2 : s.breakpointCount_ = ((s.breakpointCount_.toNat : Nat) : Int) :=
    (Int.toNat_of_nonneg h).symm
  rw [h1]
  conv_lhs => rw [h2]
  rw [← Int.ofNat_tmod, Int.toNat_ofNat]

theorem segmentPhase_range (s : DSSEngine) :
    0 ≤ Process.segmentPhase s ∧ Process.segmentPhase s ≤ 1 := by
  unfold Process.segmentPhase
  simp only []
  split_ifs <;> constructor <;> linarith

/-- A linear interpolation at a fraction in `[0, 1]` stays between bounds that hold for
both endpoints. -/
theorem LinearInterp_range (a b t A : ℚ) (ha : -A ≤ a ∧ a ≤ A) (hb : -A ≤ b ∧ b ≤ A)
    (ht : 0 ≤ t ∧ t ≤ 1) : -A ≤ LinearInterp a b t ∧ LinearInterp a b t ≤ A := by
  unfold LinearInterp
  have h1 : 0 ≤ 1 - t := by linarith [ht.2]
  constructor
  · nlinarith [mul_nonneg h1 (by linarith [ha.1] : 0 ≤ a + A),
      mul_nonneg ht.1 (by linarith [hb.1] : 0 ≤ b + A)]
  · nlinarith [mul_nonneg h1 (by linarith [ha.2] : 0 ≤ A - a),
      mul_nonneg ht.1 (by linarith [hb.2] : 0 ≤ A - b)]

/-- The sample of `Process` lies in `[-A, A]` when the active amplitudes do. -/
theorem output_bound (s : DSSEngine) (A : ℚ) (hc : 1 ≤ s.breakpointCount_)
    (hA : ∀ i : Nat, (i : Int) < s.breakpointCount_ →
      -A ≤ (getBp s.breakpoints_ i).currentAmplitude ∧
      (getBp s.breakpoints_ i).currentAmplitude ≤ A) :
    -A ≤ Process.output s ∧ Process.output s ≤ A := by
  have hseg := segment_lt s hc
  have hn : 0 < s.breakpointCount_.toNat := by omega
  unfold Process.output
  rw [nextSegment_eq s (by omega)]
  apply LinearInterp_range
  · exact hA _ (by omega)
  · have := Nat.mod_lt (Process.segment s + 1) hn
    exact hA _ (by omega)
  · exact segmentPhase_range s

theorem Process_output {fuel : Nat} {s s' : DSSEngine} {out : ℚ}
    (h : Process fuel s = some (out, s')) : out = Process.output s := by
  by_cases hc : s.phase_ + s.phaseIncrement_ ≥ 1
  · exact (Process_cross hc h).1
  · exact (Process_stay (not_le.mp hc) h).1

theorem Reset_amplitudes (s : DSSEngine) (j : Nat) (hj : j < 16) :
    -(1 / 2) ≤ (getBp (Reset s).breakpoints_ j).currentAmplitude ∧
    (getBp (Reset s).breakpoints_ j).currentAmplitude ≤ 1 / 2 := by
  rw [Reset_eq]
  obtain ⟨d, hd⟩ := getBp_normalizeTable s.breakpointCount_.toNat (pinFirst resetTable) j
  simp only [hd, getBp_pinFirst]
  have r2 := RandomBipolar_range (FastRandom (FastRandom^[2 * j] 12345))
  by_cases hj0 : j = 0
  · simp only [hj0, if_true]
    constructor <;> norm_num
  · simp only [hj0, if_false, getBp_resetTable j hj, initialBreakpoint]
    constructor
    · linarith [r2.1]
    · linarith [r2.2]

theorem AmplitudeInv_UpdateWalks {fuel : Nat} {s s' : DSSEngine} (hinv : AmplitudeInv s)
    (h : UpdateWalks fuel s = some s') : AmplitudeInv s' := by
  obtain ⟨h2, h16, hd, ha, ha1, hamp⟩ := hinv
  obtain ⟨t, hout, hin, hs'⟩ := UpdateWalks_closed h
  subst hs'
  refine ⟨h2, h16, hd, ha, ha1, fun j hj => ?_⟩
  show -1 ≤ (getBp (normalizeTable _ (pinFirst t)) j).currentAmplitude ∧
    (getBp (normalizeTable _ (pinFirst t)) j).currentAmplitude ≤ 1
  obtain ⟨d, hd'⟩ := getBp_final s.breakpointCount_.toNat t j
  rw [hd']
  by_cases hj0 : j = 0
  · simp only [hj0, if_true]
    constructor <;> norm_num
  · simp only [hj0, if_false]
    by_cases hjc : j < s.breakpointCount_.toNat
    · obtain ⟨-, b2, -, b4, -⟩ := slot_bounds (hin j hjc hj)
      rw [b4]
      constructor
      · linarith [b2.1]
      · linarith [b2.2]
    · rw [hout j (by omega)]
      exact hamp j hj

theorem Reachable_countSteps (l : List Nat) : ∀ s : DSSEngine, Reachable s →
    Reachable (l.foldl (fun s n => SetBreakpointCount (n : Int) s) s) := by
  induction l with
  | nil => intro s h; exact h
  | cons a l ih => intro s h; exact ih _ (Reachable.setBreakpointCount (a : Int) h)


/-! ## Zero step sizes -/

/-- With zero step sizes, an iteration of the loop of `UpdateWalks` keeps the positions
and the velocities of a breakpoint whose positions are inside the barriers and whose
velocities, in second-order and correlated modes, are zero. -/
theorem slot_zero_step {fuel : Nat} {s : DSSEngine} {bp bp2 : Breakpoint} {seed : Nat}
    (hd : 0 < s.durationBarrier_) (ha : 0 < s.amplitudeBarrier_)
    (hds : s.durationStep_ = 0) (has : s.amplitudeStep_ = 0)
    (hdp : -s.durationBarrier_ ≤ bp.durationPos ∧ bp.durationPos ≤ s.durationBarrier_)
    (hap : -s.amplitudeBarrier_ ≤ bp.amplitudePos ∧ bp.amplitudePos ≤ s.amplitudeBarrier_)
    (hv : s.walkMode_ ≠ WalkMode.FIRST_ORDER → bp.durationVel = 0 ∧ bp.amplitudeVel = 0)
    (h : UpdateWalks.slot fuel s bp seed = some bp2) :
    bp2.durationPos = bp.durationPos ∧ bp2.amplitudePos = bp.amplitudePos ∧
    bp2.durationVel = bp.durationVel ∧ bp2.amplitudeVel = bp.amplitudeVel ∧
    bp2.currentAmplitude = bp.amplitudePos ∧
    bp2.currentDuration = (if 1 + bp.durationPos < 1 / 10 then 1 / 10 else 1 + bp.durationPos) := by
  rw [slot_some] at h
  obtain ⟨bp1, dp, ap, hw, h2, h3, h4⟩ := h
  have hbp1 : bp1.durationPos = bp.durationPos ∧ bp1.amplitudePos = bp.amplitudePos ∧
      bp1.durationVel = bp.durationVel ∧ bp1.amplitudeVel = bp.amplitudeVel := by
    rw [walk_some] at hw
    rcases hw with ⟨-, hbp1⟩ | ⟨hm, dv, av, hdv, hav, hbp1⟩
    · subst hbp1
      simp [hds, has]
    · obtain ⟨v1, v2⟩ := hv hm
      rw [hds, v1, mul_zero, add_zero] at hdv
      rw [has, v2, mul_zero, add_zero] at hav
      rw [Reflect_inside fuel 0 _ _ (by linarith) (by linarith)] at hdv hav
      cases Option.some.inj hdv
      cases Option.some.inj hav
      subst hbp1
      simp [v1, v2]
  obtain ⟨e1, e2, e3, e4⟩ := hbp1
  rw [e1, Reflect_inside fuel _ _ _ hdp.1 hdp.2] at h2
  rw [e2, Reflect_inside fuel _ _ _ hap.1 hap.2] at h3
  cases Option.some.inj h2
  cases Option.some.inj h3
  subst h4
  exact ⟨rfl, rfl, e3, e4, rfl, rfl⟩

theorem Reset_velocities (s : DSSEngine) (j : Nat) :
    (getBp (Reset s).breakpoints_ j).durationVel = 0 ∧
    (getBp (Reset s).breakpoints_ j).amplitudeVel = 0 := by
  rw [Reset_eq]
  obtain ⟨d, hd⟩ := getBp_normalizeTable s.breakpointCount_.toNat (pinFirst resetTable) j
  simp only [hd, getBp_pinFirst]
  have hr : ∀ k : Nat, (getBp resetTable k).durationVel = 0 ∧
      (getBp resetTable k).amplitudeVel = 0 := by
    intro k
    by_cases hk : k < 16
    · rw [getBp_resetTable k hk]; exact ⟨rfl, rfl⟩
    · have hz : getBp resetTable k = Breakpoint.zero := by simp [getBp, hk]
      rw [hz]; exact ⟨rfl, rfl⟩
  by_cases hj0 : j = 0
  · simp only [hj0, if_true]
    exact hr 0
  · simp only [hj0, if_false]
    exact hr j


/-! ## Zero barriers -/

/-- Against an interval of width zero the `Reflect` loop never ends unless the value is
already the bound. -/
theorem Reflect_point (m : ℚ) : ∀ (fuel : Nat) (v : ℚ), v ≠ m → Reflect fuel v m m = none := by
  intro fuel
  induction fuel with
  | zero =>
    intro v hv
    rw [Reflect_zero, if_pos (lt_or_gt_of_ne hv)]
  | succ n ih =>
    intro v hv
    rw [Reflect_succ, if_pos (lt_or_gt_of_ne hv)]
    apply ih
    unfold reflectBody
    rcases lt_or_gt_of_ne hv with h | h
    · have h1 : m + (m - v) > m := by linarith
      simp only [h, if_true, h1]
      intro hc; linarith
    · have h1 : ¬ v < m := not_lt.mpr (le_of_lt h)
      simp only [h1, if_false, h, if_true]
      intro hc; linarith

theorem Sync_eq (fuel : Nat) (s : DSSEngine) :
    Sync fuel s = UpdateWalks fuel (setPhase 0 0 0 s) := rfl

theorem advance_eq (s : DSSEngine) (p : ℚ) :
    Process.advance s p = setPhase p (Process.segment s : Int) (Process.segmentPhase s) s := rfl

/-- When `UpdateWalks` never returns, neither does `Sync`. -/
theorem Sync_none {s : DSSEngine} (h : ∀ fuel, UpdateWalks fuel s = none) :
    ∀ fuel, Sync fuel s = none := by
  intro fuel
  rw [Sync_eq, UpdateWalks_setPhase, h fuel]
  rfl

/-- When `UpdateWalks` never returns, neither does a `Process` call that crosses a cycle
boundary. -/
theorem Process_none {s : DSSEngine} (h : ∀ fuel, UpdateWalks fuel s = none)
    (hc : s.phase_ + s.phaseIncrement_ ≥ 1) : ∀ fuel, Process fuel s = none := by
  intro fuel
  rw [Process_eq, if_pos hc, advance_eq, UpdateWalks_setPhase, h fuel]
  rfl

/-- In second-order and correlated modes with a duration barrier of 0, `UpdateWalks`
never returns when the first velocity it reflects is not zero. -/
theorem UpdateWalks_stalls_duration (s : DSSEngine) (hm : s.walkMode_ ≠ WalkMode.FIRST_ORDER)
    (hc : 0 < s.breakpointCount_.toNat) (hdb : s.durationBarrier_ = 0)
    (hv : (getBp s.breakpoints_ 0).durationVel + UpdateWalks.randDur s.seed_ * s.durationStep_
      ≠ 0) :
    ∀ fuel, UpdateWalks fuel s = none := by
  intro fuel
  cases h : UpdateWalks fuel s with
  | none => rfl
  | some s' =>
    exfalso
    obtain ⟨t, -, hin, -⟩ := UpdateWalks_closed h
    have h0 := hin 0 hc (by norm_num)
    rw [Nat.mul_zero, Function.iterate_zero_apply, slot_some] at h0
    obtain ⟨bp1, dp, ap, hw, -⟩ := h0
    rw [walk_some] at hw
    rcases hw with ⟨hf, -⟩ | ⟨-, dv, av, hdv, -⟩
    · exact hm hf
    · rw [hdb] at hdv
      have e1 : -((0 : ℚ) * (1 / 2)) = 0 := by norm_num
      have e2 : (0 : ℚ) * (1 / 2) = 0 := by norm_num
      rw [e1, e2, Reflect_point 0 fuel _ hv] at hdv
      exact absurd hdv (by simp)

/-- In second-order and correlated modes with a positive duration barrier and an amplitude
barrier of 0, `UpdateWalks` never returns when the first amplitude velocity it reflects is
not zero. -/
theorem UpdateWalks_stalls_amplitude (s : DSSEngine) (hm : s.walkMode_ ≠ WalkMode.FIRST_ORDER)
    (hc : 0 < s.breakpointCount_.toNat) (hab : s.amplitudeBarrier_ = 0)
    (hv : (getBp s.breakpoints_ 0).amplitudeVel +
      UpdateWalks.randAmp s s.seed_ * s.amplitudeStep_ ≠ 0) :
    ∀ fuel, UpdateWalks fuel s = none := by
  intro fuel
  cases h : UpdateWalks fuel s with
  | none => rfl
  | some s' =>
    exfalso
    obtain ⟨t, -, hin, -⟩ := UpdateWalks_closed h
    have h0 := hin 0 hc (by norm_num)
    rw [Nat.mul_zero, Function.iterate_zero_apply, slot_some] at h0
    obtain ⟨bp1, dp, ap, hw, -⟩ := h0
    rw [walk_some] at hw
    rcases hw with ⟨hf, -⟩ | ⟨-, dv, av, -, hav, -⟩
    · exact hm hf
    · rw [hab] at hav
      have e1 : -((0 : ℚ) * (1 / 2)) = 0 := by norm_num
      have e2 : (0 : ℚ) * (1 / 2) = 0 := by norm_num
      rw [e1, e2, Reflect_point 0 fuel _ hv] at hav
      exact absurd hav (by simp)

/-- With an amplitude barrier of 0, whenever `UpdateWalks` does return, every active
`currentAmplitude` is 0. -/
theorem UpdateWalks_flat {fuel : Nat} {s s' : DSSEngine} (hab : s.amplitudeBarrier_ = 0)
    (h : UpdateWalks fuel s = some s') (i : Nat) (hi : i < s.breakpointCount_.toNat) :
    (getBp s'.breakpoints_ i).currentAmplitude = 0 := by
  obtain ⟨t, -, hin, hs'⟩ := UpdateWalks_closed h
  subst hs'
  show (getBp (normalizeTable _ (pinFirst t)) i).currentAmplitude = 0
  obtain ⟨d, hd'⟩ := getBp_final s.breakpointCount_.toNat t i
  rw [hd']
  by_cases hi0 : i = 0
  · simp only [hi0, if_true]
  · simp only [hi0, if_false]
    by_cases h16 : i < 16
    · obtain ⟨-, b2, -, b4, -⟩ := slot_bounds (hin i hi h16)
      rw [hab] at b2
      show (getBp t i).currentAmplitude = 0
      rw [b4]
      linarith [b2.1, b2.2]
    · have hz : getBp t i = Breakpoint.zero := by simp [getBp, h16]
      rw [hz]; rfl

/-! ## Random draws -/

/-- How an iteration of the loop of `UpdateWalks` uses its two draws. -/
theorem slot_draws {fuel : Nat} {s : DSSEngine} {bp bp2 : Breakpoint} {seed : Nat}
    (h : UpdateWalks.slot fuel s bp seed = some bp2) :
    (s.walkMode_ = WalkMode.FIRST_ORDER →
      Reflect fuel (bp.durationPos + UpdateWalks.randDur seed * s.durationStep_)
        (-s.durationBarrier_) s.durationBarrier_ = some bp2.durationPos ∧
      Reflect fuel (bp.amplitudePos + UpdateWalks.randAmp s seed * s.amplitudeStep_)
        (-s.amplitudeBarrier_) s.amplitudeBarrier_ = some bp2.amplitudePos) ∧
    (s.walkMode_ ≠ WalkMode.FIRST_ORDER →
      Reflect fuel (bp.durationVel + UpdateWalks.randDur seed * s.durationStep_)
        (-(s.durationBarrier_ * (1 / 2))) (s.durationBarrier_ * (1 / 2))
        = some bp2.durationVel ∧
      Reflect fuel (bp.amplitudeVel + UpdateWalks.randAmp s seed * s.amplitudeStep_)
        (-(s.amplitudeBarrier_ * (1 / 2))) (s.amplitudeBarrier_ * (1 / 2))
        = some bp2.amplitudeVel) := by
  rw [slot_some] at h
  obtain ⟨bp1, dp, ap, hw, h2, h3, h4⟩ := h
  rw [walk_some] at hw
  subst h4
  rcases hw with ⟨hf, hbp1⟩ | ⟨hm, dv, av, hdv, hav, hbp1⟩
  · subst hbp1
    exact ⟨fun _ => ⟨h2, h3⟩, fun hm => absurd hf hm⟩
  · subst hbp1
    exact ⟨fun hf => absurd hf hm, fun _ => ⟨hdv, hav⟩⟩

theorem randAmp_correlated (s : DSSEngine) (seed : Nat)
    (hm : s.walkMode_ = WalkMode.CORRELATED) :
    UpdateWalks.randAmp s seed = (RandomBipolar seed).1 := by
  unfold UpdateWalks.randAmp
  rw [if_pos hm]

theorem randAmp_other (s : DSSEngine) (seed : Nat)
    (hm : s.walkMode_ ≠ WalkMode.CORRELATED) :
    UpdateWalks.randAmp s seed = (RandomBipolar (FastRandom seed)).1 := by
  unfold UpdateWalks.randAmp
  rw [if_neg hm]

theorem drawsPerBreakpoint_correlated (s : DSSEngine)
    (hm : s.walkMode_ = WalkMode.CORRELATED) : UpdateWalks.drawsPerBreakpoint s = 1 := by
  unfold UpdateWalks.drawsPerBreakpoint
  rw [if_pos hm]

theorem drawsPerBreakpoint_other (s : DSSEngine)
    (hm : s.walkMode_ ≠ WalkMode.CORRELATED) : UpdateWalks.drawsPerBreakpoint s = 2 := by
  unfold UpdateWalks.drawsPerBreakpoint
  rw [if_neg hm]

/-! ## Index safety -/

theorem countLoop_range (s : DSSEngine) (h16 : s.breakpointCount_ ≤ 16) :
    ∀ i ∈ countLoop s, 0 ≤ i ∧ i ≤ 15 := by
  intro i hi
  unfold countLoop at hi
  rw [List.mem_map] at hi
  obtain ⟨k, hk, rfl⟩ := hi
  rw [List.mem_range] at hk
  omega

theorem scanIndices_range (t : Table) (phase : ℚ) : ∀ (r i : Nat) (acc : ℚ),
    ∀ j ∈ Process.scanIndices t phase r i acc, (i : Int) ≤ j ∧ j < (i : Int) + r := by
  intro r
  induction r with
  | zero => intro i acc j hj; simp [Process.scanIndices] at hj
  | succ r ih =>
    intro i acc j hj
    unfold Process.scanIndices at hj
    simp only [List.mem_cons] at hj
    rcases hj with rfl | hj
    · push_cast; omega
    · split at hj
      · simp at hj
      · have := ih (i + 1) _ j hj
        push_cast at this ⊢
        omega

theorem ReachableFromConstruct_count (s : DSSEngine) (h : ReachableFromConstruct s) :
    2 ≤ s.breakpointCount_ ∧ s.breakpointCount_ ≤ 16 := by
  have hwalk : ∀ (fuel : Nat) (x x' : DSSEngine), UpdateWalks fuel x = some x' →
      x'.breakpointCount_ = x.breakpointCount_ := by
    intro fuel x x' hx
    obtain ⟨t, sd, hs', -⟩ := UpdateWalks_spec hx
    rw [hs']
  have hreset : ∀ x : DSSEngine, (Reset x).breakpointCount_ = x.breakpointCount_ :=
    fun x => by rw [Reset_eq]
  induction h with
  | construct mem => exact ⟨by show (2 : Int) ≤ 8; decide, by show (8 : Int) ≤ 16; decide⟩
  | @init x sampleRate _ ih =>
    have hinit : Init sampleRate x = Reset { x with sampleRate_ := sampleRate } := rfl
    rw [hinit, hreset]
    exact ih
  | reset _ ih => rw [hreset]; exact ih
  | @sync x x' fuel _ hs ih =>
    have := hwalk fuel (setPhase 0 0 0 x) x' hs
    rw [this]; exact ih
  | @process x x' fuel out _ hp ih =>
    rcases Process_spec hp with ⟨-, hs'⟩ | ⟨-, hs'⟩
    · rw [hs']; exact ih
    · rw [hwalk fuel _ x' hs']; exact ih
  | setFrequency _ _ ih => exact ih
  | setDurationStep _ _ ih => exact ih
  | setAmplitudeStep _ _ ih => exact ih
  | setDurationBarrier _ _ ih => exact ih
  | setAmplitudeBarrier _ _ ih => exact ih
  | @setBreakpointCount x count _ ih =>
    rw [SetBreakpointCount_table]
    exact ⟨le_min (le_max_right count 2) (by decide), min_le_right _ _⟩
  | setWalkMode _ _ ih => exact ih


/-! ## Exact-arithmetic counterparts

The statements of this section read `float` as exact rationals.  They describe the
idealised engine, not the rounded one: the single-precision statements are those about
the namespace `F32`. -/

/-- Over exact rationals the value `newSeed / 2^31 - 1` lies in `[-1, 1)`. -/
theorem exact_RandomBipolar (seed : Nat) :
    (RandomBipolar seed).2 = (seed * 1664525 + 1013904223) % 2 ^ 32 ∧
    (RandomBipolar seed).1 = ((RandomBipolar seed).2 : ℚ) / 2 ^ 31 - 1 ∧
    -1 ≤ (RandomBipolar seed).1 ∧ (RandomBipolar seed).1 < 1 := by
  refine ⟨rfl, ?_, RandomBipolar_range seed⟩
  show (FastRandom seed : ℚ) / 2147483648 - 1 = (FastRandom seed : ℚ) / 2 ^ 31 - 1
  norm_num

/-- Over exact rationals, for bounds `min < max` the `Reflect` loop terminates; its result
does not depend on the iteration bound, lies in `[min, max]`, is `val` itself when `val` is
already in `[min, max]`, and is a mirror-fold of `val`. -/
theorem exact_Reflect_elastic (val min max : ℚ) (h : min < max) :
    ∃ fuel r, Reflect fuel val min max = some r ∧
      (∀ fuel' r', Reflect fuel' val min max = some r' → r' = r) ∧
      min ≤ r ∧ r ≤ max ∧
      (min ≤ val → val ≤ max → r = val) ∧
      ∃ k : ℤ, r - val = k * (2 * (max - min)) ∨ r + val - 2 * min = k * (2 * (max - min)) := by
  obtain ⟨fuel, r, hr⟩ := Reflect_terminates val min max h
  have hrange := Reflect_range fuel val min max r hr
  refine ⟨fuel, r, hr, fun fuel' r' h' => Reflect_det h' hr, hrange.1, hrange.2, ?_,
    Reflect_fold fuel val min max r hr⟩
  intro h1 h2
  have := Reflect_inside fuel val min max h1 h2
  rw [hr] at this
  exact Option.some.inj this

/-- Over exact rationals the increment after `Init(48000)` and `SetFrequency(480)` is
`1/100`, and of 100 consecutive `Process` calls exactly the last one takes the cycle
completion branch, leaving phase 0. -/
theorem exact_cycle_scenario (mem : Table) :
    (SetFrequency 480 (Init 48000 (construct mem))).phaseIncrement_ = 1 / 100 ∧
    ∃ fuel e, Process.trace fuel 100 (SetFrequency 480 (Init 48000 (construct mem))) =
        some (List.replicate 99 false ++ [true], e) ∧
      e.phase_ = 0 ∧
      ∀ fuel' r, Process.trace fuel' 100 (SetFrequency 480 (Init 48000 (construct mem))) = some r →
        r = (List.replicate 99 false ++ [true], e) := by
  have hinc := (scenario_start mem).1
  have hph := (scenario_start mem).2.1
  have hd := (scenario_start mem).2.2.1
  have ha := (scenario_start mem).2.2.2
  obtain ⟨fuel, e, he, hphase⟩ := trace_one_cycle (1 / 100) (by norm_num) 99
    (SetFrequency 480 (Init 48000 (construct mem))) hinc (by rw [hph]; norm_num) hd ha
  refine ⟨hinc, fuel, e, he, hphase, ?_⟩
  intro fuel' r hr
  have a := trace_mono (Nat.le_max_left fuel' fuel) 100 hr
  have b := trace_mono (Nat.le_max_right fuel' fuel) 100 he
  rw [a] at b
  exact Option.some.inj b

/-- Over exact rationals, with `0 <= frequency <= sampleRate` and positive barriers the
phase stays in `[0, 1)`. -/
theorem exact_phase_invariant :
    (∀ s : DSSEngine, FrequencyCondition s →
      0 < s.durationBarrier_ → 0 < s.amplitudeBarrier_ → 0 ≤ s.phase_ → s.phase_ < 1 →
      (∃ fuel r, Process fuel s = some r) ∧
      ∀ fuel out s', Process fuel s = some (out, s') → 0 ≤ s'.phase_ ∧ s'.phase_ < 1) ∧
    (∀ s : DSSEngine, (Reset s).phase_ = 0) ∧
    (∀ (s : DSSEngine) (fuel : Nat) (s' : DSSEngine), Sync fuel s = some s' → s'.phase_ = 0) ∧
    (∀ s : DSSEngine, ReachableFreq s →
      FrequencyCondition s ∧ 0 ≤ s.phase_ ∧ s.phase_ < 1) := by
  have hreset : ∀ s : DSSEngine, (Reset s).phase_ = 0 := fun s => by rw [Reset_eq]
  have hsync : ∀ (s : DSSEngine) (fuel : Nat) (s' : DSSEngine),
      Sync fuel s = some s' → s'.phase_ = 0 := by
    intro s fuel s' h
    have h' : UpdateWalks fuel { s with phase_ := 0, currentSegment_ := 0, segmentPhase_ := 0 }
        = some s' := h
    obtain ⟨t, sd, hs, -⟩ := UpdateWalks_spec h'
    rw [hs]
  have hresetF : ∀ s : DSSEngine, 0 < s.sampleRate_ → 0 ≤ s.frequency_ →
      s.frequency_ ≤ s.sampleRate_ → FrequencyCondition (Reset s) := by
    intro s a b c
    rw [Reset_eq]
    exact ⟨a, b, c, rfl⟩
  refine ⟨?_, hreset, hsync, ?_⟩
  · intro s hf hd ha h0 h1
    exact ⟨Process_terminates s hd ha, fun fuel out s' h => (Process_phase hf h0 h1 h).2⟩
  · intro s h
    induction h with
    | init mem sampleRate hsr =>
      have hinit : Init sampleRate (construct mem) =
          Reset { construct mem with sampleRate_ := sampleRate } := rfl
      rw [hinit]
      refine ⟨hresetF _ ?_ ?_ ?_, ?_, ?_⟩
      · show 0 < sampleRate; linarith
      · show (0 : ℚ) ≤ 220; norm_num
      · exact hsr
      · rw [hreset]
      · rw [hreset]; norm_num
    | reset _ ih =>
      refine ⟨hresetF _ ih.1.1 ih.1.2.1 ih.1.2.2.1, ?_, ?_⟩
      · rw [hreset]
      · rw [hreset]; norm_num
    | @sync x x' fuel _ hs ih =>
      have h' : UpdateWalks fuel { x with phase_ := 0, currentSegment_ := 0, segmentPhase_ := 0 }
          = some x' := hs
      obtain ⟨t, sd, hx, -⟩ := UpdateWalks_spec h'
      subst hx
      exact ⟨ih.1, le_refl _, by show (0 : ℚ) < 1; norm_num⟩
    | process fuel out _ hp ih => exact Process_phase ih.1 ih.2.1 ih.2.2 hp
    | @setFrequency x freq _ h0 h1 ih =>
      exact ⟨⟨ih.1.1, h0, h1, rfl⟩, ih.2⟩
    | setDurationStep _ _ ih => exact ih
    | setAmplitudeStep _ _ ih => exact ih
    | setDurationBarrier _ _ ih => exact ih
    | setAmplitudeBarrier _ _ ih => exact ih
    | @setBreakpointCount x count _ ih =>
      rw [SetBreakpointCount_table]
      exact ih
    | setWalkMode _ _ ih => exact ih

/-! ## Single-precision rounding -/

theorem pow2_eq (e : Int) : F32.pow2 e = (2 : ℚ) ^ e := by
  unfold F32.pow2
  split
  · rename_i h
    obtain ⟨n, rfl⟩ := Int.eq_ofNat_of_zero_le h
    simp
  · rename_i h
    obtain ⟨n, hn⟩ := Int.exists_eq_neg_ofNat (le_of_lt (not_le.mp h))
    subst hn
    simp

theorem pow2_pos (e : Int) : 0 < F32.pow2 e := by
  rw [pow2_eq]; positivity

theorem pow2_add (a b : Int) : F32.pow2 (a + b) = F32.pow2 a * F32.pow2 b := by
  rw [pow2_eq, pow2_eq, pow2_eq, zpow_add₀ (by norm_num)]

theorem pow2_le {a b : Int} (h : a ≤ b) : F32.pow2 a ≤ F32.pow2 b := by
  rw [pow2_eq, pow2_eq]; exact zpow_le_zpow_right₀ (by norm_num) h

theorem pow2_lt_iff {a b : Int} : F32.pow2 a < F32.pow2 b ↔ a < b := by
  rw [pow2_eq, pow2_eq]; exact zpow_lt_zpow_iff_right₀ (by norm_num)

theorem pow2_natCast (n : Nat) : F32.pow2 (n : Int) = (2 : ℚ) ^ n := by
  rw [pow2_eq, zpow_natCast]

theorem pow2_succ (a : Int) : F32.pow2 (a + 1) = 2 * F32.pow2 a := by
  rw [pow2_add, mul_comm]; congr 1

theorem log2Fuel_spec : ∀ (fuel n : Nat), 0 < n → n ≤ fuel →
    2 ^ F32.log2Fuel fuel n ≤ n ∧ n < 2 ^ (F32.log2Fuel fuel n + 1)
  | 0, n, h0, h => by omega
  | fuel + 1, n, h0, h => by
    unfold F32.log2Fuel
    split
    · rename_i h2
      have : n = 1 := by omega
      subst this
      simp
    · rename_i h2
      have ih := log2Fuel_spec fuel (n / 2) (by omega) (by omega)
      simp only [pow_succ] at ih ⊢
      generalize 2 ^ F32.log2Fuel fuel (n / 2) = p at ih ⊢
      omega

theorem log2_spec (n : Nat) (h : 0 < n) : 2 ^ F32.log2 n ≤ n ∧ n < 2 ^ (F32.log2 n + 1) :=
  log2Fuel_spec n n h (le_refl n)

theorem abs_eq_natAbs_div (x : ℚ) : |x| = (x.num.natAbs : ℚ) / (x.den : ℚ) := by
  conv_lhs => rw [← Rat.num_div_den x]
  rw [abs_div, Nat.abs_cast, ← Int.cast_abs, Int.abs_eq_natAbs, Int.cast_natCast]

/-- The binary exponent brackets the magnitude. -/
theorem exponent_spec (x : ℚ) (hx : x ≠ 0) :
    F32.pow2 (F32.exponent x) ≤ |x| ∧ |x| < F32.pow2 (F32.exponent x + 1) := by
  have hN : 0 < x.num.natAbs := Int.natAbs_pos.mpr (Rat.num_ne_zero.mpr hx)
  have hD : 0 < x.den := x.den_pos
  obtain ⟨a1, a2⟩ := log2_spec _ hN
  obtain ⟨b1, b2⟩ := log2_spec _ hD
  have a1q : (2 : ℚ) ^ F32.log2 x.num.natAbs ≤ (x.num.natAbs : ℚ) := by exact_mod_cast a1
  have a2q : (x.num.natAbs : ℚ) < (2 : ℚ) ^ (F32.log2 x.num.natAbs + 1) := by exact_mod_cast a2
  have b1q : (2 : ℚ) ^ F32.log2 x.den ≤ (x.den : ℚ) := by exact_mod_cast b1
  have b2q : (x.den : ℚ) < (2 : ℚ) ^ (F32.log2 x.den + 1) := by exact_mod_cast b2
  have hDq : (0 : ℚ) < (x.den : ℚ) := by exact_mod_cast hD
  have habs := abs_eq_natAbs_div x
  have hd : F32.pow2 ((F32.log2 x.num.natAbs : Int) - (F32.log2 x.den : Int)) =
      (2 : ℚ) ^ F32.log2 x.num.natAbs / (2 : ℚ) ^ F32.log2 x.den := by
    rw [pow2_eq, zpow_sub₀ (by norm_num), zpow_natCast, zpow_natCast]
  have hpa : (0 : ℚ) < (2 : ℚ) ^ F32.log2 x.num.natAbs := by positivity
  have hpb : (0 : ℚ) < (2 : ℚ) ^ F32.log2 x.den := by positivity
  have hup : |x| < F32.pow2 ((F32.log2 x.num.natAbs : Int) - (F32.log2 x.den : Int) + 1) := by
    rw [pow2_succ, hd, habs, div_lt_iff₀ hDq]
    rw [pow_succ] at a2q
    calc (x.num.natAbs : ℚ) < 2 ^ F32.log2 x.num.natAbs * 2 := a2q
      _ = 2 * (2 ^ F32.log2 x.num.natAbs / 2 ^ F32.log2 x.den) * 2 ^ F32.log2 x.den := by
        field_simp; ring
      _ ≤ 2 * (2 ^ F32.log2 x.num.natAbs / 2 ^ F32.log2 x.den) * (x.den : ℚ) := by
        apply mul_le_mul_of_nonneg_left b1q; positivity
  have hlo : F32.pow2 ((F32.log2 x.num.natAbs : Int) - (F32.log2 x.den : Int) - 1) ≤ |x| := by
    have h2 : F32.pow2 ((F32.log2 x.num.natAbs : Int) - (F32.log2 x.den : Int)) =
        2 * F32.pow2 ((F32.log2 x.num.natAbs : Int) - (F32.log2 x.den : Int) - 1) := by
      rw [← pow2_succ]; congr 1; ring
    have h3 : F32.pow2 ((F32.log2 x.num.natAbs : Int) - (F32.log2 x.den : Int) - 1) =
        (2 : ℚ) ^ F32.log2 x.num.natAbs / (2 : ℚ) ^ F32.log2 x.den / 2 := by
      rw [← hd, h2]; ring
    rw [h3, habs, le_div_iff₀ hDq]
    rw [pow_succ] at b2q
    calc (2 : ℚ) ^ F32.log2 x.num.natAbs / 2 ^ F32.log2 x.den / 2 * (x.den : ℚ)
        ≤ 2 ^ F32.log2 x.num.natAbs / 2 ^ F32.log2 x.den / 2 * (2 ^ F32.log2 x.den * 2) := by
          apply mul_le_mul_of_nonneg_left (le_of_lt b2q); positivity
      _ = 2 ^ F32.log2 x.num.natAbs := by field_simp
      _ ≤ (x.num.natAbs : ℚ) := a1q
  unfold F32.exponent
  simp only []
  split
  · rename_i h; exact ⟨h, hup⟩
  · rename_i h
    refine ⟨hlo, ?_⟩
    rw [sub_add_cancel]
    exact not_le.mp h

/-- The binary exponent is determined by the bracket. -/
theorem exponent_unique (x : ℚ) (hx : x ≠ 0) (e : Int)
    (h1 : F32.pow2 e ≤ |x|) (h2 : |x| < F32.pow2 (e + 1)) : F32.exponent x = e := by
  obtain ⟨s1, s2⟩ := exponent_spec x hx
  have a : F32.exponent x < e + 1 := pow2_lt_iff.mp (lt_of_le_of_lt s1 h2)
  have b : e < F32.exponent x + 1 := pow2_lt_iff.mp (lt_of_le_of_lt h1 s2)
  omega

theorem ulp_pos (x : ℚ) : 0 < F32.ulp x := pow2_pos _

theorem ulp_mul (x : ℚ) : (2 : ℚ) ^ 23 * F32.ulp x = F32.pow2 (F32.exponent x) := by
  unfold F32.ulp
  have h : F32.exponent x = 23 + (F32.exponent x - 23) := by ring
  conv_rhs => rw [h, pow2_add]
  congr 1

/-- The scaled magnitude has 24 significant bits. -/
theorem scaled_range (x : ℚ) (hx : 0 < x) :
    (2 : ℚ) ^ 23 ≤ x / F32.ulp x ∧ x / F32.ulp x < (2 : ℚ) ^ 24 := by
  obtain ⟨s1, s2⟩ := exponent_spec x (ne_of_gt hx)
  rw [abs_of_pos hx] at s1 s2
  have hu := ulp_pos x
  have hm := ulp_mul x
  constructor
  · rw [le_div_iff₀ hu, hm]; exact s1
  · rw [div_lt_iff₀ hu]
    have : (2 : ℚ) ^ 24 * F32.ulp x = F32.pow2 (F32.exponent x + 1) := by
      rw [pow2_succ, ← hm]; ring
    rw [this]; exact s2

theorem roundNearestEven_cases (x : ℚ) :
    (F32.roundNearestEven x = ⌊x⌋ ∧ x - (⌊x⌋ : ℚ) ≤ 1 / 2) ∨
    (F32.roundNearestEven x = ⌊x⌋ + 1 ∧ 1 / 2 ≤ x - (⌊x⌋ : ℚ)) := by
  unfold F32.roundNearestEven
  simp only []
  split
  · rename_i h; exact Or.inl ⟨rfl, le_of_lt h⟩
  · rename_i h
    split
    · rename_i h'; exact Or.inr ⟨rfl, le_of_lt h'⟩
    · rename_i h'
      split
      · exact Or.inl ⟨rfl, not_lt.mp h'⟩
      · exact Or.inr ⟨rfl, not_lt.mp h⟩

theorem le_roundNearestEven (x : ℚ) (N : Int) (h : (N : ℚ) ≤ x) :
    N ≤ F32.roundNearestEven x := by
  have hf : N ≤ ⌊x⌋ := Int.le_floor.mpr h
  rcases roundNearestEven_cases x with ⟨e, -⟩ | ⟨e, -⟩ <;> rw [e] <;> omega

theorem roundNearestEven_le (x : ℚ) (N : Int) (h : x ≤ (N : ℚ)) :
    F32.roundNearestEven x ≤ N := by
  have hfl : (⌊x⌋ : ℚ) ≤ x := Int.floor_le x
  rcases roundNearestEven_cases x with ⟨e, -⟩ | ⟨e, hr⟩
  · rw [e]
    have : (⌊x⌋ : ℚ) ≤ (N : ℚ) := le_trans hfl h
    exact_mod_cast this
  · rw [e]
    have : (⌊x⌋ : ℚ) < (N : ℚ) := by linarith
    have : ⌊x⌋ < N := by exact_mod_cast this
    omega

theorem roundNearestEven_error (x : ℚ) : |(F32.roundNearestEven x : ℚ) - x| ≤ 1 / 2 := by
  have hfl : (⌊x⌋ : ℚ) ≤ x := Int.floor_le x
  have hlt : x < (⌊x⌋ : ℚ) + 1 := Int.lt_floor_add_one x
  rw [abs_le]
  rcases roundNearestEven_cases x with ⟨e, hr⟩ | ⟨e, hr⟩
  · rw [e]; constructor <;> linarith
  · rw [e]; push_cast; constructor <;> linarith

theorem roundNearestEven_intCast (N : Int) : F32.roundNearestEven (N : ℚ) = N :=
  le_antisymm (roundNearestEven_le _ N (le_refl _)) (le_roundNearestEven _ N (le_refl _))

theorem toFloat_zero : F32.toFloat 0 = 0 := by
  unfold F32.toFloat; simp

theorem toFloat_of_pos (x : ℚ) (hx : 0 < x) :
    F32.toFloat x = (F32.roundNearestEven (x / F32.ulp x) : ℚ) * F32.ulp x := by
  unfold F32.toFloat
  rw [if_neg (ne_of_gt hx), if_neg (not_lt.mpr (le_of_lt hx))]

theorem exponent_neg (x : ℚ) : F32.exponent (-x) = F32.exponent x := by
  unfold F32.exponent
  simp only [Rat.neg_num, Int.natAbs_neg, Rat.neg_den, abs_neg]

theorem ulp_neg (x : ℚ) : F32.ulp (-x) = F32.ulp x := by
  unfold F32.ulp; rw [exponent_neg]

theorem toFloat_of_neg (x : ℚ) (hx : x < 0) : F32.toFloat x = -F32.toFloat (-x) := by
  have h : 0 < -x := neg_pos.mpr hx
  rw [toFloat_of_pos _ h, ulp_neg]
  unfold F32.toFloat
  rw [if_neg (ne_of_lt hx), if_pos hx]

/-- Rounding commutes with negation. -/
theorem toFloat_neg (x : ℚ) : F32.toFloat (-x) = -F32.toFloat x := by
  rcases lt_trichotomy x 0 with h | h | h
  · rw [toFloat_of_neg x h, neg_neg]
  · subst h; simp [toFloat_zero]
  · rw [toFloat_of_neg (-x) (neg_lt_zero.mpr h), neg_neg]

theorem toFloat_nonneg (x : ℚ) (hx : 0 ≤ x) : 0 ≤ F32.toFloat x := by
  rcases eq_or_lt_of_le hx with h | h
  · rw [← h, toFloat_zero]
  · rw [toFloat_of_pos x h]
    apply mul_nonneg _ (le_of_lt (ulp_pos x))
    have : (0 : Int) ≤ F32.roundNearestEven (x / F32.ulp x) :=
      le_roundNearestEven _ 0 (by simpa using div_nonneg hx (le_of_lt (ulp_pos x)))
    exact_mod_cast this

theorem toFloat_nonpos (x : ℚ) (hx : x ≤ 0) : F32.toFloat x ≤ 0 := by
  have := toFloat_nonneg (-x) (neg_nonneg.mpr hx)
  rw [toFloat_neg] at this
  linarith

/-- A positive rational rounds to at least the power of two below it. -/
theorem pow2_le_toFloat (x : ℚ) (hx : 0 < x) : F32.pow2 (F32.exponent x) ≤ F32.toFloat x := by
  rw [toFloat_of_pos x hx, ← ulp_mul]
  apply mul_le_mul_of_nonneg_right _ (le_of_lt (ulp_pos x))
  have h : ((2 ^ 23 : Int) : ℚ) ≤ x / F32.ulp x := by
    push_cast; exact (scaled_range x hx).1
  have := le_roundNearestEven _ _ h
  exact_mod_cast this

/-- The multiple `M * 2 ^ k` is an integer multiple of the spacing of every `x` with
`k >= exponent x - 23`. -/
theorem multiple_of_ulp (x : ℚ) (M : Nat) (k : Int) (hk : F32.exponent x - 23 ≤ k) :
    ∃ N : Int, (M : ℚ) * F32.pow2 k = (N : ℚ) * F32.ulp x := by
  obtain ⟨n, hn⟩ := Int.eq_ofNat_of_zero_le (sub_nonneg.mpr hk)
  refine ⟨(M : Int) * 2 ^ n, ?_⟩
  have hk2 : k = (n : Int) + (F32.exponent x - 23) := by omega
  unfold F32.ulp
  rw [hk2, pow2_add, pow2_natCast]
  push_cast
  ring

/-- A value with fewer than 24 significant bits lies below the binade of every `x` with
`k < exponent x - 23`. -/
theorem small_multiple_lt (x : ℚ) (M : Nat) (k : Int) (hM : M < 2 ^ 24)
    (hk : k < F32.exponent x - 23) : (M : ℚ) * F32.pow2 k < F32.pow2 (F32.exponent x) := by
  have h1 : (M : ℚ) < (2 : ℚ) ^ 24 := by exact_mod_cast hM
  have h2 : (2 : ℚ) ^ 24 * F32.pow2 k = F32.pow2 (24 + k) := by
    rw [pow2_add]; congr 1
  calc (M : ℚ) * F32.pow2 k < (2 : ℚ) ^ 24 * F32.pow2 k :=
        mul_lt_mul_of_pos_right h1 (pow2_pos k)
    _ = F32.pow2 (24 + k) := h2
    _ ≤ F32.pow2 (F32.exponent x) := pow2_le (by omega)

/-- Rounding does not cross a `float` value from below: if `x <= M * 2 ^ k` with
`M < 2 ^ 24` then the rounded `x` is at most `M * 2 ^ k`. -/
theorem toFloat_le_anchor (x : ℚ) (hx : 0 < x) (M : Nat) (k : Int) (hM : M < 2 ^ 24)
    (h : x ≤ (M : ℚ) * F32.pow2 k) : F32.toFloat x ≤ (M : ℚ) * F32.pow2 k := by
  by_cases hk : F32.exponent x - 23 ≤ k
  · obtain ⟨N, hN⟩ := multiple_of_ulp x M k hk
    rw [hN] at h ⊢
    rw [toFloat_of_pos x hx]
    apply mul_le_mul_of_nonneg_right _ (le_of_lt (ulp_pos x))
    have : x / F32.ulp x ≤ (N : ℚ) := by
      rw [div_le_iff₀ (ulp_pos x)]; exact h
    have := roundNearestEven_le _ N this
    exact_mod_cast this
  · have h1 := small_multiple_lt x M k hM (not_le.mp hk)
    have h2 := (exponent_spec x (ne_of_gt hx)).1
    rw [abs_of_pos hx] at h2
    linarith

/-- Rounding does not cross a `float` value from above. -/
theorem anchor_le_toFloat (x : ℚ) (hx : 0 < x) (M : Nat) (k : Int) (hM : M < 2 ^ 24)
    (h : (M : ℚ) * F32.pow2 k ≤ x) : (M : ℚ) * F32.pow2 k ≤ F32.toFloat x := by
  by_cases hk : F32.exponent x - 23 ≤ k
  · obtain ⟨N, hN⟩ := multiple_of_ulp x M k hk
    rw [hN] at h ⊢
    rw [toFloat_of_pos x hx]
    apply mul_le_mul_of_nonneg_right _ (le_of_lt (ulp_pos x))
    have : (N : ℚ) ≤ x / F32.ulp x := by
      rw [le_div_iff₀ (ulp_pos x)]; exact h
    have := le_roundNearestEven _ N this
    exact_mod_cast this
  · have h1 := small_multiple_lt x M k hM (not_le.mp hk)
    have h2 := pow2_le_toFloat x hx
    linarith

/-- The rounding error is at most half the spacing. -/
theorem toFloat_error (x : ℚ) (hx : 0 < x) : |F32.toFloat x - x| ≤ F32.ulp x / 2 := by
  have hu := ulp_pos x
  have h := roundNearestEven_error (x / F32.ulp x)
  rw [toFloat_of_pos x hx]
  have e : (F32.roundNearestEven (x / F32.ulp x) : ℚ) * F32.ulp x - x =
      ((F32.roundNearestEven (x / F32.ulp x) : ℚ) - x / F32.ulp x) * F32.ulp x := by
    field_simp
  rw [e, abs_mul, abs_of_pos hu]
  calc |(F32.roundNearestEven (x / F32.ulp x) : ℚ) - x / F32.ulp x| * F32.ulp x
      ≤ 1 / 2 * F32.ulp x := mul_le_mul_of_nonneg_right h (le_of_lt hu)
    _ = F32.ulp x / 2 := by ring

/-- A normalised significand times a power of two is a `float`. -/
theorem toFloat_normal (m : Int) (k : Int) (h1 : 2 ^ 23 ≤ m) (h2 : m < 2 ^ 24) :
    F32.exponent ((m : ℚ) * F32.pow2 k) = k + 23 ∧
    F32.toFloat ((m : ℚ) * F32.pow2 k) = (m : ℚ) * F32.pow2 k := by
  have hp := pow2_pos k
  have h1q : (2 : ℚ) ^ 23 ≤ (m : ℚ) := by exact_mod_cast h1
  have h2q : (m : ℚ) < (2 : ℚ) ^ 24 := by exact_mod_cast h2
  have hm : (0 : ℚ) < (m : ℚ) := lt_of_lt_of_le (by norm_num) h1q
  have hy : 0 < (m : ℚ) * F32.pow2 k := mul_pos hm hp
  have e1 : F32.pow2 (k + 23) = (2 : ℚ) ^ 23 * F32.pow2 k := by
    rw [pow2_add, mul_comm]; congr 1
  have e2 : F32.pow2 (k + 23 + 1) = (2 : ℚ) ^ 24 * F32.pow2 k := by
    rw [pow2_succ, e1]; ring
  have he : F32.exponent ((m : ℚ) * F32.pow2 k) = k + 23 := by
    apply exponent_unique _ (ne_of_gt hy)
    · rw [abs_of_pos hy, e1]; exact mul_le_mul_of_nonneg_right h1q (le_of_lt hp)
    · rw [abs_of_pos hy, e2]; exact mul_lt_mul_of_pos_right h2q hp
  refine ⟨he, ?_⟩
  have hu : F32.ulp ((m : ℚ) * F32.pow2 k) = F32.pow2 k := by
    unfold F32.ulp; rw [he]; congr 1; ring
  rw [toFloat_of_pos _ hy, hu, mul_div_assoc, div_self (ne_of_gt hp), mul_one,
    roundNearestEven_intCast]

/-- The rounded significand of a positive rational. -/
theorem significand_range (x : ℚ) (hx : 0 < x) :
    2 ^ 23 ≤ F32.roundNearestEven (x / F32.ulp x) ∧
    F32.roundNearestEven (x / F32.ulp x) ≤ 2 ^ 24 := by
  obtain ⟨s1, s2⟩ := scaled_range x hx
  constructor
  · exact le_roundNearestEven _ _ (by push_cast; exact s1)
  · exact roundNearestEven_le _ _ (by push_cast; exact le_of_lt s2)

/-- Rounding is idempotent: a rounded value is a `float`. -/
theorem isFloat_toFloat (x : ℚ) : F32.IsFloat (F32.toFloat x) := by
  have pos : ∀ y : ℚ, 0 < y → F32.toFloat (F32.toFloat y) = F32.toFloat y := by
    intro y hy
    obtain ⟨m1, m2⟩ := significand_range y hy
    rw [toFloat_of_pos y hy]
    unfold F32.ulp at m1 m2 ⊢
    rcases lt_or_eq_of_le m2 with h | h
    · exact (toFloat_normal _ _ m1 h).2
    · rw [h]
      have e : (((2 : Int) ^ 24 : Int) : ℚ) * F32.pow2 (F32.exponent y - 23) =
          (((2 : Int) ^ 23 : Int) : ℚ) * F32.pow2 (F32.exponent y - 23 + 1) := by
        rw [pow2_succ]; push_cast; ring
      rw [e]
      exact (toFloat_normal _ _ (le_refl _) (by norm_num)).2
  show F32.toFloat (F32.toFloat x) = F32.toFloat x
  rcases lt_trichotomy x 0 with h | h | h
  · rw [toFloat_of_neg x h, toFloat_neg, pos _ (neg_pos.mpr h)]
  · subst h; rw [toFloat_zero, toFloat_zero]
  · exact pos x h

/-- A positive `float` has a normalised significand. -/
theorem isFloat_normal (x : ℚ) (hx : 0 < x) (h : F32.IsFloat x) :
    ∃ (m k : Int), 2 ^ 23 ≤ m ∧ m < 2 ^ 24 ∧ x = (m : ℚ) * F32.pow2 k := by
  have hu := ulp_pos x
  have h' : F32.toFloat x = x := h
  rw [toFloat_of_pos x hx] at h'
  have hm : (F32.roundNearestEven (x / F32.ulp x) : ℚ) = x / F32.ulp x := by
    rw [eq_div_iff (ne_of_gt hu)]; exact h'
  obtain ⟨s1, s2⟩ := scaled_range x hx
  rw [← hm] at s1 s2
  refine ⟨F32.roundNearestEven (x / F32.ulp x), F32.exponent x - 23, ?_, ?_, h'.symm⟩
  · exact_mod_cast s1
  · exact_mod_cast s2

/-- Two distinct `float` values differ by a relative gap of at least `2 ^ -24`. -/
theorem float_gap (a b : ℚ) (ha : F32.IsFloat a) (hb : F32.IsFloat b) (h0 : 0 ≤ a)
    (hab : a < b) : a ≤ b * (1 - 1 / 2 ^ 24) := by
  have hbpos : 0 < b := lt_of_le_of_lt h0 hab
  rcases eq_or_lt_of_le h0 with h | hapos
  · rw [← h]; apply mul_nonneg (le_of_lt hbpos); norm_num
  obtain ⟨m, j, m1, m2, rfl⟩ := isFloat_normal a hapos ha
  obtain ⟨n, k, n1, n2, rfl⟩ := isFloat_normal b hbpos hb
  have m1q : (2 : ℚ) ^ 23 ≤ (m : ℚ) := by exact_mod_cast m1
  have m2q : (m : ℚ) ≤ (2 : ℚ) ^ 24 - 1 := by
    have : m ≤ 2 ^ 24 - 1 := by omega
    exact_mod_cast this
  have n1q : (2 : ℚ) ^ 23 ≤ (n : ℚ) := by exact_mod_cast n1
  have n2q : (n : ℚ) ≤ (2 : ℚ) ^ 24 - 1 := by
    have : n ≤ 2 ^ 24 - 1 := by omega
    exact_mod_cast this
  have hj := pow2_pos j
  have hk := pow2_pos k
  rcases lt_trichotomy j k with hjk | hjk | hjk
  · have hle : F32.pow2 j ≤ F32.pow2 (k - 1) := pow2_le (by omega)
    have hk1 : F32.pow2 k = 2 * F32.pow2 (k - 1) := by
      rw [← pow2_succ]; congr 1; ring
    have hk1pos := pow2_pos (k - 1)
    rw [hk1]
    calc (m : ℚ) * F32.pow2 j ≤ ((2 : ℚ) ^ 24 - 1) * F32.pow2 (k - 1) :=
          mul_le_mul m2q hle (le_of_lt hj) (by norm_num)
      _ = (2 : ℚ) ^ 23 * (2 * F32.pow2 (k - 1)) * (1 - 1 / 2 ^ 24) := by ring
      _ ≤ (n : ℚ) * (2 * F32.pow2 (k - 1)) * (1 - 1 / 2 ^ 24) := by
          apply mul_le_mul_of_nonneg_right _ (by norm_num)
          exact mul_le_mul_of_nonneg_right n1q (by linarith)
  · subst hjk
    have hmn : (m : ℚ) < (n : ℚ) := lt_of_mul_lt_mul_right hab (le_of_lt hj)
    have hmn1 : m + 1 ≤ n := by
      have : m < n := by exact_mod_cast hmn
      omega
    have hmn1q : (m : ℚ) + 1 ≤ (n : ℚ) := by exact_mod_cast hmn1
    have : (m : ℚ) ≤ (n : ℚ) * (1 - 1 / 2 ^ 24) := by
      have : (n : ℚ) * (1 / 2 ^ 24) ≤ 1 := by
        calc (n : ℚ) * (1 / 2 ^ 24) ≤ ((2 : ℚ) ^ 24 - 1) * (1 / 2 ^ 24) :=
              mul_le_mul_of_nonneg_right n2q (by norm_num)
          _ ≤ 1 := by norm_num
      linarith
    calc (m : ℚ) * F32.pow2 j ≤ (n : ℚ) * (1 - 1 / 2 ^ 24) * F32.pow2 j :=
          mul_le_mul_of_nonneg_right this (le_of_lt hj)
      _ = (n : ℚ) * F32.pow2 j * (1 - 1 / 2 ^ 24) := by ring
  · exfalso
    have hle : F32.pow2 (k + 1) ≤ F32.pow2 j := pow2_le (by omega)
    rw [pow2_succ] at hle
    have h1 : (n : ℚ) * F32.pow2 k < (2 : ℚ) ^ 24 * F32.pow2 k :=
      mul_lt_mul_of_pos_right (by linarith) hk
    have h2 : (2 : ℚ) ^ 23 * (2 * F32.pow2 k) ≤ (m : ℚ) * F32.pow2 j :=
      mul_le_mul m1q hle (by linarith) (by linarith)
    have h3 : (2 : ℚ) ^ 23 * (2 * F32.pow2 k) = (2 : ℚ) ^ 24 * F32.pow2 k := by ring
    linarith

/-- A `float` below 1 is at most `1 - 2 ^ -24`. -/
theorem float_lt_one (a : ℚ) (ha : F32.IsFloat a) (h0 : 0 ≤ a) (h1 : a < 1) :
    a ≤ 16777215 / 16777216 := by
  have := float_gap a 1 ha (by decide!) h0 h1
  norm_num at this ⊢
  exact this

/-- The rounded integer is a nearest integer. -/
theorem roundNearestEven_nearest (t : ℚ) (N : Int) :
    |(F32.roundNearestEven t : ℚ) - t| ≤ |(N : ℚ) - t| := by
  by_contra h
  have h1 := lt_of_not_le h
  have h2 := roundNearestEven_error t
  have h3 : |(N : ℚ) - (F32.roundNearestEven t : ℚ)| < 1 := by
    have e : (N : ℚ) - (F32.roundNearestEven t : ℚ) =
        ((N : ℚ) - t) + -((F32.roundNearestEven t : ℚ) - t) := by ring
    rw [e]
    calc |((N : ℚ) - t) + -((F32.roundNearestEven t : ℚ) - t)|
        ≤ |(N : ℚ) - t| + |-((F32.roundNearestEven t : ℚ) - t)| := abs_add _ _
      _ = |(N : ℚ) - t| + |(F32.roundNearestEven t : ℚ) - t| := by rw [abs_neg]
      _ < 1 := by linarith
  have h4 : |N - F32.roundNearestEven t| < 1 := by
    have : ((|N - F32.roundNearestEven t| : Int) : ℚ) < ((1 : Int) : ℚ) := by
      push_cast; exact h3
    exact_mod_cast this
  have h5 : N = F32.roundNearestEven t := by
    have := abs_lt.mp h4
    omega
  rw [h5] at h1
  exact lt_irrefl _ h1

/-- Rounding yields a nearest `float`: no `float` is closer to `x` than `toFloat x`. -/
theorem toFloat_nearest (x y : ℚ) (hy : F32.IsFloat y) : |F32.toFloat x - x| ≤ |y - x| := by
  have pos : ∀ x y : ℚ, 0 < x → F32.IsFloat y → |F32.toFloat x - x| ≤ |y - x| := by
    intro x y hx hy
    have hu := ulp_pos x
    have hA : ∀ N : Int, |F32.toFloat x - x| ≤ |(N : ℚ) * F32.ulp x - x| := by
      intro N
      have h := roundNearestEven_nearest (x / F32.ulp x) N
      rw [toFloat_of_pos x hx]
      have e1 : (F32.roundNearestEven (x / F32.ulp x) : ℚ) * F32.ulp x - x =
          ((F32.roundNearestEven (x / F32.ulp x) : ℚ) - x / F32.ulp x) * F32.ulp x := by
        field_simp
      have e2 : (N : ℚ) * F32.ulp x - x = ((N : ℚ) - x / F32.ulp x) * F32.ulp x := by
        field_simp
      rw [e1, e2, abs_mul, abs_mul, abs_of_pos hu]
      exact mul_le_mul_of_nonneg_right h (le_of_lt hu)
    obtain ⟨s1, s2⟩ := exponent_spec x (ne_of_gt hx)
    rw [abs_of_pos hx] at s1 s2
    have hm := ulp_mul x
    rcases le_or_lt y (F32.pow2 (F32.exponent x)) with hle | hgt
    · have h := hA (2 ^ 23)
      have e : (((2 : Int) ^ 23 : Int) : ℚ) * F32.ulp x = F32.pow2 (F32.exponent x) := by
        push_cast; exact hm
      rw [e] at h
      rw [abs_of_nonpos (by linarith : F32.pow2 (F32.exponent x) - x ≤ 0)] at h
      rw [abs_of_nonpos (by linarith : y - x ≤ 0)]
      linarith
    · rcases le_or_lt (F32.pow2 (F32.exponent x + 1)) y with hge | hlt
      · have h := hA (2 ^ 24)
        have e : (((2 : Int) ^ 24 : Int) : ℚ) * F32.ulp x = F32.pow2 (F32.exponent x + 1) := by
          push_cast; rw [pow2_succ, ← hm]; ring
        rw [e] at h
        rw [abs_of_nonneg (by linarith : 0 ≤ F32.pow2 (F32.exponent x + 1) - x)] at h
        rw [abs_of_nonneg (by linarith : 0 ≤ y - x)]
        linarith
      · have hy0 : 0 < y := lt_trans (pow2_pos _) hgt
        obtain ⟨m, k, m1, m2, rfl⟩ := isFloat_normal y hy0 hy
        have he := (toFloat_normal m k m1 m2).1
        have he' := exponent_unique _ (ne_of_gt hy0) (F32.exponent x)
          (by rw [abs_of_pos hy0]; exact le_of_lt hgt) (by rw [abs_of_pos hy0]; exact hlt)
        have hk : k = F32.exponent x - 23 := by omega
        have := hA m
        unfold F32.ulp at this
        rw [← hk] at this
        exact this
  rcases lt_trichotomy x 0 with h | h | h
  · have hny : F32.IsFloat (-y) := by
      show F32.toFloat (-y) = -y
      rw [toFloat_neg]; exact congrArg Neg.neg hy
    have := pos (-x) (-y) (neg_pos.mpr h) hny
    rw [toFloat_neg] at this
    have e1 : -F32.toFloat x - -x = -(F32.toFloat x - x) := by ring
    have e2 : -y - -x = -(y - x) := by ring
    rw [e1, e2, abs_neg, abs_neg] at this
    exact this
  · subst h
    rw [toFloat_zero, sub_zero, abs_zero]
    exact abs_nonneg _
  · exact pos x y h hy

/-- The positive `float` values are the products of a 24-bit normalised significand and a
power of two. -/
theorem isFloat_iff_of_pos (x : ℚ) (hx : 0 < x) :
    F32.IsFloat x ↔ ∃ (m k : Int), 2 ^ 23 ≤ m ∧ m < 2 ^ 24 ∧ x = (m : ℚ) * F32.pow2 k := by
  constructor
  · exact isFloat_normal x hx
  · rintro ⟨m, k, m1, m2, rfl⟩
    exact (toFloat_normal m k m1 m2).2

/-! ## The engine in single precision -/

theorem float_Reflect_zero (val min max : ℚ) :
    F32.Reflect 0 val min max = if val < min ∨ val > max then none else some val := rfl

theorem float_Reflect_succ (fuel : Nat) (val min max : ℚ) :
    F32.Reflect (fuel + 1) val min max =
      if val < min ∨ val > max then F32.Reflect fuel (F32.reflectBody val min max) min max
      else some val := rfl

theorem float_Reflect_inside (fuel : Nat) (val min max : ℚ) (h1 : min ≤ val) (h2 : val ≤ max) :
    F32.Reflect fuel val min max = some val := by
  cases fuel <;> simp [float_Reflect_zero, float_Reflect_succ, not_lt.mpr h1, not_lt.mpr h2]

/-- The loop gives the same result with a larger iteration bound. -/
theorem float_Reflect_mono (fuel : Nat) : ∀ (k : Nat) (val min max r : ℚ),
    F32.Reflect fuel val min max = some r → F32.Reflect (fuel + k) val min max = some r := by
  induction fuel with
  | zero =>
    intro k val min max r h
    rw [float_Reflect_zero] at h
    split at h
    · exact absurd h (by simp)
    · rename_i hc
      rw [not_or, not_lt, not_lt] at hc
      rw [float_Reflect_inside _ _ _ _ hc.1 hc.2]; exact h
  | succ n ih =>
    intro k val min max r h
    rw [float_Reflect_succ] at h
    rw [show n + 1 + k = (n + k) + 1 by omega, float_Reflect_succ]
    split
    · rename_i hc; rw [if_pos hc] at h; exact ih k _ _ _ _ h
    · rename_i hc; rw [if_neg hc] at h; exact h

theorem float_Reflect_mono_le {f g : Nat} (hfg : f ≤ g) {val min max r : ℚ}
    (h : F32.Reflect f val min max = some r) : F32.Reflect g val min max = some r := by
  obtain ⟨k, rfl⟩ := Nat.exists_eq_add_of_le hfg
  exact float_Reflect_mono f k val min max r h

/-- A result of the loop lies between the bounds. -/
theorem float_Reflect_range (fuel : Nat) : ∀ (val min max r : ℚ),
    F32.Reflect fuel val min max = some r → min ≤ r ∧ r ≤ max := by
  induction fuel with
  | zero =>
    intro val min max r h
    rw [float_Reflect_zero] at h
    split at h
    · exact absurd h (by simp)
    · rename_i hc
      rw [not_or, not_lt, not_lt] at hc
      cases h; exact hc
  | succ n ih =>
    intro val min max r h
    rw [float_Reflect_succ] at h
    split at h
    · exact ih _ _ _ _ h
    · rename_i hc
      rw [not_or, not_lt, not_lt] at hc
      cases h; exact hc

/-- A value outside the bounds that the loop body maps to itself: the loop never ends. -/
theorem float_Reflect_stall (w min max : ℚ) (hout : w < min ∨ w > max)
    (hfix : F32.reflectBody w min max = w) : ∀ fuel, F32.Reflect fuel w min max = none := by
  intro fuel
  induction fuel with
  | zero => rw [float_Reflect_zero, if_pos hout]
  | succ n ih => rw [float_Reflect_succ, if_pos hout, hfix, ih]

/-- A value outside the bounds that the loop body maps to a value on which the loop never
ends. -/
theorem float_Reflect_stall_next (v min max : ℚ) (hout : v < min ∨ v > max)
    (h : ∀ fuel, F32.Reflect fuel (F32.reflectBody v min max) min max = none) :
    ∀ fuel, F32.Reflect fuel v min max = none := by
  intro fuel
  cases fuel with
  | zero => rw [float_Reflect_zero, if_pos hout]
  | succ n => rw [float_Reflect_succ, if_pos hout, h]

theorem float_walk_some (fuel : Nat) (s : DSSEngine) (bp bp1 : Breakpoint) (rd ra : ℚ) :
    F32.UpdateWalks.walk fuel s bp rd ra = some bp1 ↔
      (s.walkMode_ = WalkMode.FIRST_ORDER ∧
        bp1 = { bp with
          durationPos := F32.toFloat (bp.durationPos + F32.toFloat (rd * s.durationStep_)),
          amplitudePos :=
            F32.toFloat (bp.amplitudePos + F32.toFloat (ra * s.amplitudeStep_)) }) ∨
      (s.walkMode_ ≠ WalkMode.FIRST_ORDER ∧ ∃ dv av,
        F32.Reflect fuel (F32.toFloat (bp.durationVel + F32.toFloat (rd * s.durationStep_)))
          (-F32.toFloat (s.durationBarrier_ * (1 / 2)))
          (F32.toFloat (s.durationBarrier_ * (1 / 2))) = some dv ∧
        F32.Reflect fuel (F32.toFloat (bp.amplitudeVel + F32.toFloat (ra * s.amplitudeStep_)))
          (-F32.toFloat (s.amplitudeBarrier_ * (1 / 2)))
          (F32.toFloat (s.amplitudeBarrier_ * (1 / 2))) = some av ∧
        bp1 = { bp with
          durationVel := dv, amplitudeVel := av,
          durationPos := F32.toFloat (bp.durationPos + dv),
          amplitudePos := F32.toFloat (bp.amplitudePos + av) }) := by
  unfold F32.UpdateWalks.walk
  by_cases hm : s.walkMode_ = WalkMode.FIRST_ORDER
  · simp only [hm, if_true, Option.some.injEq, ne_eq, not_true_eq_false, false_and, or_false,
      true_and]
    exact eq_comm
  · simp only [hm, if_false, Option.bind_eq_some, Option.some.injEq, ne_eq, not_false_eq_true,
      false_and, false_or, true_and]
    constructor
    · rintro ⟨dv, h1, av, h2, h3⟩; exact ⟨dv, av, h1, h2, h3.symm⟩
    · rintro ⟨dv, av, h1, h2, h3⟩; exact ⟨dv, h1, av, h2, h3.symm⟩

theorem float_body_some (fuel : Nat) (s : DSSEngine) (i : Nat) (s' : DSSEngine) :
    F32.UpdateWalks.body fuel s i = some s' ↔
      ∃ bp1 dp ap,
        F32.UpdateWalks.walk fuel s (getBp s.breakpoints_ i) (F32.RandomBipolar s.seed_).1
          (if s.walkMode_ = WalkMode.CORRELATED then F32.RandomBipolar s.seed_
            else F32.RandomBipolar (F32.RandomBipolar s.seed_).2).1 = some bp1 ∧
        F32.Reflect fuel bp1.durationPos (-s.durationBarrier_) s.durationBarrier_ = some dp ∧
        F32.Reflect fuel bp1.amplitudePos (-s.amplitudeBarrier_) s.amplitudeBarrier_ = some ap ∧
        s' = { s with
          breakpoints_ := setBp s.breakpoints_ i
            { bp1 with
              durationPos := dp, amplitudePos := ap,
              currentDuration :=
                (if F32.toFloat (1 + dp) < F32.toFloat (1 / 10) then F32.toFloat (1 / 10)
                  else F32.toFloat (1 + dp)),
              currentAmplitude := ap },
          seed_ := (if s.walkMode_ = WalkMode.CORRELATED then F32.RandomBipolar s.seed_
            else F32.RandomBipolar (F32.RandomBipolar s.seed_).2).2 } := by
  unfold F32.UpdateWalks.body
  simp only [Option.bind_eq_some, Option.some.injEq]
  constructor
  · rintro ⟨bp1, h1, dp, h2, ap, h3, h4⟩; exact ⟨bp1, dp, ap, h1, h2, h3, h4.symm⟩
  · rintro ⟨bp1, dp, ap, h1, h2, h3, h4⟩; exact ⟨bp1, h1, dp, h2, ap, h3, h4.symm⟩

theorem float_walk_mono {f g : Nat} (hfg : f ≤ g) {s : DSSEngine} {bp bp1 : Breakpoint}
    {rd ra : ℚ} (h : F32.UpdateWalks.walk f s bp rd ra = some bp1) :
    F32.UpdateWalks.walk g s bp rd ra = some bp1 := by
  rw [float_walk_some] at h ⊢
  rcases h with h | ⟨hm, dv, av, h1, h2, h3⟩
  · exact Or.inl h
  · exact Or.inr ⟨hm, dv, av, float_Reflect_mono_le hfg h1, float_Reflect_mono_le hfg h2, h3⟩

theorem float_body_mono {f g : Nat} (hfg : f ≤ g) {s s' : DSSEngine} {i : Nat}
    (h : F32.UpdateWalks.body f s i = some s') : F32.UpdateWalks.body g s i = some s' := by
  rw [float_body_some] at h ⊢
  obtain ⟨bp1, dp, ap, h1, h2, h3, h4⟩ := h
  exact ⟨bp1, dp, ap, float_walk_mono hfg h1, float_Reflect_mono_le hfg h2,
    float_Reflect_mono_le hfg h3, h4⟩

theorem float_loop_mono {f g : Nat} (hfg : f ≤ g) (l : List Nat) : ∀ {s s' : DSSEngine},
    l.foldlM (F32.UpdateWalks.body f) s = some s' →
    l.foldlM (F32.UpdateWalks.body g) s = some s' := by
  induction l with
  | nil => intro s s' h; simpa using h
  | cons a l ih =>
    intro s s' h
    rw [List.foldlM_cons] at h ⊢
    cases hb : F32.UpdateWalks.body f s a with
    | none => rw [hb] at h; simp at h
    | some s1 =>
      rw [hb] at h
      rw [float_body_mono hfg hb]
      exact ih h

theorem float_UpdateWalks_some (fuel : Nat) (s s' : DSSEngine) :
    F32.UpdateWalks fuel s = some s' ↔
      ∃ s1, (List.range s.breakpointCount_.toNat).foldlM (F32.UpdateWalks.body fuel) s
          = some s1 ∧
        s' = F32.NormalizeDurations { s1 with breakpoints_ :=
          (setBp s1.breakpoints_ 0
            { getBp s1.breakpoints_ 0 with currentAmplitude := 0, amplitudePos := 0 }) } := by
  unfold F32.UpdateWalks
  simp only [Option.bind_eq_some, Option.some.injEq]
  constructor
  · rintro ⟨s1, h1, h2⟩; exact ⟨s1, h1, h2.symm⟩
  · rintro ⟨s1, h1, h2⟩; exact ⟨s1, h1, h2.symm⟩

theorem float_UpdateWalks_mono {f g : Nat} (hfg : f ≤ g) {s s' : DSSEngine}
    (h : F32.UpdateWalks f s = some s') : F32.UpdateWalks g s = some s' := by
  rw [float_UpdateWalks_some] at h ⊢
  obtain ⟨s1, h1, h2⟩ := h
  exact ⟨s1, float_loop_mono hfg _ h1, h2⟩

/-- The method `NormalizeDurations` only writes the array. -/
theorem float_NormalizeDurations_frame (s : DSSEngine) :
    ∃ t, F32.NormalizeDurations s = { s with breakpoints_ := t } := by
  unfold F32.NormalizeDurations
  simp only []
  split
  · exact ⟨_, rfl⟩
  · exact ⟨s.breakpoints_, rfl⟩

theorem float_loop_frame (fuel : Nat) (l : List Nat) : ∀ {s s' : DSSEngine},
    l.foldlM (F32.UpdateWalks.body fuel) s = some s' →
    ∃ t sd, s' = { s with breakpoints_ := t, seed_ := sd } := by
  induction l with
  | nil =>
    intro s s' h
    have : s = s' := by simpa using h
    subst this
    exact ⟨s.breakpoints_, s.seed_, rfl⟩
  | cons a l ih =>
    intro s s' h
    rw [List.foldlM_cons] at h
    cases hb : F32.UpdateWalks.body fuel s a with
    | none => rw [hb] at h; simp at h
    | some s1 =>
      rw [hb] at h
      obtain ⟨bp1, dp, ap, -, -, -, h4⟩ := (float_body_some fuel s a s1).1 hb
      obtain ⟨t, sd, ht⟩ := ih h
      rw [ht, h4]
      exact ⟨t, sd, rfl⟩

/-- The method `UpdateWalks` only writes the array and the seed. -/
theorem float_UpdateWalks_frame {fuel : Nat} {s s' : DSSEngine}
    (h : F32.UpdateWalks fuel s = some s') :
    ∃ t sd, s' = { s with breakpoints_ := t, seed_ := sd } := by
  obtain ⟨s1, h1, h2⟩ := (float_UpdateWalks_some fuel s s').1 h
  obtain ⟨t, sd, ht⟩ := float_loop_frame fuel _ h1
  obtain ⟨u, hu⟩ := float_NormalizeDurations_frame { s1 with breakpoints_ :=
    (setBp s1.breakpoints_ 0
      { getBp s1.breakpoints_ 0 with currentAmplitude := 0, amplitudePos := 0 }) }
  rw [h2, hu, ht]
  exact ⟨u, sd, rfl⟩

theorem float_Process_eq (fuel : Nat) (s : DSSEngine) :
    F32.Process fuel s =
      if F32.toFloat (s.phase_ + s.phaseIncrement_) ≥ 1 then
        (F32.UpdateWalks fuel (F32.Process.advance s
          (F32.toFloat (F32.toFloat (s.phase_ + s.phaseIncrement_) - 1)))).map
          fun s2 => (F32.Process.output s, s2)
      else some (F32.Process.output s,
        F32.Process.advance s (F32.toFloat (s.phase_ + s.phaseIncrement_))) := rfl

theorem float_Process_mono {f g : Nat} (hfg : f ≤ g) {s : DSSEngine} {r : ℚ × DSSEngine}
    (h : F32.Process f s = some r) : F32.Process g s = some r := by
  rw [float_Process_eq] at h ⊢
  split
  · rename_i hc
    rw [if_pos hc, Option.map_eq_some'] at h
    obtain ⟨s2, h1, h2⟩ := h
    rw [float_UpdateWalks_mono hfg h1]
    exact congrArg some h2
  · rename_i hc
    rw [if_neg hc] at h
    exact h

theorem float_log_succ (fuel k : Nat) (s : DSSEngine) :
    F32.Process.log fuel (k + 1) s =
      (F32.Process fuel s).bind fun r =>
        (F32.Process.log fuel k r.2).map fun q =>
          ((r.2.phase_, decide (F32.walkState r.2 = F32.walkState s)) :: q.1, q.2) := rfl

theorem float_log_mono {f g : Nat} (hfg : f ≤ g) (k : Nat) : ∀ {s : DSSEngine}
    {r : List (ℚ × Bool) × DSSEngine},
    F32.Process.log f k s = some r → F32.Process.log g k s = some r := by
  induction k with
  | zero => intro s r h; exact h
  | succ k ih =>
    intro s r h
    rw [float_log_succ, Option.bind_eq_some] at h
    obtain ⟨p, hp, hq⟩ := h
    rw [Option.map_eq_some'] at hq
    obtain ⟨q, hq1, hq2⟩ := hq
    rw [float_log_succ, float_Process_mono hfg hp]
    simp only [Option.some_bind, ih hq1, Option.map_some']
    exact congrArg some hq2

/-- The phase after a `Process` call that returns. -/
theorem float_Process_phase {fuel : Nat} {s s' : DSSEngine} {out : ℚ}
    (h : F32.Process fuel s = some (out, s')) :
    s'.phase_ =
      (if F32.toFloat (s.phase_ + s.phaseIncrement_) ≥ 1 then
        F32.toFloat (F32.toFloat (s.phase_ + s.phaseIncrement_) - 1)
      else F32.toFloat (s.phase_ + s.phaseIncrement_)) ∧
    s'.sampleRate_ = s.sampleRate_ ∧ s'.frequency_ = s.frequency_ ∧
    s'.phaseIncrement_ = s.phaseIncrement_ := by
  rw [float_Process_eq] at h
  split at h
  · rename_i hc
    rw [Option.map_eq_some'] at h
    obtain ⟨s2, h1, h2⟩ := h
    cases h2
    obtain ⟨t, sd, ht⟩ := float_UpdateWalks_frame h1
    rw [ht, if_pos hc]
    exact ⟨rfl, rfl, rfl, rfl⟩
  · rename_i hc
    cases h
    rw [if_neg hc]
    exact ⟨rfl, rfl, rfl, rfl⟩

theorem float_Reset_body_eq (s : DSSEngine) (i : Nat) :
    F32.Reset.body s i =
      { s with breakpoints_ := setBp s.breakpoints_ i (F32.initialBreakpoint s.seed_),
               seed_ := FastRandom (FastRandom s.seed_) } := rfl

/-- Loop invariant of `Reset`: after `n` iterations the seed has advanced `2 * n` steps
and slot `j < n` holds the breakpoint drawn after `2 * j` steps. -/
theorem float_Reset_loop (s : DSSEngine) (n : Nat) :
    ∃ t, (List.range n).foldl F32.Reset.body s =
        { s with breakpoints_ := t, seed_ := FastRandom^[2 * n] s.seed_ } ∧
      ∀ j, getBp t j =
        if j < n ∧ j < 16 then F32.initialBreakpoint (FastRandom^[2 * j] s.seed_)
        else getBp s.breakpoints_ j := by
  induction n with
  | zero => exact ⟨s.breakpoints_, rfl, fun j => by simp⟩
  | succ n ih =>
    obtain ⟨t, ht, hget⟩ := ih
    refine ⟨setBp t n (F32.initialBreakpoint (FastRandom^[2 * n] s.seed_)), ?_, ?_⟩
    · rw [List.range_succ, List.foldl_append, ht]
      simp only [List.foldl_cons, List.foldl_nil, float_Reset_body_eq]
      have : FastRandom^[2 * (n + 1)] s.seed_ =
          FastRandom (FastRandom (FastRandom^[2 * n] s.seed_)) := by
        rw [show 2 * (n + 1) = (2 * n + 1) + 1 by ring, Function.iterate_succ_apply',
          Function.iterate_succ_apply']
      rw [this]
    · intro j
      rw [getBp_setBp, hget]
      by_cases hjn : n = j
      · subst hjn
        by_cases h16 : n < 16
        · simp [h16]
        · simp [h16]
      · have h1 : (j < n + 1) = (j < n) := by
          apply propext; constructor <;> intro hh <;> omega
        simp [hjn, h1]

/-- The method `Reset` overwrites the whole array: its result is a function of the
configuration members. -/
theorem float_Reset_eq (s : DSSEngine) :
    F32.Reset s =
      F32.SetFrequency s.frequency_ (F32.NormalizeDurations
        { s with
          breakpoints_ := pinFirst F32.resetTable,
          phase_ := 0,
          currentSegment_ := 0,
          segmentPhase_ := 0,
          seed_ := FastRandom^[32] 12345 }) := by
  obtain ⟨t, ht, hget⟩ := float_Reset_loop
    { s with phase_ := 0, currentSegment_ := 0, segmentPhase_ := 0, seed_ := 12345 } 16
  have htab : t = F32.resetTable := by
    apply table_ext
    intro i hi
    rw [hget i, if_pos ⟨hi, hi⟩]
    simp [F32.resetTable, getBp, hi]
  subst htab
  obtain ⟨u, hu⟩ := float_NormalizeDurations_frame
    { s with
      breakpoints_ := pinFirst F32.resetTable,
      phase_ := 0,
      currentSegment_ := 0,
      segmentPhase_ := 0,
      seed_ := FastRandom^[32] 12345 }
  unfold F32.Reset
  simp only [MAX_BREAKPOINTS, ht]
  rw [hu]
  have hu' : F32.NormalizeDurations
      { s with
        phase_ := 0, currentSegment_ := 0, segmentPhase_ := 0,
        seed_ := FastRandom^[2 * 16] 12345,
        breakpoints_ := setBp F32.resetTable 0
          { getBp F32.resetTable 0 with amplitudePos := 0, currentAmplitude := 0 } } =
      { s with
        breakpoints_ := u, phase_ := 0, currentSegment_ := 0, segmentPhase_ := 0,
        seed_ := FastRandom^[32] 12345 } := hu
  rw [hu']

/-- The members that `Reset` leaves: phase 0, and the increment recomputed from the
frequency and the sample rate. -/
theorem float_Reset_fields (s : DSSEngine) :
    (F32.Reset s).phase_ = 0 ∧ (F32.Reset s).sampleRate_ = s.sampleRate_ ∧
    (F32.Reset s).frequency_ = s.frequency_ ∧
    (F32.Reset s).phaseIncrement_ = F32.toFloat (s.frequency_ / s.sampleRate_) ∧
    (F32.Reset s).seed_ = FastRandom^[32] 12345 := by
  rw [float_Reset_eq]
  obtain ⟨u, hu⟩ := float_NormalizeDurations_frame
    { s with
      breakpoints_ := pinFirst F32.resetTable,
      phase_ := 0,
      currentSegment_ := 0,
      segmentPhase_ := 0,
      seed_ := FastRandom^[32] 12345 }
  rw [hu]
  exact ⟨rfl, rfl, rfl, rfl, rfl⟩

/-- The method `Init` on a freshly constructed engine does not depend on the content of
the uninitialised array. -/
theorem float_Init_mem (sampleRate : ℚ) (mem : Table) :
    F32.Init sampleRate (F32.construct mem) = F32.Init sampleRate (F32.construct zeroTable) := by
  unfold F32.Init
  rw [float_Reset_eq, float_Reset_eq]
  rfl

theorem float_SetBreakpointCount_frame (count : Int) (s : DSSEngine) :
    ∃ t c, F32.SetBreakpointCount count s = { s with breakpoints_ := t, breakpointCount_ := c } := by
  unfold F32.SetBreakpointCount
  simp only []
  obtain ⟨u, hu⟩ := float_NormalizeDurations_frame
    { s with breakpointCount_ :=
      (if (if count < 2 then 2 else count) > (MAX_BREAKPOINTS : Int) then (MAX_BREAKPOINTS : Int)
        else (if count < 2 then 2 else count)) }
  rw [hu]
  exact ⟨u, _, rfl⟩

theorem float_Sync_frame {fuel : Nat} {s s' : DSSEngine} (h : F32.Sync fuel s = some s') :
    s'.phase_ = 0 ∧ s'.sampleRate_ = s.sampleRate_ ∧ s'.frequency_ = s.frequency_ ∧
    s'.phaseIncrement_ = s.phaseIncrement_ := by
  have h' : F32.UpdateWalks fuel
      { s with phase_ := 0, currentSegment_ := 0, segmentPhase_ := 0 } = some s' := h
  obtain ⟨t, sd, ht⟩ := float_UpdateWalks_frame h'
  rw [ht]
  exact ⟨rfl, rfl, rfl, rfl⟩

/-! ## Bounds on rounded values -/

/-- Rounding does not cross a non-negative `float` value `M * 2 ^ k` from below, whatever
the sign of the argument. -/
theorem toFloat_le_of_le (x : ℚ) (M : Nat) (k : Int) (hM : M < 2 ^ 24)
    (h : x ≤ (M : ℚ) * F32.pow2 k) : F32.toFloat x ≤ (M : ℚ) * F32.pow2 k := by
  rcases le_or_lt x 0 with hx | hx
  · exact le_trans (toFloat_nonpos x hx)
      (mul_nonneg (Nat.cast_nonneg M) (le_of_lt (pow2_pos k)))
  · exact toFloat_le_anchor x hx M k hM h

/-- Rounding does not cross a non-positive `float` value `-(M * 2 ^ k)` from above. -/
theorem neg_le_toFloat_of_le (x : ℚ) (M : Nat) (k : Int) (hM : M < 2 ^ 24)
    (h : -((M : ℚ) * F32.pow2 k) ≤ x) : -((M : ℚ) * F32.pow2 k) ≤ F32.toFloat x := by
  have := toFloat_le_of_le (-x) M k hM (by linarith)
  rw [toFloat_neg] at this
  linarith

theorem toFloat_error_all (x : ℚ) : |F32.toFloat x - x| ≤ F32.ulp x / 2 := by
  rcases lt_trichotomy x 0 with h | h | h
  · have := toFloat_error (-x) (neg_pos.mpr h)
    rw [toFloat_neg, ulp_neg] at this
    rw [← abs_neg]
    have e : -(F32.toFloat x - x) = -F32.toFloat x - -x := by ring
    rw [e]; exact this
  · subst h
    rw [toFloat_zero, sub_zero, abs_zero]
    exact le_of_lt (half_pos (ulp_pos 0))
  · exact toFloat_error x h

/-- The spacing around a value below `2 ^ (e + 1)` is at most `2 ^ (e - 23)`. -/
theorem ulp_le (x : ℚ) (hx : x ≠ 0) (e : Int) (h : |x| < F32.pow2 (e + 1)) :
    F32.ulp x ≤ F32.pow2 (e - 23) := by
  have h1 := (exponent_spec x hx).1
  have : F32.exponent x < e + 1 := pow2_lt_iff.mp (lt_of_le_of_lt h1 h)
  unfold F32.ulp
  exact pow2_le (by omega)

/-- A `float` scaled by a power of two is a `float`. -/
theorem isFloat_mul_pow2 (x : ℚ) (k : Int) (h : F32.IsFloat x) :
    F32.IsFloat (x * F32.pow2 k) := by
  have pos : ∀ y : ℚ, 0 < y → F32.IsFloat y → F32.IsFloat (y * F32.pow2 k) := by
    intro y hy hf
    obtain ⟨m, j, m1, m2, rfl⟩ := isFloat_normal y hy hf
    show F32.toFloat _ = _
    rw [mul_assoc, ← pow2_add]
    exact (toFloat_normal m (j + k) m1 m2).2
  rcases lt_trichotomy x 0 with hx | hx | hx
  · have hn : F32.IsFloat (-x) := by
      show F32.toFloat (-x) = -x
      rw [toFloat_neg]; exact congrArg Neg.neg h
    have := pos (-x) (neg_pos.mpr hx) hn
    show F32.toFloat (x * F32.pow2 k) = x * F32.pow2 k
    have e : x * F32.pow2 k = -(-x * F32.pow2 k) := by ring
    rw [e, toFloat_neg]
    exact congrArg Neg.neg this
  · subst hx
    show F32.toFloat (0 * F32.pow2 k) = 0 * F32.pow2 k
    rw [zero_mul, toFloat_zero]
  · exact pos x hx h

theorem toFloat_le_pow2 (x : ℚ) (k : Int) (h : x ≤ F32.pow2 k) : F32.toFloat x ≤ F32.pow2 k := by
  have := toFloat_le_of_le x 1 k (by norm_num) (by rw [Nat.cast_one, one_mul]; exact h)
  rw [Nat.cast_one, one_mul] at this
  exact this

theorem neg_pow2_le_toFloat (x : ℚ) (k : Int) (h : -F32.pow2 k ≤ x) :
    -F32.pow2 k ≤ F32.toFloat x := by
  have := neg_le_toFloat_of_le x 1 k (by norm_num) (by rw [Nat.cast_one, one_mul]; exact h)
  rw [Nat.cast_one, one_mul] at this
  exact this

theorem pow2_values :
    F32.pow2 0 = 1 ∧ F32.pow2 1 = 2 ∧ F32.pow2 32 = 4294967296 ∧
    F32.pow2 (-31) = 1 / 2147483648 ∧ F32.pow2 8 = 256 ∧ F32.pow2 (-23) = 1 / 8388608 ∧
    F32.pow2 (-24) = 1 / 16777216 := by decide!

/-- The value that `RandomBipolar` returns lies in `[-1, 1]`, is a `float`, and is within
`2 ^ -23` of the exact `raw / 2 ^ 31 - 1`. -/
theorem float_RandomBipolar_range (seed : Nat) :
    F32.IsFloat (F32.RandomBipolar seed).1 ∧
    -1 ≤ (F32.RandomBipolar seed).1 ∧ (F32.RandomBipolar seed).1 ≤ 1 ∧
    |(F32.RandomBipolar seed).1 - ((FastRandom seed : ℚ) / 2147483648 - 1)| ≤ 1 / 8388608 := by
  obtain ⟨p0, p1, p32, pm31, p8, pm23, pm24⟩ := pow2_values
  have hr : (FastRandom seed : ℚ) < 4294967296 := by
    have := FastRandom_lt seed
    have h := (Nat.cast_lt (α := ℚ)).mpr this
    rw [Nat.cast_ofNat] at h
    exact h
  have hr0 : (0 : ℚ) ≤ (FastRandom seed : ℚ) := Nat.cast_nonneg _
  show F32.IsFloat (F32.toFloat (F32.toFloat (F32.toFloat (FastRandom seed : ℚ) / 2147483648) - 1))
    ∧ -1 ≤ F32.toFloat (F32.toFloat (F32.toFloat (FastRandom seed : ℚ) / 2147483648) - 1)
    ∧ F32.toFloat (F32.toFloat (F32.toFloat (FastRandom seed : ℚ) / 2147483648) - 1) ≤ 1
    ∧ |F32.toFloat (F32.toFloat (F32.toFloat (FastRandom seed : ℚ) / 2147483648) - 1) -
        ((FastRandom seed : ℚ) / 2147483648 - 1)| ≤ 1 / 8388608
  generalize (FastRandom seed : ℚ) = r at hr hr0
  -- the conversion of the raw value
  have a0 : 0 ≤ F32.toFloat r := toFloat_nonneg r hr0
  have a1 : F32.toFloat r ≤ 4294967296 := by
    have := toFloat_le_pow2 r 32 (by rw [p32]; linarith)
    rw [p32] at this; exact this
  have aerr : |F32.toFloat r - r| ≤ 128 := by
    rcases eq_or_lt_of_le hr0 with h | h
    · rw [← h, toFloat_zero]; norm_num
    · have h1 := toFloat_error_all r
      have h2 := ulp_le r (ne_of_gt h) 31 (by
        rw [abs_of_pos h, show (31 : Int) + 1 = 32 by norm_num, p32]; exact hr)
      rw [show (31 : Int) - 23 = 8 by norm_num, p8] at h2
      linarith
  -- the division by a power of two is exact
  have bex : F32.toFloat (F32.toFloat r / 2147483648) = F32.toFloat r / 2147483648 := by
    have := isFloat_mul_pow2 (F32.toFloat r) (-31) (isFloat_toFloat r)
    rw [pm31] at this
    have e : F32.toFloat r * (1 / 2147483648) = F32.toFloat r / 2147483648 := by ring
    rw [e] at this
    exact this
  rw [bex]
  have b0 : 0 ≤ F32.toFloat r / 2147483648 := div_nonneg a0 (by norm_num)
  have b1 : F32.toFloat r / 2147483648 ≤ 2 := by
    rw [div_le_iff₀ (by norm_num)]; linarith
  -- the subtraction
  have cerr : |F32.toFloat (F32.toFloat r / 2147483648 - 1) - (F32.toFloat r / 2147483648 - 1)|
      ≤ 1 / 16777216 := by
    by_cases hz : F32.toFloat r / 2147483648 - 1 = 0
    · rw [hz, toFloat_zero]; norm_num
    · have h1 := toFloat_error_all (F32.toFloat r / 2147483648 - 1)
      have h2 := ulp_le _ hz 0 (by
        rw [show (0 : Int) + 1 = 1 by norm_num, p1, abs_lt]
        constructor <;> linarith)
      rw [show (0 : Int) - 23 = -23 by norm_num, pm23] at h2
      linarith
  refine ⟨isFloat_toFloat _, ?_, ?_, ?_⟩
  · have := neg_pow2_le_toFloat (F32.toFloat r / 2147483648 - 1) 0 (by rw [p0]; linarith)
    rw [p0] at this; exact this
  · have := toFloat_le_pow2 (F32.toFloat r / 2147483648 - 1) 0 (by rw [p0]; linarith)
    rw [p0] at this; exact this
  · rw [abs_le] at aerr cerr ⊢
    have e : F32.toFloat (F32.toFloat r / 2147483648 - 1) - (r / 2147483648 - 1) =
        (F32.toFloat (F32.toFloat r / 2147483648 - 1) - (F32.toFloat r / 2147483648 - 1)) +
        (F32.toFloat r - r) / 2147483648 := by ring
    rw [e]
    have d1 : (F32.toFloat r - r) / 2147483648 ≤ 128 / 2147483648 :=
      div_le_div_of_nonneg_right aerr.2 (by norm_num)
    have d2 : -128 / 2147483648 ≤ (F32.toFloat r - r) / 2147483648 :=
      div_le_div_of_nonneg_right aerr.1 (by norm_num)
    constructor
    · have : (-128 : ℚ) / 2147483648 = -(1 / 16777216) := by norm_num
      have : -(1 / 8388608 : ℚ) = -(1 / 16777216) + -(1 / 16777216) := by norm_num
      linarith
    · have : (128 : ℚ) / 2147483648 = 1 / 16777216 := by norm_num
      have : (1 / 8388608 : ℚ) = 1 / 16777216 + 1 / 16777216 := by norm_num
      linarith

/-! ## The phase accumulator in single precision -/

/-- Under the frequency condition the stored increment is at most `1 - 2 ^ -24`. -/
theorem float_increment_bound (s : DSSEngine) (hf : F32.FrequencyCondition s) :
    0 ≤ s.phaseIncrement_ ∧ s.phaseIncrement_ ≤ 16777215 / 16777216 := by
  obtain ⟨f1, f2, f3, f4, f5, f6⟩ := hf
  have pm24 := pow2_values.2.2.2.2.2.2
  rw [f6]
  constructor
  · exact toFloat_nonneg _ (div_nonneg f4 (le_of_lt f3))
  · have hg := float_gap _ _ f2 f1 f4 f5
    have hq : s.frequency_ / s.sampleRate_ ≤ ((16777215 : Nat) : ℚ) * F32.pow2 (-24) := by
      rw [div_le_iff₀ f3, pm24]
      have e : ((16777215 : Nat) : ℚ) * (1 / 16777216) * s.sampleRate_ =
          s.sampleRate_ * (1 - 1 / 2 ^ 24) := by norm_num; ring
      rw [e]; exact hg
    have := toFloat_le_of_le _ 16777215 (-24) (by norm_num) hq
    rw [pm24] at this
    have e : ((16777215 : Nat) : ℚ) * (1 / 16777216) = 16777215 / 16777216 := by norm_num
    rw [e] at this
    exact this

/-- One step of the phase accumulator: from a `float` phase in `[0, 1)` and an increment in
`[0, 1 - 2 ^ -24]`, the sum wrapped once is again a `float` in `[0, 1)`. -/
theorem float_phase_step (p inc : ℚ) (hp : F32.IsFloat p) (h0 : 0 ≤ p) (h1 : p < 1)
    (i0 : 0 ≤ inc) (i1 : inc ≤ 16777215 / 16777216) :
    F32.IsFloat (if F32.toFloat (p + inc) ≥ 1 then F32.toFloat (F32.toFloat (p + inc) - 1)
      else F32.toFloat (p + inc)) ∧
    0 ≤ (if F32.toFloat (p + inc) ≥ 1 then F32.toFloat (F32.toFloat (p + inc) - 1)
      else F32.toFloat (p + inc)) ∧
    (if F32.toFloat (p + inc) ≥ 1 then F32.toFloat (F32.toFloat (p + inc) - 1)
      else F32.toFloat (p + inc)) < 1 := by
  have pm23 := pow2_values.2.2.2.2.2.1
  have hp1 := float_lt_one p hp h0 h1
  have q0 : 0 ≤ F32.toFloat (p + inc) := toFloat_nonneg _ (by linarith)
  have q1 : F32.toFloat (p + inc) ≤ 16777215 / 8388608 := by
    have hq : p + inc ≤ ((16777215 : Nat) : ℚ) * F32.pow2 (-23) := by
      rw [pm23]
      have e : ((16777215 : Nat) : ℚ) * (1 / 8388608) = 16777215 / 8388608 := by norm_num
      rw [e]; linarith
    have := toFloat_le_of_le _ 16777215 (-23) (by norm_num) hq
    rw [pm23] at this
    have e : ((16777215 : Nat) : ℚ) * (1 / 8388608) = 16777215 / 8388608 := by norm_num
    rw [e] at this
    exact this
  split
  · rename_i hc
    refine ⟨isFloat_toFloat _, toFloat_nonneg _ (by linarith), ?_⟩
    have hq : F32.toFloat (p + inc) - 1 ≤ ((8388607 : Nat) : ℚ) * F32.pow2 (-23) := by
      rw [pm23]
      have e : ((8388607 : Nat) : ℚ) * (1 / 8388608) = 8388607 / 8388608 := by norm_num
      rw [e]; linarith
    have := toFloat_le_of_le _ 8388607 (-23) (by norm_num) hq
    rw [pm23] at this
    have e : ((8388607 : Nat) : ℚ) * (1 / 8388608) = 8388607 / 8388608 := by norm_num
    rw [e] at this
    have : (8388607 : ℚ) / 8388608 < 1 := by norm_num
    linarith
  · rename_i hc
    exact ⟨isFloat_toFloat _, q0, not_le.mp hc⟩

/-- The frequency condition and the phase range are kept by a `Process` call that
returns. -/
theorem float_Process_invariant {fuel : Nat} {s s' : DSSEngine} {out : ℚ}
    (hf : F32.FrequencyCondition s) (hp : F32.IsFloat s.phase_) (h0 : 0 ≤ s.phase_)
    (h1 : s.phase_ < 1) (h : F32.Process fuel s = some (out, s')) :
    F32.FrequencyCondition s' ∧ F32.IsFloat s'.phase_ ∧ 0 ≤ s'.phase_ ∧ s'.phase_ < 1 := by
  obtain ⟨e1, e2, e3, e4⟩ := float_Process_phase h
  obtain ⟨i0, i1⟩ := float_increment_bound s hf
  have hs := float_phase_step s.phase_ s.phaseIncrement_ hp h0 h1 i0 i1
  rw [← e1] at hs
  refine ⟨?_, hs⟩
  unfold F32.FrequencyCondition
  rw [e2, e3, e4]
  exact hf

/-- Every state reachable under the frequency condition meets it and has a `float` phase
in `[0, 1)`. -/
theorem float_reachable_phase (s : DSSEngine) (h : F32.ReachableFreq s) :
    F32.FrequencyCondition s ∧ F32.IsFloat s.phase_ ∧ 0 ≤ s.phase_ ∧ s.phase_ < 1 := by
  have hz : F32.IsFloat 0 := toFloat_zero
  induction h with
  | init mem sampleRate hfl hsr =>
    have hinit : F32.Init sampleRate (F32.construct mem) =
        F32.Reset { F32.construct mem with sampleRate_ := sampleRate } := rfl
    obtain ⟨r1, r2, r3, r4, -⟩ :=
      float_Reset_fields { F32.construct mem with sampleRate_ := sampleRate }
    rw [hinit]
    refine ⟨?_, ?_, ?_, ?_⟩
    · unfold F32.FrequencyCondition
      rw [r2, r3, r4]
      refine ⟨hfl, ?_, ?_, ?_, hsr, rfl⟩
      · show F32.IsFloat 220; decide!
      · show (0 : ℚ) < sampleRate; linarith
      · show (0 : ℚ) ≤ 220; norm_num
    · rw [r1]; exact hz
    · rw [r1]
    · rw [r1]; norm_num
  | @reset x _ ih =>
    obtain ⟨r1, r2, r3, r4, -⟩ := float_Reset_fields x
    obtain ⟨⟨f1, f2, f3, f4, f5, f6⟩, -⟩ := ih
    refine ⟨?_, ?_, ?_, ?_⟩
    · unfold F32.FrequencyCondition
      rw [r2, r3, r4]
      exact ⟨f1, f2, f3, f4, f5, rfl⟩
    · rw [r1]; exact hz
    · rw [r1]
    · rw [r1]; norm_num
  | @sync x x' fuel _ hs ih =>
    obtain ⟨r1, r2, r3, r4⟩ := float_Sync_frame hs
    refine ⟨?_, ?_, ?_, ?_⟩
    · unfold F32.FrequencyCondition
      rw [r2, r3, r4]
      exact ih.1
    · rw [r1]; exact hz
    · rw [r1]
    · rw [r1]; norm_num
  | process fuel out _ hp ih => exact float_Process_invariant ih.1 ih.2.1 ih.2.2.1 ih.2.2.2 hp
  | @setFrequency x freq _ hfl h0 h1 ih =>
    exact ⟨⟨ih.1.1, hfl, ih.1.2.2.1, h0, h1, rfl⟩, ih.2⟩
  | setDurationStep _ _ ih => exact ih
  | setAmplitudeStep _ _ ih => exact ih
  | setDurationBarrier _ _ ih => exact ih
  | setAmplitudeBarrier _ _ ih => exact ih
  | @setBreakpointCount x count _ ih =>
    obtain ⟨t, c, ht⟩ := float_SetBreakpointCount_frame count x
    rw [ht]
    exact ih
  | setWalkMode _ _ ih => exact ih

/-- In second-order and correlated modes `UpdateWalks` never returns when the `Reflect`
loop on the first duration velocity never ends. -/
theorem float_UpdateWalks_stall (s : DSSEngine) (hm : s.walkMode_ ≠ WalkMode.FIRST_ORDER)
    (hc : 0 < s.breakpointCount_.toNat)
    (hv : ∀ fuel, F32.Reflect fuel
      (F32.toFloat ((getBp s.breakpoints_ 0).durationVel +
        F32.toFloat ((F32.RandomBipolar s.seed_).1 * s.durationStep_)))
      (-F32.toFloat (s.durationBarrier_ * (1 / 2)))
      (F32.toFloat (s.durationBarrier_ * (1 / 2))) = none) :
    ∀ fuel, F32.UpdateWalks fuel s = none := by
  intro fuel
  cases h : F32.UpdateWalks fuel s with
  | none => rfl
  | some s' =>
    exfalso
    obtain ⟨s1, h1, -⟩ := (float_UpdateWalks_some fuel s s').1 h
    obtain ⟨m, hm1⟩ := Nat.exists_eq_succ_of_ne_zero (Nat.pos_iff_ne_zero.mp hc)
    rw [hm1, List.range_succ_eq_map, List.foldlM_cons] at h1
    cases hb : F32.UpdateWalks.body fuel s 0 with
    | none => rw [hb] at h1; simp at h1
    | some s0 =>
      obtain ⟨bp1, dp, ap, hw, -⟩ := (float_body_some fuel s 0 s0).1 hb
      rw [float_walk_some] at hw
      rcases hw with ⟨hf, -⟩ | ⟨-, dv, av, hdv, -⟩
      · exact hm hf
      · rw [hv fuel] at hdv
        exact absurd hdv (by simp)

/-! ## The claims -/

/-- C2, continuity invariant.  In every state reachable from `Init` by `Reset`, `Sync`,
`Process` and setter calls, breakpoint 0 has `currentAmplitude = 0` and
`amplitudePos = 0`. -/
theorem continuity_pin (s : DSSEngine) (h : Reachable s) :
    (getBp s.breakpoints_ 0).currentAmplitude = 0 ∧ (getBp s.breakpoints_ 0).amplitudePos = 0 := by
  have hreset : ∀ x : DSSEngine, (getBp (Reset x).breakpoints_ 0).currentAmplitude = 0 ∧
      (getBp (Reset x).breakpoints_ 0).amplitudePos = 0 := by
    intro x
    rw [Reset_eq]
    obtain ⟨d, hd⟩ := getBp_normalizeTable x.breakpointCount_.toNat (pinFirst resetTable) 0
    simp only [hd, getBp_pinFirst]
    simp
  have hwalk : ∀ (fuel : Nat) (x x' : DSSEngine), UpdateWalks fuel x = some x' →
      (getBp x'.breakpoints_ 0).currentAmplitude = 0 ∧
      (getBp x'.breakpoints_ 0).amplitudePos = 0 := by
    intro fuel x x' hx
    obtain ⟨t, sd, hs', h1, h2, -⟩ := UpdateWalks_spec hx
    subst hs'
    exact ⟨h1, h2⟩
  induction h with
  | init mem sampleRate => exact hreset _
  | reset _ _ => exact hreset _
  | sync fuel _ hs _ => exact hwalk fuel _ _ hs
  | process fuel out _ hp ih =>
    rcases Process_spec hp with ⟨-, hs'⟩ | ⟨-, hs'⟩
    · rw [hs']; exact ih
    · exact hwalk fuel _ _ hs'
  | setFrequency _ _ ih => exact ih
  | setDurationStep _ _ ih => exact ih
  | setAmplitudeStep _ _ ih => exact ih
  | setDurationBarrier _ _ ih => exact ih
  | setAmplitudeBarrier _ _ ih => exact ih
  | @setBreakpointCount x count _ ih =>
    unfold SetBreakpointCount
    simp only [NormalizeDurations_table]
    obtain ⟨d, hd⟩ := getBp_normalizeTable
      (if (if count < 2 then 2 else count) > (MAX_BREAKPOINTS : Int) then (MAX_BREAKPOINTS : Int)
        else (if count < 2 then 2 else count)).toNat x.breakpoints_ 0
    rw [hd]
    exact ih
  | setWalkMode _ _ ih => exact ih

theorem continuity_pin_witness :
    Reachable (SetBreakpointCount 3 (Init 48000 (construct zeroTable))) ∧
    (getBp (SetBreakpointCount 3 (Init 48000 (construct zeroTable))).breakpoints_ 0).currentAmplitude
      = 0 ∧
    (getBp (SetBreakpointCount 3 (Init 48000 (construct zeroTable))).breakpoints_ 0).amplitudePos
      = 0 :=
  ⟨Reachable.setBreakpointCount 3 (Reachable.init zeroTable 48000),
    continuity_pin _ (Reachable.setBreakpointCount 3 (Reachable.init zeroTable 48000))⟩

/-- C3 as stated fails: lowering the duration barrier right after `Init` leaves
breakpoint 0 with a duration position outside the new barrier. -/
theorem barrier_containment_counterexample :
    Reachable (SetDurationBarrier (1 / 10) (Init 48000 (construct zeroTable))) ∧
    ¬ BarrierContained (SetDurationBarrier (1 / 10) (Init 48000 (construct zeroTable))) := by
  have h0 : ((0 : Nat) : Int) <
      (SetDurationBarrier (1 / 10) (Init 48000 (construct zeroTable))).breakpointCount_ := by
    decide!
  have hout : ¬ (-(SetDurationBarrier (1 / 10) (Init 48000 (construct zeroTable))).durationBarrier_
      ≤ (getBp (SetDurationBarrier (1 / 10) (Init 48000 (construct zeroTable))).breakpoints_
          0).durationPos) := by
    decide!
  exact ⟨Reachable.setDurationBarrier (1 / 10) (Reachable.init zeroTable 48000),
    fun h => hout (h 0 h0).1⟩

/-- C3, amended.  In every state reachable from `Init` by `Reset`, `Sync`, `Process` and
setter calls in which no barrier setter lowers the stored barrier, every active
breakpoint has its duration and amplitude positions inside the stored barriers. -/
theorem barrier_containment_widening (s : DSSEngine) (h : ReachableWidening s) :
    BarrierContained s := by
  have hinv : WideningInv s := by
    induction h with
    | init mem sampleRate =>
      exact WideningInv_Reset _ (by norm_num [construct]) (by norm_num [construct])
        (by norm_num [construct]) (by norm_num [construct])
    | reset _ ih => exact WideningInv_Reset _ ih.1 ih.2.1 ih.2.2.1 ih.2.2.2.1
    | @sync x x' fuel _ hs ih =>
      exact WideningInv_UpdateWalks
        (s := { x with phase_ := 0, currentSegment_ := 0, segmentPhase_ := 0 }) ih hs
    | @process x x' fuel out _ hp ih =>
      rcases Process_spec hp with ⟨-, hs'⟩ | ⟨-, hs'⟩
      · rw [hs']; exact ih
      · exact WideningInv_UpdateWalks
          (s := Process.advance x (x.phase_ + x.phaseIncrement_ - 1)) ih hs'
    | setFrequency _ _ ih => exact ih
    | setDurationStep _ _ ih => exact ih
    | setAmplitudeStep _ _ ih => exact ih
    | @setDurationBarrier x barrier _ hle ih =>
      obtain ⟨h2, h16, hd, ha, hpos⟩ := ih
      refine ⟨h2, h16, le_trans hd hle, ha, fun j hj => ?_⟩
      have := hpos j hj
      show -barrier ≤ (getBp x.breakpoints_ j).durationPos ∧
        (getBp x.breakpoints_ j).durationPos ≤ barrier ∧
        -x.amplitudeBarrier_ ≤ (getBp x.breakpoints_ j).amplitudePos ∧
        (getBp x.breakpoints_ j).amplitudePos ≤ x.amplitudeBarrier_
      exact ⟨by linarith [this.1], by linarith [this.2.1], this.2.2.1, this.2.2.2⟩
    | @setAmplitudeBarrier x barrier _ hle ih =>
      obtain ⟨h2, h16, hd, ha, hpos⟩ := ih
      refine ⟨h2, h16, hd, le_trans ha hle, fun j hj => ?_⟩
      have := hpos j hj
      show -x.durationBarrier_ ≤ (getBp x.breakpoints_ j).durationPos ∧
        (getBp x.breakpoints_ j).durationPos ≤ x.durationBarrier_ ∧
        -barrier ≤ (getBp x.breakpoints_ j).amplitudePos ∧
        (getBp x.breakpoints_ j).amplitudePos ≤ barrier
      exact ⟨this.1, this.2.1, by linarith [this.2.2.1], by linarith [this.2.2.2]⟩
    | @setBreakpointCount x count _ ih =>
      obtain ⟨h2, h16, hd, ha, hpos⟩ := ih
      unfold SetBreakpointCount
      simp only [NormalizeDurations_table, MAX_BREAKPOINTS]
      refine ⟨?_, ?_, hd, ha, fun j hj => ?_⟩
      · show (2 : Int) ≤ if (if count < 2 then 2 else count) > ((16 : Nat) : Int)
          then ((16 : Nat) : Int) else (if count < 2 then 2 else count)
        split_ifs <;> omega
      · show (if (if count < 2 then 2 else count) > ((16 : Nat) : Int)
          then ((16 : Nat) : Int) else (if count < 2 then 2 else count)) ≤ 16
        split_ifs <;> omega
      · obtain ⟨d, hd'⟩ := getBp_normalizeTable
          (if (if count < 2 then 2 else count) > ((16 : Nat) : Int) then ((16 : Nat) : Int)
            else (if count < 2 then 2 else count)).toNat x.breakpoints_ j
        simp only [hd']
        exact hpos j hj
    | setWalkMode _ _ ih => exact ih
  obtain ⟨h2, h16, -, -, hpos⟩ := hinv
  intro i hi
  exact hpos i (by omega)

theorem barrier_containment_widening_witness :
    ReachableWidening (SetDurationBarrier 1 (Init 48000 (construct zeroTable))) ∧
    BarrierContained (SetDurationBarrier 1 (Init 48000 (construct zeroTable))) :=
  ⟨ReachableWidening.setDurationBarrier 1 (ReachableWidening.init zeroTable 48000) (by decide!),
    barrier_containment_widening _
      (ReachableWidening.setDurationBarrier 1 (ReachableWidening.init zeroTable 48000)
        (by decide!))⟩

/-- C4, breakpoint-count clamping.  `SetBreakpointCount n` yields the same state as
`SetBreakpointCount (min (max n 2) 16)`; the stored count is `min (max n 2) 16`, which
lies in `[2, 16]`; 0 and 1 behave as 2 and 100 behaves as 16. -/
theorem SetBreakpointCount_clamp (n : Int) (s : DSSEngine) :
    SetBreakpointCount n s = SetBreakpointCount (min (max n 2) 16) s ∧
    (SetBreakpointCount n s).breakpointCount_ = min (max n 2) 16 ∧
    2 ≤ (SetBreakpointCount n s).breakpointCount_ ∧
    (SetBreakpointCount n s).breakpointCount_ ≤ 16 ∧
    SetBreakpointCount 0 s = SetBreakpointCount 2 s ∧
    SetBreakpointCount 1 s = SetBreakpointCount 2 s ∧
    SetBreakpointCount 100 s = SetBreakpointCount 16 s := by
  have hc : ∀ m : Int,
      (if (if m < 2 then 2 else m) > ((MAX_BREAKPOINTS : Nat) : Int)
        then ((MAX_BREAKPOINTS : Nat) : Int) else (if m < 2 then 2 else m))
      = min (max m 2) 16 := by
    intro m
    simp only [MAX_BREAKPOINTS]
    rcases le_total m 2 with h | h <;> rcases le_total m 16 with h' | h' <;>
      split_ifs <;> simp [max_def, min_def] <;> split_ifs <;> omega
  have hset : ∀ m : Int, SetBreakpointCount m s =
      NormalizeDurations { s with breakpointCount_ := min (max m 2) 16 } := by
    intro m
    unfold SetBreakpointCount
    simp only [hc m]
  have hidem : min (max (min (max n 2) 16) 2) 16 = min (max n 2) 16 := by
    simp [max_def, min_def]; split_ifs <;> omega
  have hcount : (SetBreakpointCount n s).breakpointCount_ = min (max n 2) 16 := by
    rw [hset, NormalizeDurations_table]
  refine ⟨?_, hcount, ?_, ?_, ?_, ?_, ?_⟩
  · rw [hset n, hset (min (max n 2) 16), hidem]
  · rw [hcount]; exact le_min (le_max_right n 2) (by decide)
  · rw [hcount]; exact min_le_right _ _
  · rw [hset 0, hset 2]; rfl
  · rw [hset 1, hset 2]; rfl
  · rw [hset 100, hset 16]; rfl

/-- C5, reset reproducibility.  `Reset` gives the same state on any two states with the
same configuration; `Reset (Reset s) = Reset s`; a run of `k` `Process` calls after
`Reset s` ending in state `e` returns the same samples (and ends in the same state) when
it is repeated after `Reset e`; with positive barriers such a run exists for every `k`. -/
theorem Reset_reproducible (s : DSSEngine) :
    (∀ s', SameConfig s s' → Reset s = Reset s') ∧
    Reset (Reset s) = Reset s ∧
    (∀ (k fuel : Nat) (outs : List ℚ) (e : DSSEngine),
      Process.run fuel k (Reset s) = some (outs, e) →
      Process.run fuel k (Reset e) = some (outs, e)) ∧
    (0 < s.durationBarrier_ → 0 < s.amplitudeBarrier_ → ∀ k : Nat,
      ∃ fuel outs e, Process.run fuel k (Reset s) = some (outs, e) ∧ outs.length = k) := by
  have hcfg : SameConfig (Reset s) s := by
    rw [Reset_eq]; exact ⟨rfl, rfl, rfl, rfl, rfl, rfl, rfl, rfl⟩
  refine ⟨fun s' h => Reset_congr h, Reset_congr hcfg, ?_, ?_⟩
  · intro k fuel outs e h
    rw [Reset_congr (SameConfig_trans (run_config fuel k h) hcfg)]
    exact h
  · intro hd ha k
    obtain ⟨fuel, ⟨outs, e⟩, h⟩ := run_terminates k (Reset s)
      (by rw [hcfg.2.2.2.2.1]; exact hd) (by rw [hcfg.2.2.2.2.2.1]; exact ha)
    exact ⟨fuel, outs, e, h, run_length fuel k h⟩

theorem Reset_reproducible_witness :
    ∃ fuel outs e, Process.run fuel 500 (Reset (construct zeroTable)) = some (outs, e) ∧
      outs.length = 500 ∧
      Process.run fuel 500 (Reset e) = some (outs, e) := by
  obtain ⟨-, -, h3, h4⟩ := Reset_reproducible (construct zeroTable)
  obtain ⟨fuel, outs, e, hrun, hlen⟩ :=
    h4 (by norm_num [construct]) (by norm_num [construct]) 500
  exact ⟨fuel, outs, e, hrun, hlen, h3 500 fuel outs e hrun⟩

/-- C9, hard sync.  With positive barriers `Sync` terminates, and its result is that of
`UpdateWalks` on `s` with `phase_`, `currentSegment_` and `segmentPhase_` set to 0: the
phase afterwards is 0, the breakpoint table and the seed are those of one walk update
of `s` itself, and sample rate, frequency, phase increment, step sizes, barriers, active
count and walk mode are unchanged. -/
theorem Sync_hard (s : DSSEngine)
    (hd : 0 < s.durationBarrier_) (ha : 0 < s.amplitudeBarrier_) :
    ∃ fuel s', Sync fuel s = some s' ∧
      (∀ fuel' x, Sync fuel' s = some x → x = s') ∧
      UpdateWalks fuel { s with phase_ := 0, currentSegment_ := 0, segmentPhase_ := 0 } = some s' ∧
      s'.phase_ = 0 ∧ s'.currentSegment_ = 0 ∧ s'.segmentPhase_ = 0 ∧
      (∃ w, UpdateWalks fuel s = some w ∧
        s'.breakpoints_ = w.breakpoints_ ∧ s'.seed_ = w.seed_) ∧
      s'.sampleRate_ = s.sampleRate_ ∧ s'.frequency_ = s.frequency_ ∧
      s'.phaseIncrement_ = s.phaseIncrement_ ∧
      s'.durationStep_ = s.durationStep_ ∧ s'.amplitudeStep_ = s.amplitudeStep_ ∧
      s'.durationBarrier_ = s.durationBarrier_ ∧ s'.amplitudeBarrier_ = s.amplitudeBarrier_ ∧
      s'.breakpointCount_ = s.breakpointCount_ ∧ s'.walkMode_ = s.walkMode_ := by
  obtain ⟨fuel, w, hw⟩ := UpdateWalks_terminates s hd ha
  have hsync : ∀ f, Sync f s = (UpdateWalks f s).map (setPhase 0 0 0) :=
    fun f => UpdateWalks_setPhase f 0 0 0 s
  obtain ⟨t, sd, hwt, -⟩ := UpdateWalks_spec hw
  have h1 : Sync fuel s = some (setPhase 0 0 0 w) := by rw [hsync, hw]; rfl
  refine ⟨fuel, setPhase 0 0 0 w, h1, ?_, h1, rfl, rfl, rfl, ⟨w, hw, rfl, rfl⟩, ?_⟩
  · intro fuel' x hx
    have a := UpdateWalks_mono (Nat.le_max_left fuel' fuel) hx
    have b := UpdateWalks_mono (Nat.le_max_right fuel' fuel) h1
    rw [a] at b
    exact Option.some.inj b
  · subst hwt
    exact ⟨rfl, rfl, rfl, rfl, rfl, rfl, rfl, rfl, rfl⟩

theorem Sync_hard_witness :
    (0 < (Init 48000 (construct zeroTable)).durationBarrier_) ∧
    (0 < (Init 48000 (construct zeroTable)).amplitudeBarrier_) ∧
    ∃ fuel s', Sync fuel (Init 48000 (construct zeroTable)) = some s' ∧ s'.phase_ = 0 ∧
      ∃ w, UpdateWalks fuel (Init 48000 (construct zeroTable)) = some w ∧
        s'.breakpoints_ = w.breakpoints_ ∧ s'.seed_ = w.seed_ := by
  have hd : 0 < (Init 48000 (construct zeroTable)).durationBarrier_ := by decide!
  have ha : 0 < (Init 48000 (construct zeroTable)).amplitudeBarrier_ := by decide!
  obtain ⟨fuel, s', h1, -, -, h2, -, -, h3, -⟩ :=
    Sync_hard (Init 48000 (construct zeroTable)) hd ha
  exact ⟨hd, ha, fuel, s', h1, h2, h3⟩

/-- C8 at a failing input.  After `Init(48000)`, `SetFrequency(98400)` and one `Process`
call the phase is 21/20, above the sum 1 of the active durations, so the segment search
of the next `Process` call ends without `break`: it selects the last segment, 7, as the
formula does, but with `accumulated` equal to the sum of all eight durations.  The
sample it returns is 10486866058154875/1158279698573164544, where the formula of the
claim gives 0. -/
theorem sample_formula_fallback :
    ∃ out s1 out' s2,
      Process 3 (SetFrequency 98400 (Init 48000 (construct zeroTable))) = some (out, s1) ∧
      Reachable s1 ∧ s1.phase_ = 21 / 20 ∧ s1.breakpointCount_ = 8 ∧
      durationSum s1.breakpoints_ 8 = 1 ∧
      Process 3 s1 = some (out', s2) ∧
      s2.currentSegment_ = 7 ∧ specSegment s1 = 7 ∧
      out' = 10486866058154875 / 1158279698573164544 ∧
      specSample s1 = 0 := by
  have hv : ((Process 3 (SetFrequency 98400 (Init 48000 (construct zeroTable)))).bind fun r =>
      (Process 3 r.2).map fun q =>
        ((r.2.phase_, r.2.breakpointCount_, durationSum r.2.breakpoints_ 8),
          (q.2.currentSegment_, specSegment r.2), (q.1, specSample r.2))) =
      some ((21 / 20, 8, 1), (7, 7), (10486866058154875 / 1158279698573164544, 0)) := by
    decide!
  rw [Option.bind_eq_some] at hv
  obtain ⟨⟨out, s1⟩, h1, hv⟩ := hv
  rw [Option.map_eq_some'] at hv
  obtain ⟨⟨out', s2⟩, h2, hv⟩ := hv
  simp only [Prod.mk.injEq] at hv
  obtain ⟨⟨e1, e2, e3⟩, ⟨e4, e5⟩, e6, e7⟩ := hv
  exact ⟨out, s1, out', s2, h1,
    Reachable.process 3 out
      (Reachable.setFrequency 98400 (Reachable.init zeroTable 48000)) h1,
    e1, e2, e3, h2, e4, e5, e6, e7⟩

/-- C16, post-update containment.  With positive barriers `UpdateWalks` terminates, and in
the state it returns every active breakpoint has `durationPos` in
`[-durationBarrier, durationBarrier]` and `amplitudePos` in
`[-amplitudeBarrier, amplitudeBarrier]`, and in second-order and correlated modes also
`durationVel` in `[-durationBarrier/2, durationBarrier/2]` and `amplitudeVel` in
`[-amplitudeBarrier/2, amplitudeBarrier/2]`; the barriers, the count and the mode are those
of the state before. -/
theorem post_update_containment (s : DSSEngine)
    (hd : 0 < s.durationBarrier_) (ha : 0 < s.amplitudeBarrier_) :
    (∃ fuel s', UpdateWalks fuel s = some s') ∧
    ∀ fuel s', UpdateWalks fuel s = some s' →
      s'.durationBarrier_ = s.durationBarrier_ ∧ s'.amplitudeBarrier_ = s.amplitudeBarrier_ ∧
      s'.breakpointCount_ = s.breakpointCount_ ∧ s'.walkMode_ = s.walkMode_ ∧
      ∀ i : Nat, (i : Int) < s'.breakpointCount_ →
        -s'.durationBarrier_ ≤ (getBp s'.breakpoints_ i).durationPos ∧
        (getBp s'.breakpoints_ i).durationPos ≤ s'.durationBarrier_ ∧
        -s'.amplitudeBarrier_ ≤ (getBp s'.breakpoints_ i).amplitudePos ∧
        (getBp s'.breakpoints_ i).amplitudePos ≤ s'.amplitudeBarrier_ ∧
        (s'.walkMode_ ≠ WalkMode.FIRST_ORDER →
          -(s'.durationBarrier_ / 2) ≤ (getBp s'.breakpoints_ i).durationVel ∧
          (getBp s'.breakpoints_ i).durationVel ≤ s'.durationBarrier_ / 2 ∧
          -(s'.amplitudeBarrier_ / 2) ≤ (getBp s'.breakpoints_ i).amplitudeVel ∧
          (getBp s'.breakpoints_ i).amplitudeVel ≤ s'.amplitudeBarrier_ / 2) := by
  refine ⟨UpdateWalks_terminates s hd ha, ?_⟩
  intro fuel s' h
  obtain ⟨t, -, hin, hs'⟩ := UpdateWalks_closed h
  subst hs'
  refine ⟨rfl, rfl, rfl, rfl, ?_⟩
  intro i hi
  have hi' : i < s.breakpointCount_.toNat := by
    have : (i : Int) < s.breakpointCount_ := hi
    omega
  show -s.durationBarrier_ ≤ (getBp (normalizeTable _ (pinFirst t)) i).durationPos ∧
    (getBp (normalizeTable _ (pinFirst t)) i).durationPos ≤ s.durationBarrier_ ∧
    -s.amplitudeBarrier_ ≤ (getBp (normalizeTable _ (pinFirst t)) i).amplitudePos ∧
    (getBp (normalizeTable _ (pinFirst t)) i).amplitudePos ≤ s.amplitudeBarrier_ ∧
    (s.walkMode_ ≠ WalkMode.FIRST_ORDER →
      -(s.durationBarrier_ / 2) ≤ (getBp (normalizeTable _ (pinFirst t)) i).durationVel ∧
      (getBp (normalizeTable _ (pinFirst t)) i).durationVel ≤ s.durationBarrier_ / 2 ∧
      -(s.amplitudeBarrier_ / 2) ≤ (getBp (normalizeTable _ (pinFirst t)) i).amplitudeVel ∧
      (getBp (normalizeTable _ (pinFirst t)) i).amplitudeVel ≤ s.amplitudeBarrier_ / 2)
  obtain ⟨d, hd'⟩ := getBp_final s.breakpointCount_.toNat t i
  rw [hd']
  by_cases h16 : i < 16
  · obtain ⟨b1, b2, b3, -, -⟩ := slot_bounds (hin i hi' h16)
    by_cases hi0 : i = 0
    · subst hi0
      simp only [if_true]
      exact ⟨b1.1, b1.2, by linarith, by linarith,
        fun hm => ⟨(b3 hm).1.1, (b3 hm).1.2, (b3 hm).2.1, (b3 hm).2.2⟩⟩
    · simp only [hi0, if_false]
      exact ⟨b1.1, b1.2, b2.1, b2.2,
        fun hm => ⟨(b3 hm).1.1, (b3 hm).1.2, (b3 hm).2.1, (b3 hm).2.2⟩⟩
  · have hz : getBp t i = Breakpoint.zero := by simp [getBp, h16]
    have hi0 : i ≠ 0 := by omega
    simp only [hi0, if_false, hz, Breakpoint.zero]
    refine ⟨by linarith, by linarith, by linarith, by linarith, fun _ => ?_⟩
    refine ⟨by linarith, by linarith, by linarith, by linarith⟩

theorem post_update_containment_witness :
    (0 < (construct zeroTable).durationBarrier_) ∧ (0 < (construct zeroTable).amplitudeBarrier_) ∧
    ∃ fuel s', UpdateWalks fuel (construct zeroTable) = some s' ∧
      -s'.durationBarrier_ ≤ (getBp s'.breakpoints_ 3).durationPos ∧
      (getBp s'.breakpoints_ 3).durationPos ≤ s'.durationBarrier_ := by
  have hd : 0 < (construct zeroTable).durationBarrier_ := by norm_num [construct]
  have ha : 0 < (construct zeroTable).amplitudeBarrier_ := by norm_num [construct]
  obtain ⟨⟨fuel, s', h⟩, hall⟩ := post_update_containment (construct zeroTable) hd ha
  obtain ⟨-, -, hc, -, hb⟩ := hall fuel s' h
  have h3 : ((3 : Nat) : Int) < s'.breakpointCount_ := by rw [hc]; decide
  exact ⟨hd, ha, fuel, s', h, (hb 3 h3).1, (hb 3 h3).2.1⟩

/-- C14, output range.  In every state reachable from `Init` by operations in which every
duration-barrier argument is positive and every amplitude-barrier argument lies in
`(0, 1]`, every active `currentAmplitude` lies in `[-1, 1]`, `Process` returns, and every
value it returns lies in `[-1, 1]`.  More generally, in a state with a count of at least
one whose active amplitudes lie in `[-A, A]`, every value `Process` returns lies in
`[-A, A]`. -/
theorem output_range :
    (∀ s : DSSEngine, ReachableBounded s →
      (∀ i : Nat, (i : Int) < s.breakpointCount_ →
        -1 ≤ (getBp s.breakpoints_ i).currentAmplitude ∧
        (getBp s.breakpoints_ i).currentAmplitude ≤ 1) ∧
      (∃ fuel r, Process fuel s = some r) ∧
      ∀ fuel out s', Process fuel s = some (out, s') → -1 ≤ out ∧ out ≤ 1) ∧
    (∀ (s : DSSEngine) (A : ℚ), 1 ≤ s.breakpointCount_ →
      (∀ i : Nat, (i : Int) < s.breakpointCount_ →
        -A ≤ (getBp s.breakpoints_ i).currentAmplitude ∧
        (getBp s.breakpoints_ i).currentAmplitude ≤ A) →
      ∀ fuel out s', Process fuel s = some (out, s') → -A ≤ out ∧ out ≤ A) := by
  have hgen : ∀ (s : DSSEngine) (A : ℚ), 1 ≤ s.breakpointCount_ →
      (∀ i : Nat, (i : Int) < s.breakpointCount_ →
        -A ≤ (getBp s.breakpoints_ i).currentAmplitude ∧
        (getBp s.breakpoints_ i).currentAmplitude ≤ A) →
      ∀ fuel out s', Process fuel s = some (out, s') → -A ≤ out ∧ out ≤ A := by
    intro s A hc hA fuel out s' h
    rw [Process_output h]
    exact output_bound s A hc hA
  have hresetInv : ∀ x : DSSEngine, 2 ≤ x.breakpointCount_ → x.breakpointCount_ ≤ 16 →
      0 < x.durationBarrier_ → 0 < x.amplitudeBarrier_ → x.amplitudeBarrier_ ≤ 1 →
      AmplitudeInv (Reset x) := by
    intro x a b c d e
    have hc : (Reset x).breakpointCount_ = x.breakpointCount_ := by rw [Reset_eq]
    have hdb : (Reset x).durationBarrier_ = x.durationBarrier_ := by rw [Reset_eq]
    have hab : (Reset x).amplitudeBarrier_ = x.amplitudeBarrier_ := by rw [Reset_eq]
    refine ⟨by rw [hc]; exact a, by rw [hc]; exact b, by rw [hdb]; exact c,
      by rw [hab]; exact d, by rw [hab]; exact e, fun j hj => ?_⟩
    have := Reset_amplitudes x j hj
    constructor
    · linarith [this.1]
    · linarith [this.2]
  have hinv : ∀ s : DSSEngine, ReachableBounded s → AmplitudeInv s := by
    intro s h
    induction h with
    | init mem sampleRate =>
      exact hresetInv _ (by norm_num [construct]) (by norm_num [construct])
        (by norm_num [construct]) (by norm_num [construct]) (by norm_num [construct])
    | reset _ ih => exact hresetInv _ ih.1 ih.2.1 ih.2.2.1 ih.2.2.2.1 ih.2.2.2.2.1
    | @sync x x' fuel _ hs ih =>
      exact AmplitudeInv_UpdateWalks
        (s := { x with phase_ := 0, currentSegment_ := 0, segmentPhase_ := 0 }) ih hs
    | @process x x' fuel out _ hp ih =>
      rcases Process_spec hp with ⟨-, hs'⟩ | ⟨-, hs'⟩
      · rw [hs']; exact ih
      · exact AmplitudeInv_UpdateWalks
          (s := Process.advance x (x.phase_ + x.phaseIncrement_ - 1)) ih hs'
    | setFrequency _ _ ih => exact ih
    | setDurationStep _ _ ih => exact ih
    | setAmplitudeStep _ _ ih => exact ih
    | @setDurationBarrier x barrier _ hb ih =>
      exact ⟨ih.1, ih.2.1, hb, ih.2.2.2.1, ih.2.2.2.2.1, ih.2.2.2.2.2⟩
    | @setAmplitudeBarrier x barrier _ hb hb1 ih =>
      exact ⟨ih.1, ih.2.1, ih.2.2.1, hb, hb1, ih.2.2.2.2.2⟩
    | @setBreakpointCount x count _ ih =>
      obtain ⟨h2, h16, hd, ha, ha1, hamp⟩ := ih
      rw [SetBreakpointCount_table]
      refine ⟨le_min (le_max_right count 2) (by decide), min_le_right _ _, hd, ha, ha1,
        fun j hj => ?_⟩
      obtain ⟨d, hd'⟩ := getBp_normalizeTable (min (max count 2) 16).toNat x.breakpoints_ j
      simp only [hd']
      exact hamp j hj
    | setWalkMode _ _ ih => exact ih
  refine ⟨?_, hgen⟩
  intro s hr
  obtain ⟨h2, h16, hd, ha, ha1, hamp⟩ := hinv s hr
  have hact : ∀ i : Nat, (i : Int) < s.breakpointCount_ →
      -1 ≤ (getBp s.breakpoints_ i).currentAmplitude ∧
      (getBp s.breakpoints_ i).currentAmplitude ≤ 1 :=
    fun i hi => hamp i (by omega)
  exact ⟨hact, Process_terminates s hd ha, hgen s 1 (by omega) hact⟩

theorem output_range_witness :
    ReachableBounded (SetAmplitudeBarrier 1 (Init 48000 (construct zeroTable))) ∧
    (∃ fuel r, Process fuel (SetAmplitudeBarrier 1 (Init 48000 (construct zeroTable))) = some r) ∧
    ∀ fuel out s',
      Process fuel (SetAmplitudeBarrier 1 (Init 48000 (construct zeroTable))) = some (out, s') →
      -1 ≤ out ∧ out ≤ 1 := by
  have hr : ReachableBounded (SetAmplitudeBarrier 1 (Init 48000 (construct zeroTable))) :=
    ReachableBounded.setAmplitudeBarrier 1 (ReachableBounded.init zeroTable 48000)
      (by norm_num) (by norm_num)
  exact ⟨hr, (output_range.1 _ hr).2⟩

/-- C13 as stated fails: after `Init(48000)`, `SetBreakpointCount(2)`, `Reset()` and the
count raised one step at a time from 3 to 16, the first two durations are `2^-15` each;
`SetBreakpointCount(2)` then finds a total of `1/16384`, below the epsilon of the
normaliser, and leaves the two active durations unscaled. -/
theorem count_change_counterexample :
    Reachable countSweep ∧
    0 < countSweep.durationBarrier_ ∧ 0 < countSweep.amplitudeBarrier_ ∧
    durationSum (SetBreakpointCount 2 countSweep).breakpoints_
      (min (max (2 : Int) 2) 16).toNat = 1 / 16384 ∧
    durationSum (SetBreakpointCount 2 countSweep).breakpoints_
      (min (max (2 : Int) 2) 16).toNat ≠ 1 := by
  have hr : Reachable countSweep :=
    Reachable_countSteps _ _
      (Reachable.reset (Reachable.setBreakpointCount 2 (Reachable.init zeroTable 48000)))
  have hsum : durationSum (SetBreakpointCount 2 countSweep).breakpoints_
      (min (max (2 : Int) 2) 16).toNat = 1 / 16384 := by decide!
  refine ⟨hr, by decide!, by decide!, hsum, ?_⟩
  rw [hsum]
  norm_num

/-- C13, amended.  For every state (hence every reachable one) and every integer `n`,
with `m = clamp(n, 2, 16)`: if the sum of `currentDuration` over breakpoints `0 .. m-1`
before the call exceeds 0.0001, then after `SetBreakpointCount(n)` that sum is exactly 1;
otherwise the call leaves the breakpoint table unchanged. -/
theorem count_change_normalised (s : DSSEngine) (n : Int) :
    (SetBreakpointCount n s).breakpointCount_ = min (max n 2) 16 ∧
    (durationSum s.breakpoints_ (min (max n 2) 16).toNat > 1 / 10000 →
      durationSum (SetBreakpointCount n s).breakpoints_ (min (max n 2) 16).toNat = 1) ∧
    (¬ durationSum s.breakpoints_ (min (max n 2) 16).toNat > 1 / 10000 →
      (SetBreakpointCount n s).breakpoints_ = s.breakpoints_) := by
  rw [SetBreakpointCount_table]
  refine ⟨rfl, ?_, ?_⟩
  · intro h
    apply normalizeTable_sum _ _ _ h
    have : min (max n 2) 16 ≤ 16 := min_le_right _ _
    omega
  · intro h
    show normalizeTable _ s.breakpoints_ = s.breakpoints_
    unfold normalizeTable
    rw [if_neg h]

theorem count_change_normalised_witness :
    (durationSum (Init 48000 (construct zeroTable)).breakpoints_ (min (max (5 : Int) 2) 16).toNat
      > 1 / 10000) ∧
    durationSum (SetBreakpointCount 5 (Init 48000 (construct zeroTable))).breakpoints_
      (min (max (5 : Int) 2) 16).toNat = 1 := by
  have h : durationSum (Init 48000 (construct zeroTable)).breakpoints_
      (min (max (5 : Int) 2) 16).toNat > 1 / 10000 := by decide!
  exact ⟨h, (count_change_normalised (Init 48000 (construct zeroTable)) 5).2.1 h⟩

/-- C11 as stated fails: after `Init(48000)` and one `Sync()` with the default step sizes
the velocities are not zero; with both step sizes then set to 0, the next walk update
(second-order mode) still adds the velocity to the position of breakpoint 0. -/
theorem zero_step_counterexample :
    ∃ s1 s2, Sync 3 (Init 48000 (construct zeroTable)) = some s1 ∧
      Reachable (SetAmplitudeStep 0 (SetDurationStep 0 s1)) ∧
      0 < (SetAmplitudeStep 0 (SetDurationStep 0 s1)).durationBarrier_ ∧
      0 < (SetAmplitudeStep 0 (SetDurationStep 0 s1)).amplitudeBarrier_ ∧
      (SetAmplitudeStep 0 (SetDurationStep 0 s1)).durationStep_ = 0 ∧
      (SetAmplitudeStep 0 (SetDurationStep 0 s1)).amplitudeStep_ = 0 ∧
      UpdateWalks 3 (SetAmplitudeStep 0 (SetDurationStep 0 s1)) = some s2 ∧
      (getBp (SetAmplitudeStep 0 (SetDurationStep 0 s1)).breakpoints_ 0).durationPos
        = -396244229 / 1342177280 ∧
      (getBp s2.breakpoints_ 0).durationPos = -1625062747 / 5368709120 ∧
      (getBp s2.breakpoints_ 0).durationPos ≠
        (getBp (SetAmplitudeStep 0 (SetDurationStep 0 s1)).breakpoints_ 0).durationPos := by
  have hv : ((Sync 3 (Init 48000 (construct zeroTable))).bind fun s1 =>
      (UpdateWalks 3 (SetAmplitudeStep 0 (SetDurationStep 0 s1))).map fun s2 =>
        (((getBp s1.breakpoints_ 0).durationPos, (getBp s2.breakpoints_ 0).durationPos),
          (s1.durationBarrier_, s1.amplitudeBarrier_))) =
      some ((-396244229 / 1342177280, -1625062747 / 5368709120), (1 / 2, 9 / 10)) := by
    decide!
  rw [Option.bind_eq_some] at hv
  obtain ⟨s1, h1, hv⟩ := hv
  rw [Option.map_eq_some'] at hv
  obtain ⟨s2, h2, hv⟩ := hv
  simp only [Prod.mk.injEq] at hv
  obtain ⟨⟨e1, e2⟩, e3, e4⟩ := hv
  have e1' : (getBp (SetAmplitudeStep 0 (SetDurationStep 0 s1)).breakpoints_ 0).durationPos
      = -396244229 / 1342177280 := e1
  refine ⟨s1, s2, h1,
    Reachable.setAmplitudeStep 0 (Reachable.setDurationStep 0
      (Reachable.sync 3 (Reachable.init zeroTable 48000) h1)),
    ?_, ?_, rfl, rfl, h2, e1', e2, ?_⟩
  · show 0 < s1.durationBarrier_
    rw [e3]; norm_num
  · show 0 < s1.amplitudeBarrier_
    rw [e4]; norm_num
  · rw [e1', e2]; norm_num

/-- C11, amended.  In a state with positive barriers and zero step sizes in which
breakpoint 0 has `amplitudePos = 0` (as in every reachable state), every active breakpoint
has its positions inside the barriers and, in second-order and correlated modes, every
active breakpoint has zero velocities, `UpdateWalks` terminates and leaves `durationPos`
and `amplitudePos` of every breakpoint unchanged. -/
theorem zero_step_positions (s : DSSEngine)
    (hd : 0 < s.durationBarrier_) (ha : 0 < s.amplitudeBarrier_)
    (hds : s.durationStep_ = 0) (has : s.amplitudeStep_ = 0)
    (hpin : (getBp s.breakpoints_ 0).amplitudePos = 0)
    (hpos : BarrierContained s)
    (hvel : s.walkMode_ ≠ WalkMode.FIRST_ORDER → ∀ i : Nat, (i : Int) < s.breakpointCount_ →
      (getBp s.breakpoints_ i).durationVel = 0 ∧ (getBp s.breakpoints_ i).amplitudeVel = 0) :
    (∃ fuel s', UpdateWalks fuel s = some s') ∧
    ∀ fuel s', UpdateWalks fuel s = some s' → ∀ i : Nat,
      (getBp s'.breakpoints_ i).durationPos = (getBp s.breakpoints_ i).durationPos ∧
      (getBp s'.breakpoints_ i).amplitudePos = (getBp s.breakpoints_ i).amplitudePos := by
  refine ⟨UpdateWalks_terminates s hd ha, ?_⟩
  intro fuel s' h i
  obtain ⟨t, hout, hin, hs'⟩ := UpdateWalks_closed h
  subst hs'
  show (getBp (normalizeTable _ (pinFirst t)) i).durationPos = _ ∧
    (getBp (normalizeTable _ (pinFirst t)) i).amplitudePos = _
  obtain ⟨d, hd'⟩ := getBp_final s.breakpointCount_.toNat t i
  rw [hd']
  have hkeep : (getBp t i).durationPos = (getBp s.breakpoints_ i).durationPos ∧
      (getBp t i).amplitudePos = (getBp s.breakpoints_ i).amplitudePos := by
    by_cases hic : i < s.breakpointCount_.toNat
    · by_cases h16 : i < 16
      · have hi : (i : Int) < s.breakpointCount_ := by omega
        have hp := hpos i hi
        obtain ⟨e1, e2, -⟩ := slot_zero_step hd ha hds has ⟨hp.1, hp.2.1⟩
          ⟨hp.2.2.1, hp.2.2.2⟩ (fun hm => hvel hm i hi) (hin i hic h16)
        exact ⟨e1, e2⟩
      · have h1 : getBp t i = Breakpoint.zero := by simp [getBp, h16]
        have h2 : getBp s.breakpoints_ i = Breakpoint.zero := by simp [getBp, h16]
        rw [h1, h2]
        exact ⟨rfl, rfl⟩
    · rw [hout i (by omega)]
      exact ⟨rfl, rfl⟩
  by_cases hi0 : i = 0
  · subst hi0
    simp only [if_true]
    exact ⟨hkeep.1, hpin.symm⟩
  · simp only [hi0, if_false]
    exact hkeep

theorem zero_step_positions_witness :
    ∃ fuel s', UpdateWalks fuel
        (SetAmplitudeStep 0 (SetDurationStep 0 (Init 48000 (construct zeroTable)))) = some s' ∧
      ∀ i : Nat,
        (getBp s'.breakpoints_ i).durationPos =
          (getBp (SetAmplitudeStep 0 (SetDurationStep 0
            (Init 48000 (construct zeroTable)))).breakpoints_ i).durationPos ∧
        (getBp s'.breakpoints_ i).amplitudePos =
          (getBp (SetAmplitudeStep 0 (SetDurationStep 0
            (Init 48000 (construct zeroTable)))).breakpoints_ i).amplitudePos := by
  have hinv : WideningInv (Init 48000 (construct zeroTable)) :=
    WideningInv_Reset _ (by norm_num [construct]) (by norm_num [construct])
      (by norm_num [construct]) (by norm_num [construct])
  obtain ⟨h2, h16, hdb, hab, hpos⟩ := hinv
  have hz := zero_step_positions
    (SetAmplitudeStep 0 (SetDurationStep 0 (Init 48000 (construct zeroTable))))
    (by show 0 < (Init 48000 (construct zeroTable)).durationBarrier_; linarith)
    (by show 0 < (Init 48000 (construct zeroTable)).amplitudeBarrier_; linarith)
    rfl rfl
    (by
      show (getBp (Init 48000 (construct zeroTable)).breakpoints_ 0).amplitudePos = 0
      decide!)
    (fun i hi => hpos i (by
      have : (i : Int) < (Init 48000 (construct zeroTable)).breakpointCount_ := hi
      omega))
    (fun _ i _ => Reset_velocities _ i)
  obtain ⟨⟨fuel, s', h⟩, hall⟩ := hz
  exact ⟨fuel, s', h, hall fuel s' h⟩

/-- C18 at a failing input.  After `Init(48000)`, `SetDurationStep(0)` and
`SetAmplitudeStep(0)` the eight active breakpoints have `currentDuration = 1/8`, the value
`Reset` derives from its constant 1 and not from `durationPos`.  The first walk update
(here through `Sync`) keeps every `currentAmplitude` but replaces the duration of
breakpoint 0 by `3823818035/43822135858`, the normalised `1 + durationPos`; the second
walk update changes nothing any more. -/
theorem zero_step_waveform_changes :
    ∃ s1 s2,
      Sync 3 (SetAmplitudeStep 0 (SetDurationStep 0 (Init 48000 (construct zeroTable))))
        = some s1 ∧
      Sync 3 s1 = some s2 ∧
      Reachable (SetAmplitudeStep 0 (SetDurationStep 0 (Init 48000 (construct zeroTable)))) ∧
      Reachable s1 ∧
      (getBp (SetAmplitudeStep 0 (SetDurationStep 0
        (Init 48000 (construct zeroTable)))).breakpoints_ 0).currentDuration = 1 / 8 ∧
      (getBp s1.breakpoints_ 0).currentDuration = 3823818035 / 43822135858 ∧
      (getBp s2.breakpoints_ 0).currentDuration = 3823818035 / 43822135858 ∧
      ((List.range 8).map fun i => (getBp s1.breakpoints_ i).currentAmplitude) =
        ((List.range 8).map fun i => (getBp (SetAmplitudeStep 0 (SetDurationStep 0
          (Init 48000 (construct zeroTable)))).breakpoints_ i).currentAmplitude) := by
  have hv : ((Sync 3 (SetAmplitudeStep 0 (SetDurationStep 0
        (Init 48000 (construct zeroTable))))).bind fun s1 =>
      (Sync 3 s1).map fun s2 =>
        (((getBp s1.breakpoints_ 0).currentDuration, (getBp s2.breakpoints_ 0).currentDuration),
          decide (((List.range 8).map fun i => (getBp s1.breakpoints_ i).currentAmplitude) =
            ((List.range 8).map fun i => (getBp (SetAmplitudeStep 0 (SetDurationStep 0
              (Init 48000 (construct zeroTable)))).breakpoints_ i).currentAmplitude)))) =
      some ((3823818035 / 43822135858, 3823818035 / 43822135858), true) := by
    decide!
  have h0 : (getBp (SetAmplitudeStep 0 (SetDurationStep 0
      (Init 48000 (construct zeroTable)))).breakpoints_ 0).currentDuration = 1 / 8 := by
    decide!
  rw [Option.bind_eq_some] at hv
  obtain ⟨s1, h1, hv⟩ := hv
  rw [Option.map_eq_some'] at hv
  obtain ⟨s2, h2, hv⟩ := hv
  simp only [Prod.mk.injEq, decide_eq_true_eq] at hv
  obtain ⟨⟨e1, e2⟩, e3⟩ := hv
  have hr : Reachable (SetAmplitudeStep 0 (SetDurationStep 0
      (Init 48000 (construct zeroTable)))) :=
    Reachable.setAmplitudeStep 0 (Reachable.setDurationStep 0 (Reachable.init zeroTable 48000))
  exact ⟨s1, s2, h1, h2, hr, Reachable.sync 3 hr h1, h0, e1, e2, e3⟩

/-- C12 at failing inputs.  After `Init(48000)` and `SetDurationBarrier(0)` the first
velocity that `UpdateWalks` reflects is `-40085831/5368709120`, and the `Reflect` loop
against the interval `[0, 0]` never ends: `UpdateWalks` and `Sync` return for no iteration
bound, nor does a `Process` call that crosses the cycle boundary (here after
`SetFrequency(48000)`).  The same holds after `SetAmplitudeBarrier(0)`. -/
theorem zero_barrier_stall :
    Reachable (SetDurationBarrier 0 (Init 48000 (construct zeroTable))) ∧
    (SetDurationBarrier 0 (Init 48000 (construct zeroTable))).durationBarrier_ = 0 ∧
    (∀ fuel, UpdateWalks fuel (SetDurationBarrier 0 (Init 48000 (construct zeroTable))) = none) ∧
    (∀ fuel, Sync fuel (SetDurationBarrier 0 (Init 48000 (construct zeroTable))) = none) ∧
    (∀ fuel, Process fuel
      (SetFrequency 48000 (SetDurationBarrier 0 (Init 48000 (construct zeroTable)))) = none) ∧
    Reachable (SetAmplitudeBarrier 0 (Init 48000 (construct zeroTable))) ∧
    (SetAmplitudeBarrier 0 (Init 48000 (construct zeroTable))).amplitudeBarrier_ = 0 ∧
    (∀ fuel, UpdateWalks fuel (SetAmplitudeBarrier 0 (Init 48000 (construct zeroTable))) = none) ∧
    (∀ fuel, Sync fuel (SetAmplitudeBarrier 0 (Init 48000 (construct zeroTable))) = none) ∧
    (∀ fuel, Process fuel
      (SetFrequency 48000 (SetAmplitudeBarrier 0 (Init 48000 (construct zeroTable)))) = none) := by
  have hd : ∀ fuel,
      UpdateWalks fuel (SetDurationBarrier 0 (Init 48000 (construct zeroTable))) = none :=
    UpdateWalks_stalls_duration _ (by decide!) (by decide!) (by decide!) (by decide!)
  have hdf : ∀ fuel, UpdateWalks fuel
      (SetFrequency 48000 (SetDurationBarrier 0 (Init 48000 (construct zeroTable)))) = none :=
    UpdateWalks_stalls_duration _ (by decide!) (by decide!) (by decide!) (by decide!)
  have ha : ∀ fuel,
      UpdateWalks fuel (SetAmplitudeBarrier 0 (Init 48000 (construct zeroTable))) = none :=
    UpdateWalks_stalls_amplitude _ (by decide!) (by decide!) (by decide!) (by decide!)
  have haf : ∀ fuel, UpdateWalks fuel
      (SetFrequency 48000 (SetAmplitudeBarrier 0 (Init 48000 (construct zeroTable)))) = none :=
    UpdateWalks_stalls_amplitude _ (by decide!) (by decide!) (by decide!) (by decide!)
  exact ⟨Reachable.setDurationBarrier 0 (Reachable.init zeroTable 48000), by decide!,
    hd, Sync_none hd, Process_none hdf (by decide!),
    Reachable.setAmplitudeBarrier 0 (Reachable.init zeroTable 48000), by decide!,
    ha, Sync_none ha, Process_none haf (by decide!)⟩

/-- C19, random draws per walk update.  With positive barriers and an active count `n` of
at most 16, `UpdateWalks` terminates; it advances the seed by `n` generator steps in
correlated mode and by `2 * n` steps in first-order and second-order modes.  In correlated
mode the two velocity increments of breakpoint `i` use the same draw `i`; in second-order
mode the duration velocity uses draw `2 * i` and the amplitude velocity draw `2 * i + 1`;
in first-order mode the duration position uses draw `2 * i` and the amplitude position
draw `2 * i + 1` (for breakpoint 0 the amplitude is pinned to zero afterwards). -/
theorem random_draws (s : DSSEngine)
    (hd : 0 < s.durationBarrier_) (ha : 0 < s.amplitudeBarrier_)
    (h16 : s.breakpointCount_ ≤ 16) :
    (∃ fuel s', UpdateWalks fuel s = some s') ∧
    ∀ fuel s', UpdateWalks fuel s = some s' →
      (s.walkMode_ = WalkMode.CORRELATED →
        s'.seed_ = FastRandom^[s.breakpointCount_.toNat] s.seed_) ∧
      (s.walkMode_ ≠ WalkMode.CORRELATED →
        s'.seed_ = FastRandom^[2 * s.breakpointCount_.toNat] s.seed_) ∧
      ∀ i : Nat, i < s.breakpointCount_.toNat →
        (s.walkMode_ = WalkMode.CORRELATED →
          Reflect fuel
            ((getBp s.breakpoints_ i).durationVel + nthDraw s.seed_ i * s.durationStep_)
            (-(s.durationBarrier_ * (1 / 2))) (s.durationBarrier_ * (1 / 2))
            = some (getBp s'.breakpoints_ i).durationVel ∧
          Reflect fuel
            ((getBp s.breakpoints_ i).amplitudeVel + nthDraw s.seed_ i * s.amplitudeStep_)
            (-(s.amplitudeBarrier_ * (1 / 2))) (s.amplitudeBarrier_ * (1 / 2))
            = some (getBp s'.breakpoints_ i).amplitudeVel) ∧
        (s.walkMode_ = WalkMode.SECOND_ORDER →
          Reflect fuel
            ((getBp s.breakpoints_ i).durationVel + nthDraw s.seed_ (2 * i) * s.durationStep_)
            (-(s.durationBarrier_ * (1 / 2))) (s.durationBarrier_ * (1 / 2))
            = some (getBp s'.breakpoints_ i).durationVel ∧
          Reflect fuel
            ((getBp s.breakpoints_ i).amplitudeVel +
              nthDraw s.seed_ (2 * i + 1) * s.amplitudeStep_)
            (-(s.amplitudeBarrier_ * (1 / 2))) (s.amplitudeBarrier_ * (1 / 2))
            = some (getBp s'.breakpoints_ i).amplitudeVel) ∧
        (s.walkMode_ = WalkMode.FIRST_ORDER →
          Reflect fuel
            ((getBp s.breakpoints_ i).durationPos + nthDraw s.seed_ (2 * i) * s.durationStep_)
            (-s.durationBarrier_) s.durationBarrier_
            = some (getBp s'.breakpoints_ i).durationPos ∧
          (i ≠ 0 →
            Reflect fuel
              ((getBp s.breakpoints_ i).amplitudePos +
                nthDraw s.seed_ (2 * i + 1) * s.amplitudeStep_)
              (-s.amplitudeBarrier_) s.amplitudeBarrier_
              = some (getBp s'.breakpoints_ i).amplitudePos)) := by
  refine ⟨UpdateWalks_terminates s hd ha, ?_⟩
  intro fuel s' h
  obtain ⟨t, -, hin, hs'⟩ := UpdateWalks_closed h
  subst hs'
  refine ⟨?_, ?_, ?_⟩
  · intro hm
    show FastRandom^[UpdateWalks.drawsPerBreakpoint s * s.breakpointCount_.toNat] s.seed_ = _
    rw [drawsPerBreakpoint_correlated s hm, Nat.one_mul]
  · intro hm
    show FastRandom^[UpdateWalks.drawsPerBreakpoint s * s.breakpointCount_.toNat] s.seed_ = _
    rw [drawsPerBreakpoint_other s hm]
  · intro i hi
    have hi16 : i < 16 := by omega
    have hslot := hin i hi hi16
    obtain ⟨hfirst, hsecond⟩ := slot_draws hslot
    obtain ⟨d, hd'⟩ := getBp_final s.breakpointCount_.toNat t i
    have hvel : (getBp (normalizeTable s.breakpointCount_.toNat (pinFirst t)) i).durationVel
          = (getBp t i).durationVel ∧
        (getBp (normalizeTable s.breakpointCount_.toNat (pinFirst t)) i).amplitudeVel
          = (getBp t i).amplitudeVel ∧
        (getBp (normalizeTable s.breakpointCount_.toNat (pinFirst t)) i).durationPos
          = (getBp t i).durationPos ∧
        (i ≠ 0 → (getBp (normalizeTable s.breakpointCount_.toNat (pinFirst t)) i).amplitudePos
          = (getBp t i).amplitudePos) := by
      rw [hd']
      by_cases hi0 : i = 0
      · subst hi0
        rw [if_pos rfl]
        exact ⟨rfl, rfl, rfl, fun hne => absurd rfl hne⟩
      · rw [if_neg hi0]
        exact ⟨rfl, rfl, rfl, fun _ => rfl⟩
    obtain ⟨v1, v2, v3, v4⟩ := hvel
    show (s.walkMode_ = WalkMode.CORRELATED →
        Reflect fuel _ _ _
          = some (getBp (normalizeTable s.breakpointCount_.toNat (pinFirst t)) i).durationVel ∧
        Reflect fuel _ _ _
          = some (getBp (normalizeTable s.breakpointCount_.toNat (pinFirst t)) i).amplitudeVel) ∧
      (s.walkMode_ = WalkMode.SECOND_ORDER →
        Reflect fuel _ _ _
          = some (getBp (normalizeTable s.breakpointCount_.toNat (pinFirst t)) i).durationVel ∧
        Reflect fuel _ _ _
          = some (getBp (normalizeTable s.breakpointCount_.toNat (pinFirst t)) i).amplitudeVel) ∧
      (s.walkMode_ = WalkMode.FIRST_ORDER →
        Reflect fuel _ _ _
          = some (getBp (normalizeTable s.breakpointCount_.toNat (pinFirst t)) i).durationPos ∧
        (i ≠ 0 → Reflect fuel _ _ _
          = some (getBp (normalizeTable s.breakpointCount_.toNat (pinFirst t)) i).amplitudePos))
    rw [v1, v2, v3]
    refine ⟨?_, ?_, ?_⟩
    · intro hm
      have hne : s.walkMode_ ≠ WalkMode.FIRST_ORDER := by rw [hm]; decide
      have := hsecond hne
      rw [randAmp_correlated s _ hm, drawsPerBreakpoint_correlated s hm, Nat.one_mul] at this
      exact this
    · intro hm
      have hne : s.walkMode_ ≠ WalkMode.FIRST_ORDER := by rw [hm]; decide
      have hnc : s.walkMode_ ≠ WalkMode.CORRELATED := by rw [hm]; decide
      have := hsecond hne
      rw [randAmp_other s _ hnc, drawsPerBreakpoint_other s hnc,
        ← Function.iterate_succ_apply' FastRandom] at this
      exact this
    · intro hm
      have hnc : s.walkMode_ ≠ WalkMode.CORRELATED := by rw [hm]; decide
      have := hfirst hm
      rw [randAmp_other s _ hnc, drawsPerBreakpoint_other s hnc,
        ← Function.iterate_succ_apply' FastRandom] at this
      refine ⟨this.1, fun hi0 => ?_⟩
      rw [v4 hi0]
      exact this.2

theorem random_draws_witness :
    (0 < (construct zeroTable).durationBarrier_) ∧ (0 < (construct zeroTable).amplitudeBarrier_) ∧
    ((construct zeroTable).breakpointCount_ ≤ 16) ∧
    ∃ fuel s', UpdateWalks fuel (construct zeroTable) = some s' ∧
      s'.seed_ = FastRandom^[2 * (construct zeroTable).breakpointCount_.toNat]
        (construct zeroTable).seed_ := by
  have hd : 0 < (construct zeroTable).durationBarrier_ := by norm_num [construct]
  have ha : 0 < (construct zeroTable).amplitudeBarrier_ := by norm_num [construct]
  have h16 : (construct zeroTable).breakpointCount_ ≤ 16 := by decide
  obtain ⟨⟨fuel, s', h⟩, hall⟩ := random_draws (construct zeroTable) hd ha h16
  exact ⟨hd, ha, h16, fuel, s', h, (hall fuel s' h).2.1 (by decide)⟩

/-- C20, index safety.  In every state reachable from construction by public operations
the active count is in `[2, 16]`; and in every state with a count in `[2, 16]` every array
subscript in `Reset`, `UpdateWalks`, `NormalizeDurations` and `Process` (the loop
variables, `currentSegment_` and `nextSegment` included) lies in `[0, 15]`, the modulus
`breakpointCount_` in `Process` is not zero, and the state on which `Process` calls
`UpdateWalks` has the same count. -/
theorem index_safety :
    (∀ s : DSSEngine, ReachableFromConstruct s →
      2 ≤ s.breakpointCount_ ∧ s.breakpointCount_ ≤ 16) ∧
    (∀ s : DSSEngine, 2 ≤ s.breakpointCount_ → s.breakpointCount_ ≤ 16 →
      (∀ i ∈ Reset.indices s, 0 ≤ i ∧ i ≤ 15) ∧
      (∀ i ∈ UpdateWalks.indices s, 0 ≤ i ∧ i ≤ 15) ∧
      (∀ i ∈ NormalizeDurations.indices s, 0 ≤ i ∧ i ≤ 15) ∧
      (∀ i ∈ Process.indices s, 0 ≤ i ∧ i ≤ 15) ∧
      s.breakpointCount_ ≠ 0 ∧
      (0 ≤ (Process.segment s : Int) ∧ (Process.segment s : Int) ≤ 15) ∧
      (0 ≤ Int.tmod ((Process.segment s : Int) + 1) s.breakpointCount_ ∧
        Int.tmod ((Process.segment s : Int) + 1) s.breakpointCount_ ≤ 15) ∧
      ∀ p : ℚ, (Process.advance s p).breakpointCount_ = s.breakpointCount_) := by
  refine ⟨ReachableFromConstruct_count, ?_⟩
  intro s h2 h16
  have hloop := countLoop_range s h16
  have hnorm : ∀ i ∈ NormalizeDurations.indices s, 0 ≤ i ∧ i ≤ 15 := by
    intro i hi
    unfold NormalizeDurations.indices at hi
    rw [List.mem_append] at hi
    rcases hi with hi | hi <;> exact hloop i hi
  have hseg : (0 : Int) ≤ (Process.segment s : Int) ∧ (Process.segment s : Int) ≤ 15 := by
    have := segment_lt s (by omega)
    omega
  have hnext : 0 ≤ Int.tmod ((Process.segment s : Int) + 1) s.breakpointCount_ ∧
      Int.tmod ((Process.segment s : Int) + 1) s.breakpointCount_ ≤ 15 := by
    rw [Int.tmod_eq_emod (by omega) (by omega)]
    have a := Int.emod_nonneg ((Process.segment s : Int) + 1)
      (show s.breakpointCount_ ≠ 0 by omega)
    have b := Int.emod_lt_of_pos ((Process.segment s : Int) + 1)
      (show 0 < s.breakpointCount_ by omega)
    omega
  refine ⟨?_, ?_, hnorm, ?_, by omega, hseg, hnext, fun _ => rfl⟩
  · intro i hi
    unfold Reset.indices at hi
    simp only [List.mem_append, List.mem_map, List.mem_range, List.mem_cons,
      List.mem_singleton, List.not_mem_nil, or_false, MAX_BREAKPOINTS] at hi
    rcases hi with (⟨k, hk, rfl⟩ | hi) | hi
    · omega
    · rcases hi with rfl | rfl <;> exact ⟨by decide, by decide⟩
    · exact hnorm i hi
  · intro i hi
    unfold UpdateWalks.indices at hi
    simp only [List.mem_append, List.mem_cons, List.mem_singleton, List.not_mem_nil,
      or_false] at hi
    rcases hi with (hi | hi) | hi
    · exact hloop i hi
    · rcases hi with rfl | rfl <;> exact ⟨by decide, by decide⟩
    · exact hnorm i hi
  · intro i hi
    unfold Process.indices at hi
    simp only [List.mem_append, List.mem_cons, List.mem_singleton, List.not_mem_nil,
      or_false] at hi
    rcases hi with hi | hi
    · have := scanIndices_range s.breakpoints_ s.phase_ s.breakpointCount_.toNat 0 0 i hi
      push_cast at this
      omega
    · rcases hi with rfl | rfl | rfl
      · exact hseg
      · exact hseg
      · exact hnext

theorem index_safety_witness :
    ReachableFromConstruct (SetBreakpointCount 100 (Init 48000 (construct zeroTable))) ∧
    2 ≤ (SetBreakpointCount 100 (Init 48000 (construct zeroTable))).breakpointCount_ ∧
    (SetBreakpointCount 100 (Init 48000 (construct zeroTable))).breakpointCount_ ≤ 16 ∧
    ∀ i ∈ Process.indices (SetBreakpointCount 100 (Init 48000 (construct zeroTable))),
      0 ≤ i ∧ i ≤ 15 := by
  have hr : ReachableFromConstruct (SetBreakpointCount 100 (Init 48000 (construct zeroTable))) :=
    ReachableFromConstruct.setBreakpointCount 100
      (ReachableFromConstruct.init 48000 (ReachableFromConstruct.construct zeroTable))
  have hc := index_safety.1 _ hr
  exact ⟨hr, hc.1, hc.2, (index_safety.2 _ hc.1 hc.2).2.2.2.1⟩


/-! ## Claims settled in single precision -/

/-- C6 as stated fails in single precision.  For the seed 1822439274 the generator yields
the raw value 4294967233; its conversion to `float` rounds up to `2 ^ 32`, so
`RandomBipolar` returns exactly 1, which is neither below 1 nor equal to
`newSeed / 2^31 - 1`. -/
theorem RandomBipolar_upper_counterexample :
    (1822439274 * 1664525 + 1013904223) % 2 ^ 32 = 4294967233 ∧
    F32.RandomBipolar 1822439274 = (1, 4294967233) ∧
    ¬ (F32.RandomBipolar 1822439274).1 < 1 ∧
    (F32.RandomBipolar 1822439274).1 ≠
      ((F32.RandomBipolar 1822439274).2 : ℚ) / 2 ^ 31 - 1 := by decide!

/-- C6, amended.  For every seed, `RandomBipolar` sets the seed to
`(seed * 1664525 + 1013904223) mod 2^32` and returns the `float`
`float(float(float(newSeed) / 2^31) - 1)`, which lies in the closed interval `[-1, 1]`
and differs from the exact `newSeed / 2^31 - 1` by at most `2^-23`. -/
theorem RandomBipolar_closed_range (seed : Nat) :
    (F32.RandomBipolar seed).2 = (seed * 1664525 + 1013904223) % 2 ^ 32 ∧
    (F32.RandomBipolar seed).1 =
      F32.toFloat (F32.toFloat (F32.toFloat ((F32.RandomBipolar seed).2 : ℚ) / 2 ^ 31) - 1) ∧
    F32.IsFloat (F32.RandomBipolar seed).1 ∧
    -1 ≤ (F32.RandomBipolar seed).1 ∧ (F32.RandomBipolar seed).1 ≤ 1 ∧
    |(F32.RandomBipolar seed).1 - (((F32.RandomBipolar seed).2 : ℚ) / 2 ^ 31 - 1)|
      ≤ 1 / 2 ^ 23 := by
  obtain ⟨h1, h2, h3, h4⟩ := float_RandomBipolar_range seed
  refine ⟨rfl, ?_, h1, h2, h3, ?_⟩
  · show F32.toFloat (F32.toFloat (F32.toFloat (FastRandom seed : ℚ) / 2147483648) - 1) =
      F32.toFloat (F32.toFloat (F32.toFloat (FastRandom seed : ℚ) / 2 ^ 31) - 1)
    norm_num
  · have e : ((F32.RandomBipolar seed).2 : ℚ) / 2 ^ 31 - 1 =
        (FastRandom seed : ℚ) / 2147483648 - 1 := by
      show (FastRandom seed : ℚ) / 2 ^ 31 - 1 = (FastRandom seed : ℚ) / 2147483648 - 1
      norm_num
    rw [e]
    have : (1 : ℚ) / 2 ^ 23 = 1 / 8388608 := by norm_num
    rw [this]
    exact h4

/-- C7 at a failing input.  In single precision the loop `Reflect(val, -0.25f, 0.25f)`
started at `val = 33554432.0f` never ends: the first iteration gives `-33554432`, and
from then on each iteration maps `-33554432` to itself, because `0.25` is less than half
the spacing of the `float` values there.  The input arises from the public operations:
after `Init(48000)` and `SetDurationStep(1073741824)` the velocity barrier is `0.25`, the
first velocity that `UpdateWalks` reflects is `-80171648`, which the loop body maps to
itself, and `Sync` returns for no iteration bound. -/
theorem Reflect_rounding_stall :
    ((-1 : ℚ) / 4 < 1 / 4) ∧
    F32.IsFloat 33554432 ∧ F32.IsFloat (-1 / 4) ∧ F32.IsFloat (1 / 4) ∧
    F32.reflectBody 33554432 (-1 / 4) (1 / 4) = -33554432 ∧
    F32.reflectBody (-33554432) (-1 / 4) (1 / 4) = -33554432 ∧
    (∀ fuel, F32.Reflect fuel 33554432 (-1 / 4) (1 / 4) = none) ∧
    F32.toFloat ((SetDurationStep 1073741824
      (F32.Init 48000 (F32.construct zeroTable))).durationBarrier_ * (1 / 2)) = 1 / 4 ∧
    F32.toFloat ((getBp (F32.Init 48000 (F32.construct zeroTable)).breakpoints_ 0).durationVel +
      F32.toFloat ((F32.RandomBipolar (F32.Init 48000 (F32.construct zeroTable)).seed_).1 *
        (SetDurationStep 1073741824
          (F32.Init 48000 (F32.construct zeroTable))).durationStep_)) = -80171648 ∧
    F32.reflectBody (-80171648) (-1 / 4) (1 / 4) = -80171648 ∧
    (∀ mem fuel, F32.Sync fuel
      (SetDurationStep 1073741824 (F32.Init 48000 (F32.construct mem))) = none) := by
  have hfix : F32.reflectBody (-33554432) (-1 / 4) (1 / 4) = -33554432 := by decide!
  have hnext : F32.reflectBody 33554432 (-1 / 4) (1 / 4) = -33554432 := by decide!
  have hstall : ∀ fuel, F32.Reflect fuel 33554432 (-1 / 4) (1 / 4) = none := by
    apply float_Reflect_stall_next _ _ _ (by decide!)
    rw [hnext]
    exact float_Reflect_stall _ _ _ (by decide!) hfix
  refine ⟨by norm_num, by decide!, by decide!, by decide!, hnext, hfix, hstall,
    by decide!, by decide!, by decide!, ?_⟩
  intro mem fuel
  rw [float_Init_mem]
  exact float_UpdateWalks_stall
    { SetDurationStep 1073741824 (F32.Init 48000 (F32.construct zeroTable)) with
      phase_ := 0, currentSegment_ := 0, segmentPhase_ := 0 }
    (by decide!) (by decide!)
    (float_Reflect_stall _ _ _ (by decide!) (by decide!)) fuel

/-- C10 as stated fails in single precision.  After `Init(48000)` and `SetFrequency(480)`
the stored increment is the `float` nearest to `480 / 48000`, which is
`5368709 / 536870912`, less than `1/100`.  The 100 rounded additions of it reach
`16777205 / 16777216`, still below 1: 100 consecutive `Process` calls return, each of them
leaves the array and the seed as they were, so `UpdateWalks` has not run, and the phase
afterwards is not 0. -/
theorem cycle_scenario_counterexample :
    (F32.SetFrequency 480 (F32.Init 48000 (F32.construct zeroTable))).phaseIncrement_ =
      5368709 / 536870912 ∧
    (F32.SetFrequency 480 (F32.Init 48000 (F32.construct zeroTable))).phaseIncrement_
      ≠ 1 / 100 ∧
    (F32.Process.log 0 100
        (F32.SetFrequency 480 (F32.Init 48000 (F32.construct zeroTable)))).map
        (fun r => (r.1.map Prod.snd, r.2.phase_,
          decide (F32.walkState r.2 =
            F32.walkState (F32.SetFrequency 480 (F32.Init 48000 (F32.construct zeroTable)))))) =
      some (List.replicate 100 true, 16777205 / 16777216, true) := by decide!

/-- C10, amended.  After `Init(48000)` and `SetFrequency(480)` the phase increment is the
`float` `5368709 / 536870912`, and 101 consecutive `Process` calls return, for every
iteration bound.  Each of the first 100 calls leaves the array and the seed as they were
and a phase in `(0, 1)`, which is `16777205 / 16777216` after call 100.  Call 101 crosses
the cycle boundary: it is the only call that changes the array and the seed, the seed has
then advanced from 30368089 by the 16 draws of one `UpdateWalks` run, and the phase is
`83881 / 8388608`. -/
theorem cycle_scenario_float (mem : Table) (fuel : Nat) :
    (F32.SetFrequency 480 (F32.Init 48000 (F32.construct mem))).phaseIncrement_ =
      5368709 / 536870912 ∧
    (F32.SetFrequency 480 (F32.Init 48000 (F32.construct mem))).seed_ = 30368089 ∧
    FastRandom^[16] 30368089 = 3296055273 ∧
    (F32.Process.log fuel 101 (F32.SetFrequency 480 (F32.Init 48000 (F32.construct mem)))).map
        (fun r => (r.1.map Prod.snd,
          ((r.1.map Prod.fst).take 100).all (fun p => decide (0 < p ∧ p < 1)),
          (r.1.map Prod.fst).get? 99, r.2.phase_, r.2.seed_)) =
      some (List.replicate 100 true ++ [false], true,
        some (16777205 / 16777216), 83881 / 8388608, 3296055273) := by
  rw [float_Init_mem]
  refine ⟨by decide!, by decide!, by decide!, ?_⟩
  have h' : (F32.Process.log 0 101
      (F32.SetFrequency 480 (F32.Init 48000 (F32.construct zeroTable)))).map
      (fun r => (r.1.map Prod.snd,
        ((r.1.map Prod.fst).take 100).all (fun p => decide (0 < p ∧ p < 1)),
        (r.1.map Prod.fst).get? 99, r.2.phase_, r.2.seed_)) =
    some (List.replicate 100 true ++ [false], true,
      some (16777205 / 16777216), 83881 / 8388608, 3296055273) := by decide!
  cases h : F32.Process.log 0 101
      (F32.SetFrequency 480 (F32.Init 48000 (F32.construct zeroTable))) with
  | none => rw [h] at h'; simp at h'
  | some r =>
    rw [float_log_mono (Nat.zero_le fuel) 101 h]
    rw [h] at h'
    exact h'

/-- C17 as stated fails in single precision.  After `Init(48000)`, the frequency
`47999.99609375` (the largest `float` below the sample rate) gives the increment
`1 - 2^-24`, and one `Process` call leaves the phase at `1 - 2^-24`.  `SetFrequency(48000)`,
allowed by `frequency <= sampleRate`, then gives the increment 1; the sum `2 - 2^-24` rounds
to 2, and the next `Process` call leaves the phase at exactly 1, outside `[0, 1)`. -/
theorem phase_invariant_counterexample :
    (F32.Init 48000 (F32.construct zeroTable)).sampleRate_ = 48000 ∧
    (0 : ℚ) < 48000 ∧ 0 < (F32.Init 48000 (F32.construct zeroTable)).durationBarrier_ ∧
    0 < (F32.Init 48000 (F32.construct zeroTable)).amplitudeBarrier_ ∧
    F32.IsFloat (12287999 / 256) ∧ (0 : ℚ) ≤ 12287999 / 256 ∧ (12287999 : ℚ) / 256 ≤ 48000 ∧
    F32.IsFloat 48000 ∧ (0 : ℚ) ≤ 48000 ∧ (48000 : ℚ) ≤ 48000 ∧
    (F32.SetFrequency (12287999 / 256)
      (F32.Init 48000 (F32.construct zeroTable))).phaseIncrement_ = 16777215 / 16777216 ∧
    ((F32.Process 0 (F32.SetFrequency (12287999 / 256)
        (F32.Init 48000 (F32.construct zeroTable)))).map
      fun r => (r.2.phase_, (F32.SetFrequency 48000 r.2).phaseIncrement_)) =
      some (16777215 / 16777216, 1) ∧
    ((F32.Process 0 (F32.SetFrequency (12287999 / 256)
        (F32.Init 48000 (F32.construct zeroTable)))).bind
      fun r => (F32.Process 0 (F32.SetFrequency 48000 r.2)).map fun q => q.2.phase_) =
      some 1 := by decide!

/-- C17, amended.  In a state whose sample rate and frequency are `float` values with
`sampleRate > 0` and `0 <= frequency < sampleRate`, whose increment is the rounded quotient
and whose phase is a `float` in `[0, 1)`: a `Process` call that does not cross the cycle
boundary returns for every iteration bound, and after every `Process` call that returns
the phase is again a `float` in `[0, 1)`.  `Reset` and `Sync` set the phase to 0.  Hence in
every state reachable under this frequency condition the phase is in `[0, 1)`. -/
theorem phase_invariant_float :
    (∀ s : DSSEngine, F32.FrequencyCondition s →
      F32.IsFloat s.phase_ → 0 ≤ s.phase_ → s.phase_ < 1 →
      (F32.toFloat (s.phase_ + s.phaseIncrement_) < 1 →
        ∀ fuel, ∃ r, F32.Process fuel s = some r) ∧
      ∀ fuel out s', F32.Process fuel s = some (out, s') →
        F32.IsFloat s'.phase_ ∧ 0 ≤ s'.phase_ ∧ s'.phase_ < 1) ∧
    (∀ s : DSSEngine, (F32.Reset s).phase_ = 0) ∧
    (∀ (s : DSSEngine) (fuel : Nat) (s' : DSSEngine),
      F32.Sync fuel s = some s' → s'.phase_ = 0) ∧
    (∀ s : DSSEngine, F32.ReachableFreq s →
      F32.FrequencyCondition s ∧ F32.IsFloat s.phase_ ∧ 0 ≤ s.phase_ ∧ s.phase_ < 1) := by
  refine ⟨?_, fun s => (float_Reset_fields s).1, fun s fuel s' h => (float_Sync_frame h).1,
    float_reachable_phase⟩
  intro s hf hp h0 h1
  constructor
  · intro hc fuel
    exact ⟨_, by rw [float_Process_eq, if_neg (not_le.mpr hc)]⟩
  · intro fuel out s' h
    exact (float_Process_invariant hf hp h0 h1 h).2

theorem phase_invariant_float_witness :
    ∃ out s', F32.Process 0 (F32.SetFrequency (12287999 / 256)
        (F32.Init 48000 (F32.construct zeroTable))) = some (out, s') ∧
      F32.ReachableFreq s' ∧ s'.phase_ = 16777215 / 16777216 ∧
      F32.FrequencyCondition s' ∧ F32.IsFloat s'.phase_ ∧ 0 ≤ s'.phase_ ∧ s'.phase_ < 1 := by
  have hr0 : F32.ReachableFreq (F32.SetFrequency (12287999 / 256)
      (F32.Init 48000 (F32.construct zeroTable))) :=
    F32.ReachableFreq.setFrequency (12287999 / 256)
      (F32.ReachableFreq.init zeroTable 48000 (by decide!) (by norm_num))
      (by decide!) (by norm_num) (by decide!)
  have hc : ¬ F32.toFloat ((F32.SetFrequency (12287999 / 256)
      (F32.Init 48000 (F32.construct zeroTable))).phase_ +
      (F32.SetFrequency (12287999 / 256)
        (F32.Init 48000 (F32.construct zeroTable))).phaseIncrement_) ≥ 1 := by decide!
  have hp : F32.Process 0 (F32.SetFrequency (12287999 / 256)
      (F32.Init 48000 (F32.construct zeroTable))) =
      some (F32.Process.output (F32.SetFrequency (12287999 / 256)
          (F32.Init 48000 (F32.construct zeroTable))),
        F32.Process.advance (F32.SetFrequency (12287999 / 256)
          (F32.Init 48000 (F32.construct zeroTable)))
          (F32.toFloat ((F32.SetFrequency (12287999 / 256)
            (F32.Init 48000 (F32.construct zeroTable))).phase_ +
            (F32.SetFrequency (12287999 / 256)
              (F32.Init 48000 (F32.construct zeroTable))).phaseIncrement_))) := by
    rw [float_Process_eq, if_neg hc]
  have hr1 := F32.ReachableFreq.process 0 _ hr0 hp
  exact ⟨_, _, hp, hr1, by decide!, phase_invariant_float.2.2.2 _ hr1⟩

end DSS
